import Mathlib

/-!
Ledger: storage engine and v1 transaction handler.

A shallow embedding of parts of the ledger repository:

* `internal/storage/ledger/accounts.go`: the accounts table, `upsertAccount`,
  `UpdateAccountsMetadata` and the account query builder `selectAccounts`;
* `internal/api/v1/controllers_transactions_create.go`: the v1 handler
  `createTransaction`;
* `pkg/storage/sqlstorage/log.go`: `appendLog` / `AppendLog`.

SQL statements are embedded by their effect on tables, which are lists of rows.
-/

namespace Ledger

/-! ## Basic types -/

/-- A timestamp, as a count of time units since the zero time (`time.Time{}`). -/
abbrev Time := Int

/-- Go `Time.IsZero`. -/
def Time.IsZero (t : Time) : Bool := t == 0

/-- Go `metadata.Metadata` (`map[string]string`), stored as a `jsonb` object. The
first pair with a given key is the binding of that key. -/
abbrev Metadata := List (String × String)

/-- PostgreSQL `a || b` on `jsonb` objects: the union of both objects, the right
operand winning on a key held by both. -/
def jsonbConcat (a b : Metadata) : Metadata :=
  b ++ a.filter (fun p => (b.lookup p.1).isNone)

/-- PostgreSQL `a @> b` on `jsonb` objects: every binding of `b` is a binding of `a`. -/
def jsonbContains (a b : Metadata) : Bool :=
  b.all (fun p => a.lookup p.1 == some p.2)

/-! ## The accounts table (`internal/storage/ledger/accounts.go`) -/

/-- The persisted columns of `type Account struct` (the scan-only volume columns are
not part of the row). -/
structure Account where
  Ledger : String
  Address : String
  Metadata : Metadata
  InsertionDate : Time
  UpdatedAt : Time
  FirstUsage : Time
  deriving DecidableEq, Repr

/-- Modelled from the spec: the ledger descriptor (`ledger.Ledger`, declared outside
`accounts.go`): a name and a feature set mapping a feature to its value. -/
structure LedgerInfo where
  Name : String
  Bucket : String
  Features : String → String

/-- Modelled from the spec: `Ledger.HasFeature` (declared outside `accounts.go`): the
feature is configured with exactly this value. -/
def LedgerInfo.HasFeature (l : LedgerInfo) (feature value : String) : Bool :=
  l.Features feature == value

/-- The `Store` of `internal/storage/ledger`: the ledger it serves and the `accounts`
relation of its bucket (rows of every ledger of the bucket, unique on
`(ledger, address)`). -/
structure Store where
  ledger : LedgerInfo
  accounts : List Account

/-- The arbiter of `on conflict (ledger, address)`: the stored row `r` conflicts with a
row proposed for `(ledger, address)`. -/
def conflictsWith (ledger address : String) (r : Account) : Bool :=
  r.Ledger == ledger && r.Address == address

/-- The stored row of `(ledger, address)`, if any. -/
def Store.findAccount (s : Store) (ledger address : String) : Option Account :=
  s.accounts.find? (conflictsWith ledger address)

/-- The row written by the `do update` arm of `upsertAccount`, from the stored row
`row`, the row proposed for insertion `excluded` and the statement's parameters, which
are `account.FirstUsage` (twice in the first `Set`) and `account.UpdatedAt`:
`first_usage = case when ? < excluded.first_usage then ? else excluded.first_usage end`,
`metadata = accounts.metadata || excluded.metadata`, `updated_at = ?`. -/
def upsertAccountUpdate (account excluded row : Account) : Account :=
  { row with
    FirstUsage :=
      if account.FirstUsage < excluded.FirstUsage then account.FirstUsage
      else excluded.FirstUsage
    Metadata := jsonbConcat row.Metadata excluded.Metadata
    UpdatedAt := account.UpdatedAt }

/-- The `Where` of the `do update` arm of `upsertAccount`:
`(? < accounts.first_usage) or not accounts.metadata @> excluded.metadata`. -/
def upsertAccountWhere (account excluded row : Account) : Bool :=
  decide (account.FirstUsage < row.FirstUsage) ||
    !(jsonbContains row.Metadata excluded.Metadata)

/-- `Store.upsertAccount`: the new table, the caller's account after the call (its
`FirstUsage`, `InsertionDate`, `UpdatedAt` and `Metadata` are overwritten with those of
the row read back) and the `upserted` flag. When the flag is false the transaction is
rolled back, which leaves the table as it was. Database failures are not modelled. -/
def upsertAccount (s : Store) (account : Account) : Store × Account × Bool :=
  -- `Model(account)` with `Value("ledger", "?", s.ledger.Name)`
  let excluded : Account := { account with Ledger := s.ledger.Name }
  let fill (r : Account) : Account :=
    { account with
      FirstUsage := r.FirstUsage
      InsertionDate := r.InsertionDate
      UpdatedAt := r.UpdatedAt
      Metadata := r.Metadata }
  match s.findAccount s.ledger.Name account.Address with
  | none =>
    -- no conflict: `ins` returns the inserted row
    ({ s with accounts := s.accounts ++ [excluded] }, fill excluded, true)
  | some row =>
    if upsertAccountWhere account excluded row then
      -- `ins` returns the updated row, selected first with `true as upserted`
      let updated := upsertAccountUpdate account excluded row
      ({ s with
          accounts := s.accounts.map (fun r =>
            if conflictsWith s.ledger.Name account.Address r then updated else r) },
        fill updated, true)
    else
      -- `ins` is empty: the stored row is selected with `false as upserted`
      (s, fill row, false)

/-- One row of the multi-row insert of `UpdateAccountsMetadata`:
`on conflict (ledger, address) do update set metadata = excluded.metadata || accounts.metadata
where not accounts.metadata @> excluded.metadata`. -/
def updateAccountsMetadataRow (rows : List Account) (excluded : Account) : List Account :=
  if rows.any (conflictsWith excluded.Ledger excluded.Address) then
    rows.map (fun r =>
      if conflictsWith excluded.Ledger excluded.Address r
          && !(jsonbContains r.Metadata excluded.Metadata) then
        { r with Metadata := jsonbConcat excluded.Metadata r.Metadata }
      else r)
  else rows ++ [excluded]

/-- `Store.UpdateAccountsMetadata`: `m` is the Go map as the list of its entries (one
per address), `now` is `time.Now()`. Database failures are not modelled. -/
def UpdateAccountsMetadata (s : Store) (m : List (String × Metadata)) (now : Time) : Store :=
  let accounts : List Account := m.map (fun e =>
    { Ledger := s.ledger.Name
      Address := e.1
      Metadata := e.2
      InsertionDate := now
      UpdatedAt := now
      FirstUsage := now })
  { s with accounts := accounts.foldl updateAccountsMetadataRow s.accounts }

/-- A ledger named `l1` with every feature unset. -/
def ledgerL1 : LedgerInfo := { Name := "l1", Bucket := "b1", Features := fun _ => "" }

/-- A store of ledger `l1` holding one account `alice`, first used at time 1, with
metadata `foo = old`. -/
def storeAlice : Store :=
  { ledger := ledgerL1
    accounts := [
      { Ledger := "l1", Address := "alice", Metadata := [("foo", "old")],
        InsertionDate := 1, UpdatedAt := 1, FirstUsage := 1 }] }

/-- An incoming account `alice` first used at time 5, later than the stored row, with
metadata `role = admin`, which the stored row does not hold. -/
def incomingAlice : Account :=
  { Ledger := "l1", Address := "alice", Metadata := [("role", "admin")],
    InsertionDate := 5, UpdatedAt := 5, FirstUsage := 5 }

/-- The map `{alice: {foo: bar}}` passed to `UpdateAccountsMetadata`. -/
def metadataUpdateAlice : List (String × Metadata) := [("alice", [("foo", "bar")])]

/-! ## Results of fallible code -/

/-- The errors of the storage layer that the account queries distinguish, as
`errors.Is` sees them: `ErrInvalidQuery`, `ErrMissingFeature`, any other error, and
`errors.Wrap`, which keeps the wrapped error reachable. -/
inductive Err
  | invalidQuery (msg : String)
  | missingFeature (feature : String)
  | other (msg : String)
  | wrap (e : Err) (msg : String)
  deriving DecidableEq, Repr

/-- Go `errors.Is(err, ErrInvalidQuery{})`. -/
def Err.isInvalidQuery : Err → Bool
  | .invalidQuery _ => true
  | .wrap e _ => e.isInvalidQuery
  | _ => false

/-- Go `errors.Is(err, ErrMissingFeature{})`. -/
def Err.isMissingFeature : Err → Bool
  | .missingFeature _ => true
  | .wrap e _ => e.isMissingFeature
  | _ => false

/-- What a Go call yields: a value, an error, or a panic that unwinds the caller. -/
inductive Outcome (ε α : Type)
  | ok (a : α)
  | error (e : ε)
  | panic (msg : String)
  deriving DecidableEq, Repr

/-- Sequencing: an error or a panic of the first step is the result. -/
def Outcome.bind {ε α β : Type} (x : Outcome ε α) (f : α → Outcome ε β) : Outcome ε β :=
  match x with
  | .ok a => f a
  | .error e => .error e
  | .panic msg => .panic msg

/-! ## The filter DSL (`go-libs/query`, an external library) -/

/-- A filter value (Go `any`), as decoded from the JSON filter. -/
inductive Value
  | str (s : String)
  | num (n : Int)
  | other
  deriving DecidableEq, Repr

/-- The expression tree of `query.Builder`: a leaf `keyValue{operator, key, value}`,
a `set{operator, items}` (`$and`, `$or`) and `not{expression}`. -/
inductive Builder
  | keyValue (operator key : String) (value : Value)
  | set (operator : String) (items : List Builder)
  | not (expression : Builder)

mutual
/-- The `Walk` method of `query.Builder`: calls `f` on every leaf, left to right, and
stops at the first error. The state `σ` stands for the variables `f` captures. -/
def Builder.Walk {σ : Type} (f : String → String → Value → σ → Outcome Err σ) :
    Builder → σ → Outcome Err σ
  | .keyValue operator key value, st => f operator key value st
  | .set _ items, st => Builder.WalkItems f items st
  | .not expression, st => Builder.Walk f expression st
/-- The loop of `set.Walk` over its items. -/
def Builder.WalkItems {σ : Type} (f : String → String → Value → σ → Outcome Err σ) :
    List Builder → σ → Outcome Err σ
  | [], st => .ok st
  | item :: rest, st =>
    match Builder.Walk f item st with
    | .ok st1 => Builder.WalkItems f rest st1
    | .error e => .error e
    | .panic msg => .panic msg
end

/-- An argument bound to a `?` placeholder. -/
inductive Arg
  | str (s : String)
  | time (t : Time)
  | value (v : Value)
  | object (key : String) (v : Value)
  deriving DecidableEq, Repr

/-- A `where` expression. The SQL text that `Build` renders is kept as a tree:
`raw` is a text with its arguments; `balance` is the sub-select
`select balance <op> ? from (selectBalance(date) [where asset = ?] ...) balance`;
`one` is the `1 = 1` of an empty set; `join` is `(c1) op (c2) ...`; `not` is
`not (c)`. -/
inductive Clause
  | raw (text : String) (args : List Arg)
  | balance (date : Option Time) (asset : Option String) (columnExpr : String) (value : Value)
  | one
  | join (operator : String) (items : List Clause)
  | not (c : Clause)

mutual
/-- The `Build` method of `query.Builder`, with `ctx` the `query.ContextFn` called as
`ctx key operator value`. -/
def Builder.Build (ctx : String → String → Value → Outcome Err Clause) :
    Builder → Outcome Err Clause
  | .keyValue operator key value => ctx key operator value
  | .set operator items =>
    match items with
    | [] => .ok .one
    | item :: rest =>
      match Builder.BuildItems ctx (item :: rest) with
      | .ok [clause] => .ok clause
      | .ok clauses => .ok (.join operator clauses)
      | .error e => .error e
      | .panic msg => .panic msg
  | .not expression =>
    match Builder.Build ctx expression with
    | .ok sub => .ok (.not sub)
    | .error e => .error e
    | .panic msg => .panic msg
/-- The loop of `set.Build` over its items: the clauses built, or the first failure. -/
def Builder.BuildItems (ctx : String → String → Value → Outcome Err Clause) :
    List Builder → Outcome Err (List Clause)
  | [] => .ok []
  | item :: rest =>
    match Builder.Build ctx item with
    | .ok clause =>
      match Builder.BuildItems ctx rest with
      | .ok clauses => .ok (clause :: clauses)
      | .error e => .error e
      | .panic msg => .panic msg
    | .error e => .error e
    | .panic msg => .panic msg
end

/-! ## Key patterns -/

/-- The tail `(.*)]` of a key pattern, matched greedily at the head of the input: the
longest run of characters other than a newline that is followed by `]`. -/
def greedyUntilBracket : List Char → Option (List Char)
  | [] => none
  | c :: cs =>
    if c = '\n' then none
    else
      match greedyUntilBracket cs with
      | some cap => some (c :: cap)
      | none => if c = ']' then some [] else none

/-- The first match of the unanchored pattern `<literal>(.*)]` in the input, as Go's
`regexp` finds it (leftmost start, greedy group): the text of group 1. -/
def regexFind (literal : List Char) : List Char → Option (List Char)
  | [] => none
  | c :: cs =>
    match (if literal.isPrefixOf (c :: cs) then
        greedyUntilBracket ((c :: cs).drop literal.length) else none) with
    | some cap => some cap
    | none => regexFind literal cs

/-- Group 1 of the first match of ``balanceRegex = regexp.MustCompile(`balance\[(.*)]`)``
in `key`, which is `match[0][1]` of `FindAllStringSubmatch`; `none` when there is no
match. -/
def balanceRegexFind (key : String) : Option String :=
  (regexFind "balance[".toList key.toList).map String.mk

/-- The check `balanceRegex.Match([]byte(key))`. -/
def balanceRegexMatch (key : String) : Bool :=
  (balanceRegexFind key).isSome

/-- The parts of package `internal/storage/ledger` that `selectAccounts` uses and that
are declared outside `accounts.go`: `Store.validateAddressFilter` (`none` is a nil
error), `filterAccountAddress`, and `metadataRegex` as the function giving group 1 of
its first match in a key (`none` when it does not match). -/
structure Deps where
  validateAddressFilter : LedgerInfo → String → Value → Option Err
  filterAccountAddress : String → String → String
  metadataRegex : String → Option String

/-- Modelled from the spec: `metadataRegex`, declared outside `accounts.go`, for the key
shape `metadata[<key>]`: the pattern `metadata\[(.+)]` written like `balanceRegex`, with
a non-empty group. -/
def metadataRegexFind (key : String) : Option String :=
  match regexFind "metadata[".toList key.toList with
  | some (c :: cs) => some (String.mk (c :: cs))
  | _ => none

/-- Modelled from the spec: an instance of the declarations `selectAccounts` uses from
outside `accounts.go`: `address` accepts `$match` on a string, and the address filter
is rendered as an equality. -/
def stdDeps : Deps :=
  { validateAddressFilter := fun _ operator value =>
      if operator != "$match" then
        some (.invalidQuery "'address' column can only be used with $match")
      else match value with
        | .str _ => none
        | _ => some (.invalidQuery "invalid 'address' filter")
    filterAccountAddress := fun address key => key ++ " = '" ++ address ++ "'"
    metadataRegex := metadataRegexFind }

/-! ## The account query (`Store.selectAccounts`) -/

/-- A sub-select without joins, as `selectDistinctAccountMetadataHistories` builds it. -/
structure SubSelect where
  distinctOn : List String
  table : String
  columns : List String
  wheres : List Clause
  order : List String

/-- A `left join (?) <alias> on <alias>.accounts_address = accounts.address` of the
account query: on the latest metadata revision, on the aggregated `post_commit_volumes`
(`pcv`), or on the aggregated `post_commit_effective_volumes` (`pcev`); the last two
sub-selects are built from `date` by code outside `accounts.go`. -/
inductive Join
  | accountsMetadata (sub : SubSelect)
  | pcv (date : Option Time)
  | pcev (date : Option Time)

/-- The `*bun.SelectQuery` that `selectAccounts` returns. -/
structure SelectQuery where
  table : String
  columns : List String
  wheres : List Clause
  order : List String
  joins : List Join

/-- The source's `convertOperatorToSQL`; an operator outside the five cases reaches
`panic("unreachable")`. -/
def convertOperatorToSQL (operator : String) : Outcome Err String :=
  if operator = "$match" then .ok "="
  else if operator = "$lt" then .ok "<"
  else if operator = "$gt" then .ok ">"
  else if operator = "$lte" then .ok "<="
  else if operator = "$gte" then .ok ">="
  else .panic "unreachable"

/-- Modelled from the spec: `Store.GetPrefixedRelationName` (declared outside
`accounts.go`): relation names are prefixed by the bucket. -/
def Store.GetPrefixedRelationName (s : Store) (v : String) : String :=
  "\"" ++ s.ledger.Bucket ++ "\"." ++ v

/-- The test `date != nil && !date.IsZero()`. -/
def pitGiven (date : Option Time) : Bool :=
  match date with
  | some t => !t.IsZero
  | none => false

/-- The source's `Store.selectDistinctAccountMetadataHistories`. -/
def selectDistinctAccountMetadataHistories (s : Store) (date : Option Time) : SubSelect :=
  let ret : SubSelect :=
    { distinctOn := ["accounts_address"]
      table := s.GetPrefixedRelationName "accounts_metadata"
      columns := ["accounts_address", "metadata"]
      wheres := [.raw "ledger = ?" [.str s.ledger.Name]]
      order := ["accounts_address", "revision desc"] }
  match date with
  | some t =>
    if !t.IsZero then { ret with wheres := ret.wheres ++ [.raw "date <= ?" [.time t]] }
    else ret
  | none => ret

/-- The callback that `selectAccounts` passes to `qb.Walk`. The state is the captured
variable `needPCV`. -/
def checkFilter (d : Deps) (s : Store) (operator key : String) (value : Value)
    (needPCV : Bool) : Outcome Err Bool :=
  if balanceRegexMatch key then .ok true
  else if key = "address" then
    match d.validateAddressFilter s.ledger operator value with
    | some e => .error e
    | none => .ok needPCV
  else if key = "metadata" then
    if operator ≠ "$exists" then
      .error (.invalidQuery "'metadata' key filter can only be used with $exists")
    else .ok needPCV
  else if (d.metadataRegex key).isSome then
    if operator ≠ "$match" then
      .error (.invalidQuery "'metadata' key filter can only be used with $match")
    else .ok needPCV
  else .error (.invalidQuery ("unknown key '" ++ key ++ "' when building query"))

/-- The `query.ContextFn` that `selectAccounts` passes to `qb.Build`. -/
def buildMatcher (d : Deps) (s : Store) (date : Option Time) (key operator : String)
    (value : Value) : Outcome Err Clause :=
  if key = "address" then
    match value with
    | .str v => .ok (.raw (d.filterAccountAddress v "accounts.address") [])
    | _ => .panic "interface conversion: interface {} is not string"
  else
    match balanceRegexFind key with
    | some asset =>
      (convertOperatorToSQL operator).bind fun op =>
        .ok (.balance date (some asset) ("balance " ++ op ++ " ?") value)
    | none =>
      if key = "balance" then
        (convertOperatorToSQL operator).bind fun op =>
          .ok (.balance date none ("balance " ++ op ++ " ?") value)
      else if key = "metadata" then
        let column :=
          if s.ledger.HasFeature "ACCOUNT_METADATA_HISTORY" "SYNC" && pitGiven date then
            "accounts_metadata.metadata"
          else key
        .ok (.raw (column ++ " -> ? is not null") [.value value])
      else
        match d.metadataRegex key with
        | some name =>
          let column :=
            if s.ledger.HasFeature "ACCOUNT_METADATA_HISTORY" "SYNC" && pitGiven date then
              "accounts_metadata.metadata"
            else "metadata"
          .ok (.raw (column ++ " @> ?") [.object name value])
        | none => .panic "unreachable"

/-- The part of `Store.selectAccounts` under `// build the query`, up to the filters:
the base projection, the PIT bound on `first_usage` and the three optional joins.
`needPCV` is the variable of that name after the filter check. -/
def buildAccountsQuery (s : Store) (date : Option Time)
    (expandEffectiveVolumes needPCV : Bool) : SelectQuery :=
  let ret : SelectQuery :=
    { table := s.GetPrefixedRelationName "accounts"
      columns := ["accounts.address", "accounts.first_usage"]
      wheres := [.raw "ledger = ?" [.str s.ledger.Name]]
      order := ["accounts.address"]
      joins := [] }
  let ret : SelectQuery :=
    match date with
    | some t =>
      if !t.IsZero then
        { ret with wheres := ret.wheres ++ [.raw "accounts.first_usage <= ?" [.time t]] }
      else ret
    | none => ret
  let ret : SelectQuery :=
    if s.ledger.HasFeature "ACCOUNT_METADATA_HISTORY" "SYNC" && pitGiven date then
      { ret with
        joins := ret.joins ++
          [.accountsMetadata (selectDistinctAccountMetadataHistories s date)]
        columns := ret.columns ++
          ["coalesce(accounts_metadata.metadata, '{}'::jsonb) as metadata"] }
    else { ret with columns := ret.columns ++ ["accounts.metadata"] }
  let ret : SelectQuery :=
    if s.ledger.HasFeature "MOVES_HISTORY" "ON" && needPCV then
      { ret with joins := ret.joins ++ [.pcv date], columns := ret.columns ++ ["pcv.*"] }
    else ret
  if s.ledger.HasFeature "MOVES_HISTORY_POST_COMMIT_EFFECTIVE_VOLUMES" "SYNC"
      && expandEffectiveVolumes then
    { ret with joins := ret.joins ++ [.pcev date], columns := ret.columns ++ ["pcev.*"] }
  else ret

/-- The source's `Store.selectAccounts`; `qb = none` is the nil builder. An error set
with `ret.Err` is the `error` outcome. -/
def selectAccounts (d : Deps) (s : Store) (date : Option Time)
    (expandVolumes expandEffectiveVolumes : Bool) (qb : Option Builder) :
    Outcome Err SelectQuery :=
  -- analyze filters to check for errors and find potentially additional table to load
  let walked : Outcome Err Bool :=
    match qb with
    | some b => b.Walk (checkFilter d s) expandVolumes
    | none => .ok expandVolumes
  match walked with
  | .error e => .error (.wrap e "failed to check filters")
  | .panic msg => .panic msg
  | .ok needPCV =>
    -- build the query
    let ret := buildAccountsQuery s date expandEffectiveVolumes needPCV
    match qb with
    | some b =>
      -- convert filters to where clause
      match b.Build (buildMatcher d s date) with
      | .error e => .error (.wrap e "evaluating filters")
      | .panic msg => .panic msg
      | .ok clause => .ok { ret with wheres := ret.wheres ++ [clause] }
    | none => .ok ret

/-- The result of `selectAccounts` is an error that `errors.Is` recognises as
`ErrInvalidQuery` (reported to clients as `INVALID_QUERY`). -/
def failsInvalidQuery (r : Outcome Err SelectQuery) : Bool :=
  match r with
  | .error e => e.isInvalidQuery
  | _ => false

/-- The result of `selectAccounts` is an error that `errors.Is` recognises as
`ErrMissingFeature` (reported to clients as `MISSING_FEATURE`). -/
def failsMissingFeature (r : Outcome Err SelectQuery) : Bool :=
  match r with
  | .error e => e.isMissingFeature
  | _ => false

/-- The last `where` of a built account query: the clause of the filter. -/
def filterClause (r : Outcome Err SelectQuery) : Option Clause :=
  match r with
  | .ok q => q.wheres.getLast?
  | _ => none

/-! ## The v1 handler (`internal/api/v1/controllers_transactions_create.go`) -/

/-- A posting of `ledger.Postings`. -/
structure Posting where
  Source : String
  Destination : String
  Asset : String
  Amount : Int
  deriving DecidableEq, Repr

/-- A JSON value as `encoding/json` reads it: a number literal is an integer literal
(`num`) or has a fraction or an exponent (`frac`, kept as its text); the members of an
object are in the order of the text. -/
inductive Json
  | null
  | bool (b : Bool)
  | num (n : Int)
  | frac (text : String)
  | str (s : String)
  | arr (items : List Json)
  | obj (members : List (String × Json))

/-- The v1 `Script` of a request: the script text and the variables as raw JSON, in the
order in which the run of `range` over the map visits them. -/
structure Script where
  Plain : String
  Vars : List (String × Json)

/-- The core `ledger.Script`: text and variables as strings. -/
structure CoreScript where
  Plain : String
  Vars : List (String × String)
  deriving DecidableEq, Repr

/-- Go `json.Unmarshal(v, &m)` for `m : map[string]json.RawMessage`: an object gives its
members, `null` gives the nil map, any other value is an error. -/
def unmarshalMap : Json → Except String (List (String × Json))
  | .obj members => .ok members
  | .null => .ok []
  | _ => .error "json: cannot unmarshal into Go value of type map[string]json.RawMessage"

/-- Go `m[key]` on the decoded map: the member of that name, the last one when the
object repeats it, and the nil `RawMessage` (`none`) when it has none. -/
def rawMember (m : List (String × Json)) (key : String) : Option Json :=
  m.reverse.lookup key

/-- Go `json.Unmarshal(raw, &x)` for `var x string`: a nil `RawMessage` is an error, a
string is stored, `null` has no effect and is no error, any other value is an error. -/
def unmarshalString (raw : Option Json) (x : String) : Except String String :=
  match raw with
  | none => .error "unexpected end of JSON input"
  | some .null => .ok x
  | some (.str s) => .ok s
  | some _ => .error "json: cannot unmarshal into Go value of type string"

/-- Go `json.Unmarshal(raw, amount)` for `amount : *big.Int`: a nil `RawMessage` is an
error; `big.Int.UnmarshalJSON` ignores `null`, reads an integer literal exactly, and
fails on any other text (a number with a fraction or an exponent, a quoted string, a
boolean, an array, an object). -/
def unmarshalBigInt (raw : Option Json) (amount : Int) : Except String Int :=
  match raw with
  | none => .error "unexpected end of JSON input"
  | some .null => .ok amount
  | some (.num n) => .ok n
  | some _ => .error "math/big: cannot unmarshal into a *big.Int"

/-- Go `s.Script.Vars[k] = value` on the map of the result. -/
def varsSet (vars : List (String × String)) (k value : String) : List (String × String) :=
  if vars.any (fun p => p.1 == k) then
    vars.map (fun p => if p.1 == k then (k, value) else p)
  else vars ++ [(k, value)]

/-- The body of the loop of `Script.ToCore` on one value `v`: the string stored under
the key, an error returned, or a panic. `fmt.Sprintf("%s %s", asset, amount)` writes the
`big.Int` in base 10. -/
def convertVar (v : Json) : Outcome String String :=
  match unmarshalMap v with
  | .error _ =>
    match unmarshalString (some v) "" with
    | .error err => .panic err
    | .ok rawValue => .ok rawValue
  | .ok m =>
    -- Is a monetary
    match unmarshalString (rawMember m "asset") "" with
    | .error err => .error ("unmarshalling asset: " ++ err)
    | .ok asset =>
      match unmarshalBigInt (rawMember m "amount") 0 with
      | .error err => .error ("unmarshalling amount: " ++ err)
      | .ok amount => .ok (asset ++ " " ++ toString amount)

/-- The loop of `Script.ToCore` over the variables still to visit, with the map built
so far. -/
def toCoreVars : List (String × Json) → List (String × String) →
    Outcome String (List (String × String))
  | [], out => .ok out
  | (k, v) :: rest, out =>
    match convertVar v with
    | .panic msg => .panic msg
    | .error err => .error err
    | .ok value => toCoreVars rest (varsSet out k value)

/-- The source's `Script.ToCore`. -/
def Script.ToCore (s : Script) : Outcome String CoreScript :=
  match toCoreVars s.Vars [] with
  | .panic msg => .panic msg
  | .error err => .error err
  | .ok vars => .ok { Plain := s.Plain, Vars := vars }

/-- The monetary value `{"asset": a, "amount": n}`. -/
def monetary (a : String) (n : Int) : Json :=
  .obj [("asset", .str a), ("amount", .num n)]

/-- The source's `CreateTransactionRequest`. -/
structure CreateTransactionRequest where
  Postings : List Posting
  Script : Script
  Timestamp : Time
  Reference : String
  Metadata : Metadata

/-- The core `ledger.TransactionData` built from a postings payload. -/
structure TransactionData where
  Postings : List Posting
  Timestamp : Time
  Reference : String
  Metadata : Metadata
  deriving DecidableEq, Repr

/-- The core `ledger.RunScript` handed to the controller. -/
structure RunScript where
  Script : CoreScript
  Timestamp : Time
  Reference : String
  Metadata : Metadata
  deriving DecidableEq, Repr

/-- The error of the controller's `CreateTransaction`, by the `errors.Is` test of the
handler that it satisfies; `other` satisfies none of them. -/
inductive ControllerErr
  | ErrInsufficientFunds
  | ErrInvalidVars
  | ErrCompilationFailed
  | ErrMetadataOverride
  | ErrNoPostings
  | ErrReferenceConflict
  | other (msg : String)
  deriving DecidableEq, Repr

/-- The error-code constants that the handler names, and the code written by
`api.InternalServerError`. -/
inductive ErrorCode
  | ErrValidation
  | ErrInsufficientFund
  | ErrScriptCompilationFailed
  | ErrScriptMetadataOverride
  | ErrConflict
  | ErrorInternal
  deriving DecidableEq, Repr

/-- Modelled from the spec: the values of the v1 error-code constants (declared outside
the handler's file), after the error taxonomy of the spec. -/
def ErrorCode.text : ErrorCode → String
  | .ErrValidation => "VALIDATION"
  | .ErrInsufficientFund => "INSUFFICIENT_FUND"
  | .ErrScriptCompilationFailed => "COMPILATION_FAILED"
  | .ErrScriptMetadataOverride => "METADATA_OVERRIDE"
  | .ErrConflict => "CONFLICT"
  | .ErrorInternal => "INTERNAL"

/-- What the handler writes: `api.Ok` with the created transaction, or an error
response with its HTTP status and code. A panic of the handler is the `panic` outcome
of `createTransaction`. -/
inductive Response (τ : Type)
  | ok (tx : τ)
  | error (status : Nat) (code : ErrorCode)
  deriving DecidableEq, Repr

/-- The `api.BadRequest` helper: status 400. -/
def BadRequest {τ : Type} (code : ErrorCode) : Response τ := .error 400 code

/-- The `api.InternalServerError` helper: status 500. -/
def InternalServerError {τ : Type} : Response τ := .error 500 .ErrorInternal

/-- What the handler calls and is declared outside its file: `Postings.Validate`
(true when it returns no error), `ledger.TxToScriptData(txData, false)`, and the ledger
controller's `CreateTransaction` with the request's command parameters. -/
structure HandlerEnv (τ : Type) where
  postingsValid : List Posting → Bool
  TxToScriptData : TransactionData → RunScript
  CreateTransaction : RunScript → Except ControllerErr τ

/-- The source's `createTransaction`; `payload = none` is a body that fails to decode. -/
def createTransaction {τ : Type} (env : HandlerEnv τ)
    (payload : Option CreateTransactionRequest) : Outcome String (Response τ) :=
  match payload with
  | none => .ok (BadRequest .ErrValidation)
  | some payload =>
    if (payload.Postings.length > 0 && payload.Script.Plain != "") ||
        (payload.Postings.length == 0 && payload.Script.Plain == "") then
      .ok (BadRequest .ErrValidation)
    else if payload.Postings.length > 0 then
      if !env.postingsValid payload.Postings then .ok (BadRequest .ErrValidation)
      else
        let txData : TransactionData :=
          { Postings := payload.Postings
            Timestamp := payload.Timestamp
            Reference := payload.Reference
            Metadata := payload.Metadata }
        match env.CreateTransaction (env.TxToScriptData txData) with
        | .error err =>
          match err with
          | .ErrInsufficientFunds => .ok (BadRequest .ErrInsufficientFund)
          | .ErrInvalidVars => .ok (BadRequest .ErrScriptCompilationFailed)
          | .ErrCompilationFailed => .ok (BadRequest .ErrScriptCompilationFailed)
          | .ErrMetadataOverride => .ok (BadRequest .ErrScriptMetadataOverride)
          | .ErrNoPostings => .ok (BadRequest .ErrValidation)
          | .ErrReferenceConflict => .ok (.error 409 .ErrConflict)
          | .other _ => .ok InternalServerError
        | .ok res => .ok (.ok res)
    else
      match payload.Script.ToCore with
      | .panic msg => .panic msg
      | .error _ => .ok (BadRequest .ErrValidation)
      | .ok script =>
        let runScript : RunScript :=
          { Script := script
            Timestamp := payload.Timestamp
            Reference := payload.Reference
            Metadata := payload.Metadata }
        -- todo: handle missing error cases
        match env.CreateTransaction runScript with
        | .error err =>
          match err with
          | .ErrInsufficientFunds => .ok (BadRequest .ErrInsufficientFund)
          | _ => .ok InternalServerError
        | .ok res => .ok (.ok res)

/-- A handler environment whose controller fails every `CreateTransaction` with `err`;
postings are valid. -/
def failingEnv (err : ControllerErr) : HandlerEnv Nat :=
  { postingsValid := fun _ => true
    TxToScriptData := fun txData =>
      { Script := { Plain := "", Vars := [] }
        Timestamp := txData.Timestamp
        Reference := txData.Reference
        Metadata := txData.Metadata }
    CreateTransaction := fun _ => .error err }

/-- A request carrying a script and the reference `r1`. -/
def scriptRequest : CreateTransactionRequest :=
  { Postings := []
    Script := { Plain := "send [USD 1] (source = @world destination = @alice)", Vars := [] }
    Timestamp := 0
    Reference := "r1"
    Metadata := [] }

/-- A request carrying one posting and the reference `r1`. -/
def postingsRequest : CreateTransactionRequest :=
  { Postings := [{ Source := "world", Destination := "alice", Asset := "USD", Amount := 1 }]
    Script := { Plain := "", Vars := [] }
    Timestamp := 0
    Reference := "r1"
    Metadata := [] }

/-! ## The log table (`pkg/storage/sqlstorage/log.go`) -/

/-- The fields of `core.Log` that `appendLog` writes; `δ` is the type of the payload
`Data`, and `LogType` is the field `Type`. -/
structure Log (δ : Type) where
  ID : Nat
  LogType : String
  Hash : String
  Date : Time
  Data : δ

/-- A row of the `log` table: the columns `id`, `type`, `hash`, `date`, `data`. -/
structure LogRow where
  id : Nat
  type : String
  hash : String
  date : Time
  data : String
  deriving DecidableEq, Repr

/-- The SQL flavors that `appendLog` switches on. -/
inductive Flavor
  | SQLite
  | PostgreSQL
  deriving DecidableEq, Repr

/-- The `Store` of `pkg/storage/sqlstorage`: the flavor of its schema, the rows of its
`log` table in insertion order, and `accepts stored rows`, the verdict of the database
on the insert of `rows` (the table and its constraints are declared in migrations,
outside `log.go`). -/
structure LogStore where
  flavor : Flavor
  log : List LogRow
  accepts : List LogRow → List LogRow → Bool

/-- The row that `appendLog` builds for one log: the caller's `ID`, `Type`, `Hash` and
`Date`, and `json.Marshal(l.Data)`; `none` when marshalling fails. -/
def logRow {δ : Type} (marshal : δ → Option String) (l : Log δ) : Option LogRow :=
  match marshal l.Data with
  | some data => some { id := l.ID, type := l.LogType, hash := l.Hash, date := l.Date, data := data }
  | none => none

/-- The loops of `appendLog` over the logs: the rows of the statement, or `none` when
`json.Marshal` fails on one of them (the source panics). -/
def logRows {δ : Type} (marshal : δ → Option String) : List (Log δ) → Option (List LogRow)
  | [] => some []
  | l :: rest =>
    match logRow marshal l with
    | none => none
    | some row =>
      match logRows marshal rest with
      | none => none
      | some rows => some (row :: rows)

/-- The source's `Store.appendLog`: both flavors insert one row per log, SQLite through
an insert builder and PostgreSQL through `unnest` of five arrays; the result is the
table after the statement, or the error of the database. -/
def appendLog {δ : Type} (marshal : δ → Option String) (s : LogStore) (log : List (Log δ)) :
    Outcome String (List LogRow) :=
  let built : Option (List LogRow) :=
    match s.flavor with
    | .SQLite => logRows marshal log
    | .PostgreSQL => logRows marshal log
  match built with
  | none => .panic "json: marshalling failed"
  | some rows =>
    if s.accepts s.log rows then .ok (s.log ++ rows)
    else .error "insert failed"

/-- The source's `Store.AppendLog`: `appendLog` within a transaction, committed on
success and rolled back on error. Failures of `BeginTx` and `Commit` are not
modelled. -/
def AppendLog {δ : Type} (marshal : δ → Option String) (s : LogStore) (logs : List (Log δ)) :
    Outcome String LogStore :=
  match appendLog marshal s logs with
  | .ok table => .ok { s with log := table }
  | .error e => .error e
  | .panic msg => .panic msg

/-- A sequence of `AppendLog` calls, each on the store left by the one before; it stops
at the first call that fails. -/
def appendAll {δ : Type} (marshal : δ → Option String) (s : LogStore) :
    List (List (Log δ)) → Outcome String LogStore
  | [] => .ok s
  | logs :: rest =>
    match AppendLog marshal s logs with
    | .ok s1 => appendAll marshal s1 rest
    | .error e => .error e
    | .panic msg => .panic msg

/-- The rows stored after a successful call, `none` after a failed one. -/
def storedLog (r : Outcome String LogStore) : Option (List LogRow) :=
  match r with
  | .ok s => some s.log
  | _ => none

/-- The hash chain over a log table, for a hash function `H` of the previous hash and
of the entry's id, type, date and data: every row with id `i > 0` carries the hash `H`
gives from the hash of a stored row with id `i - 1`. -/
def hashChained (H : String → Nat → String → Time → String → String)
    (rows : List LogRow) : Bool :=
  rows.all (fun r =>
    r.id == 0 ||
      rows.any (fun p => p.id + 1 == r.id && r.hash == H p.hash r.id r.type r.date r.data))

/-- Dense ids: the stored ids, in insertion order, are `0, 1, ..., n - 1`. -/
def denseIds (rows : List LogRow) : Bool :=
  rows.map (fun r => r.id) == List.range rows.length

/-- Modelled from the spec: the `log` table (declared in migrations, outside `log.go`)
rejects an insert that would store an id twice. -/
def uniqueIds (stored rows : List LogRow) : Bool :=
  decide ((stored ++ rows).map (fun r => r.id)).Nodup

/-- An empty PostgreSQL log table with unique ids. -/
def emptyLogStore : LogStore :=
  { flavor := .PostgreSQL, log := [], accepts := uniqueIds }

/-- A log entry whose payload is already JSON text, with the given id and hash. -/
def logEntry (id : Nat) (hash : String) : Log String :=
  { ID := id, LogType := "NEW_TRANSACTION", Hash := hash, Date := 7, Data := "{}" }

/-! ## `Store.UpsertAccount` -/

/-- The error of the function that `upsertAccount` runs in its transaction: the
sentinel `rollbacked`, returned after `tx.Rollback()` when nothing was upserted, or a
failure of the database. -/
inductive TxError
  | rollbacked
  | failure (msg : String)
  deriving DecidableEq, Repr

/-- The error with which the function run in the transaction of `upsertAccount`
returns once the row is read back: `rollbacked` when `!upserted.Upserted`, else nil. -/
def upsertAccountTxError (upserted : Bool) : Option TxError :=
  if !upserted then some .rollbacked else none

/-- The error that `upsertAccount` returns for the error `err` of its transaction:
the test `err != nil && !errors.Is(err, rollbacked)`, made after `RunInTx` and again
after `TraceWithLatency`, keeps every error but the sentinel. -/
def upsertAccountError (err : Option TxError) : Option TxError :=
  match err with
  | some .rollbacked => none
  | some (.failure msg) => some (.failure msg)
  | none => none

/-- The source's `Store.UpsertAccount`: the store after the call, the caller's account
after the call and the error returned. -/
def UpsertAccount (s : Store) (account : Account) : Store × Account × Option TxError :=
  let mappedAccount : Account :=
    { Ledger := s.ledger.Name
      Address := account.Address
      FirstUsage := account.FirstUsage
      InsertionDate := account.InsertionDate
      UpdatedAt := account.UpdatedAt
      Metadata := account.Metadata }
  let r := upsertAccount s mappedAccount
  match upsertAccountError (upsertAccountTxError r.2.2) with
  | some err => (r.1, account, some err)
  | none =>
    (r.1,
      { account with
        FirstUsage := r.2.1.FirstUsage
        InsertionDate := r.2.1.InsertionDate
        UpdatedAt := r.2.1.UpdatedAt
        Metadata := r.2.1.Metadata },
      none)

/-! ## Volumes (`AggregatedAccountVolumes.toCore`) -/

/-- The core `ledger.Volumes`: a pair of unbounded integers (`*big.Int`, not nil). -/
structure Volumes where
  Input : Int
  Output : Int
  deriving DecidableEq, Repr

/-- The source's `AggregatedAccountVolume`: `ledger.Volumes` with the asset. -/
structure AggregatedAccountVolume extends Volumes where
  Asset : String
  deriving DecidableEq, Repr

/-- The core `ledger.VolumesByAssets` (`map[string]Volumes`): the value held for each
asset, `none` for an asset that is not a key. -/
abbrev VolumesByAssets := String → Option Volumes

/-- The map write `ret[asset] = volumes`. -/
def VolumesByAssets.set (ret : VolumesByAssets) (asset : String) (volumes : Volumes) :
    VolumesByAssets :=
  fun a => if a = asset then some volumes else ret a

/-- The body of the loop of `toCore`: a first row of an asset stores copies of its
volumes, a later row is added to the volumes stored for the asset. -/
def toCoreStep (ret : VolumesByAssets) (volume : AggregatedAccountVolume) : VolumesByAssets :=
  match ret volume.Asset with
  | none => ret.set volume.Asset { Input := volume.Input, Output := volume.Output }
  | some volumesForAsset =>
    ret.set volume.Asset
      { Input := volumesForAsset.Input + volume.Input
        Output := volumesForAsset.Output + volume.Output }

/-- The source's `AggregatedAccountVolumes.toCore`; `none` is the nil slice. -/
def AggregatedAccountVolumes.toCore (volumes : Option (List AggregatedAccountVolume)) :
    VolumesByAssets :=
  match volumes with
  | none => fun _ => none
  | some rows => rows.foldl toCoreStep (fun _ => none)

/-- The rows of `vs` for the asset `a`. -/
def rowsOfAsset (a : String) (vs : List AggregatedAccountVolume) : List AggregatedAccountVolume :=
  vs.filter (fun v => v.Asset == a)

/-- The balance `input - output` of volumes. -/
def Volumes.Balance (v : Volumes) : Int := v.Input - v.Output

/-! ## Reading the account query -/

/-- The join on the latest metadata revisions. -/
def Join.isAccountsMetadata : Join → Bool
  | .accountsMetadata _ => true
  | _ => false

/-- The join on the aggregated `post_commit_volumes`. -/
def Join.isPcv : Join → Bool
  | .pcv _ => true
  | _ => false

/-- The join on the aggregated `post_commit_effective_volumes`. -/
def Join.isPcev : Join → Bool
  | .pcev _ => true
  | _ => false

/-- The meaning, on a row of `accounts`, of a `where` of the account query: the two
conditions that `selectAccounts` itself writes are read as SQL reads them, and `filter`
gives the meaning of any other clause (those built from the filters). -/
def whereHolds (filter : Clause → Account → Bool) (c : Clause) (r : Account) : Bool :=
  match c with
  | .raw text [.str l] => if text = "ledger = ?" then r.Ledger == l else filter c r
  | .raw text [.time t] =>
    if text = "accounts.first_usage <= ?" then decide (r.FirstUsage ≤ t) else filter c r
  | _ => filter c r

/-- The account query selects the row `r`: every `where` holds on it (the joins are
left joins and drop no row). -/
def SelectQuery.selects (q : SelectQuery) (filter : Clause → Account → Bool) (r : Account) :
    Bool :=
  q.wheres.all (fun c => whereHolds filter c r)

/-- A row of the `accounts_metadata` history table. For one ledger and address the
revisions are distinct. -/
structure AccountMetadataRow where
  Ledger : String
  AccountsAddress : String
  Revision : Nat
  Date : Time
  Metadata : Metadata
  deriving DecidableEq, Repr

/-- The meaning, on a row of `accounts_metadata`, of the conditions written by
`selectDistinctAccountMetadataHistories`; no other condition is satisfied. -/
def historyWhereHolds (c : Clause) (r : AccountMetadataRow) : Bool :=
  match c with
  | .raw text [.str l] => decide (text = "ledger = ?") && r.Ledger == l
  | .raw text [.time t] => decide (text = "date <= ?") && decide (r.Date ≤ t)
  | _ => false

/-- The rows that a sub-select returns from the `accounts_metadata` table: the rows
satisfying every `where`; with `distinct on (accounts_address)` under the order
`accounts_address, revision desc`, of these rows only the first of each address in that
order, which is the one of highest revision. -/
def SubSelect.rows (sub : SubSelect) (table : List AccountMetadataRow) :
    List AccountMetadataRow :=
  let kept := table.filter (fun r => sub.wheres.all (fun c => historyWhereHolds c r))
  if sub.distinctOn = ["accounts_address"] ∧ sub.order = ["accounts_address", "revision desc"] then
    kept.filter (fun r =>
      kept.all (fun r2 => r2.AccountsAddress != r.AccountsAddress || decide (r2.Revision ≤ r.Revision)))
  else kept

/-- A ledger named `l1` with the account-metadata history, the moves history and the
effective volumes enabled. -/
def ledgerFull : LedgerInfo :=
  { Name := "l1"
    Bucket := "b1"
    Features := fun feature =>
      if feature = "ACCOUNT_METADATA_HISTORY" then "SYNC"
      else if feature = "MOVES_HISTORY" then "ON"
      else if feature = "MOVES_HISTORY_POST_COMMIT_EFFECTIVE_VOLUMES" then "SYNC"
      else "" }

/-- The store `storeAlice` with every history feature enabled. -/
def storeFull : Store := { storeAlice with ledger := ledgerFull }

/-- A meaning of filter clauses that accepts every row. -/
def anyRow : Clause → Account → Bool := fun _ _ => true

/-- Three revisions of the metadata of `alice` in ledger `l1`, dated 1, 3 and 7, and
one revision of another ledger. -/
def historyAlice : List AccountMetadataRow :=
  [ { Ledger := "l1", AccountsAddress := "alice", Revision := 1, Date := 1, Metadata := [] },
    { Ledger := "l1", AccountsAddress := "alice", Revision := 2, Date := 3,
      Metadata := [("foo", "old")] },
    { Ledger := "l1", AccountsAddress := "alice", Revision := 3, Date := 7,
      Metadata := [("foo", "new")] },
    { Ledger := "l2", AccountsAddress := "alice", Revision := 9, Date := 2, Metadata := [] } ]

/-! ## Moves (`insertMoves`: the sources hold its test, not its code) -/

instance : Zero Volumes := ⟨⟨0, 0⟩⟩

instance : Add Volumes := ⟨fun a b => ⟨a.Input + b.Input, a.Output + b.Output⟩⟩

instance : AddCommMonoid Volumes where
  add_assoc a b c := by
    show Volumes.mk _ _ = Volumes.mk _ _
    congr 1 <;> exact Int.add_assoc _ _ _
  zero_add a := by
    show Volumes.mk _ _ = a
    cases a
    congr 1 <;> exact Int.zero_add _
  add_zero a := by
    show Volumes.mk _ _ = a
    cases a
    congr 1 <;> exact Int.add_zero _
  add_comm a b := by
    show Volumes.mk _ _ = Volumes.mk _ _
    congr 1 <;> exact Int.add_comm _ _
  nsmul := nsmulRec

/-- A row of `moves`, with the fields that the test of `insertMoves` sets and reads. The
two snapshots are pointers, nil until the move is inserted. -/
structure Move where
  Ledger : String
  IsSource : Bool
  Account : String
  Amount : Int
  Asset : String
  InsertionDate : Time
  EffectiveDate : Time
  PostCommitVolumes : Option Volumes
  PostCommitEffectiveVolumes : Option Volumes
  deriving DecidableEq, Repr

/-- The `(account, asset)` of a move, within its ledger. -/
def Move.key (m : Move) : String × String × String := (m.Ledger, m.Account, m.Asset)

/-- The delta of a move: its amount, as output for a source and as input for a
destination. -/
def Move.delta (m : Move) : Volumes :=
  if m.IsSource then ⟨0, m.Amount⟩ else ⟨m.Amount, 0⟩

/-- Modelled from the spec: the previous move of step (a) of `InsertMoves` (absent from
the sources) under the insertion ordering: the last inserted move of the same
`(account, asset)`. The table lists the moves from the last inserted to the first. -/
def previousByInsertion (move : Move) (table : List Move) : Option Move :=
  table.find? (fun m => decide (m.key = move.key))

/-- Modelled from the spec: the previous move of step (a) of `InsertMoves` (absent from
the sources) under the effective-date ordering: among the moves of the same
`(account, asset)` with an effective date at or before that of `move`, the one of
greatest effective date, and among these the last inserted. -/
def previousByEffectiveDate (move : Move) : List Move → Option Move
  | [] => none
  | m :: rest =>
    if m.key = move.key ∧ m.EffectiveDate ≤ move.EffectiveDate then
      match previousByEffectiveDate move rest with
      | some p => if m.EffectiveDate < p.EffectiveDate then some p else some m
      | none => some m
    else previousByEffectiveDate move rest

/-- Modelled from the spec: the re-aggregation of `InsertMoves` (absent from the
sources) on one stored move: a move of the same `(account, asset)` with a greater
effective date than `move` takes the delta of `move` in its effective volumes. -/
def reaggregate (move m : Move) : Move :=
  if m.key = move.key ∧ move.EffectiveDate < m.EffectiveDate then
    { m with PostCommitEffectiveVolumes := m.PostCommitEffectiveVolumes.map (· + move.delta) }
  else m

/-- Modelled from the spec: `InsertMoves` (absent from the sources) on one move: both
snapshots are the snapshots of the previous move under the two orderings (zero without
previous move) plus the delta of the move, and the moves of greater effective date are
re-aggregated. The result is the table and the move as the caller reads it back. -/
def insertMove (table : List Move) (move : Move) : List Move × Move :=
  let previous : Volumes :=
    ((previousByInsertion move table).bind (fun p => p.PostCommitVolumes)).getD 0
  let previousEffective : Volumes :=
    ((previousByEffectiveDate move table).bind (fun p => p.PostCommitEffectiveVolumes)).getD 0
  let inserted : Move :=
    { move with
      PostCommitVolumes := some (previous + move.delta)
      PostCommitEffectiveVolumes := some (previousEffective + move.delta) }
  (inserted :: table.map (reaggregate move), inserted)

/-- Modelled from the spec: `InsertMoves(moves...)` (absent from the sources): the moves
are inserted one after the other; the result is the table and the moves read back. -/
def insertMoves (table : List Move) : List Move → List Move × List Move
  | [] => (table, [])
  | move :: rest =>
    let r := insertMove table move
    let rs := insertMoves r.1 rest
    (rs.1, r.2 :: rs.2)

/-- The cumulative volumes of the moves of `l` that satisfy `P`. -/
def cumulative (P : Move → Bool) (l : List Move) : Volumes :=
  ((l.filter P).map Move.delta).sum

/-- A move as given to `insertMoves`, without snapshots. -/
def Move.bare (m : Move) : Move :=
  { m with PostCommitVolumes := none, PostCommitEffectiveVolumes := none }

/-- The move of the test of `insertMoves` on `world` and `USD` with the given direction,
amount and date (both the insertion date and the effective date). -/
def testMove (isSource : Bool) (amount : Int) (date : Time) : Move :=
  { Ledger := "l1", IsSource := isSource, Account := "world", Amount := amount, Asset := "USD",
    InsertionDate := date, EffectiveDate := date,
    PostCommitVolumes := none, PostCommitEffectiveVolumes := none }

/-- Move consistency under the insertion ordering: every stored move carries, as
`post_commit_volumes`, its delta plus the deltas of the moves of its `(account, asset)`
inserted before it. -/
def insertionConsistent (table : List Move) : Prop :=
  ∀ pre m post, table = pre ++ m :: post →
    m.PostCommitVolumes
      = some (m.delta + cumulative (fun x => decide (x.key = m.key)) post)

/-- Move consistency under the effective-date ordering: every stored move carries, as
`post_commit_effective_volumes`, its delta plus the deltas of the moves of its
`(account, asset)` that were inserted before it with an effective date at or before
its own, or after it with an effective date before its own. -/
def effectiveConsistent (table : List Move) : Prop :=
  ∀ pre m post, table = pre ++ m :: post →
    m.PostCommitEffectiveVolumes
      = some (m.delta
          + cumulative (fun x => decide (x.key = m.key)
              && decide (x.EffectiveDate ≤ m.EffectiveDate)) post
          + cumulative (fun x => decide (x.key = m.key)
              && decide (x.EffectiveDate < m.EffectiveDate)) pre)

/-! ## Committed transactions and aggregated balances (spec only) -/

/-- Modelled from the spec: the moves of one posting (the commit code is absent from
the sources): one move per direction, on the source and on the destination, with the
amount and the asset of the posting. -/
def postingMoves (ledger : String) (insertionDate effectiveDate : Time) (p : Posting) :
    List Move :=
  [ { Ledger := ledger, IsSource := true, Account := p.Source, Amount := p.Amount,
      Asset := p.Asset, InsertionDate := insertionDate, EffectiveDate := effectiveDate,
      PostCommitVolumes := none, PostCommitEffectiveVolumes := none },
    { Ledger := ledger, IsSource := false, Account := p.Destination, Amount := p.Amount,
      Asset := p.Asset, InsertionDate := insertionDate, EffectiveDate := effectiveDate,
      PostCommitVolumes := none, PostCommitEffectiveVolumes := none } ]

/-- The moves of a transaction, posting after posting. -/
def transactionMoves (ledger : String) (now : Time) (tx : TransactionData) : List Move :=
  tx.Postings.flatMap (postingMoves ledger now tx.Timestamp)

/-- Modelled from the spec: the part of `CommitTransaction` (absent from the sources)
that writes the `moves` table: the moves of the postings are inserted with the
transaction's timestamp as effective date. -/
def CommitTransaction (ledger : String) (now : Time) (table : List Move)
    (tx : TransactionData) : List Move :=
  (insertMoves table (transactionMoves ledger now tx)).1

/-- A sequence of committed transactions, each on the table left by the one before. -/
def commitAll (ledger : String) (now : Time) (table : List Move) :
    List TransactionData → List Move
  | [] => table
  | tx :: rest => commitAll ledger now (CommitTransaction ledger now table tx) rest

/-- A move carrying the given `(account, asset)` of the ledger, to look the pair up. -/
def probe (ledger account asset : String) : Move :=
  { Ledger := ledger, IsSource := false, Account := account, Amount := 0, Asset := asset,
    InsertionDate := 0, EffectiveDate := 0,
    PostCommitVolumes := none, PostCommitEffectiveVolumes := none }

/-- Modelled from the spec: the current volumes of an account for an asset: the
`post_commit_volumes` of the last inserted move of the pair, zero without move. -/
def accountVolumes (ledger account asset : String) (table : List Move) : Volumes :=
  ((previousByInsertion (probe ledger account asset) table).bind
    (fun p => p.PostCommitVolumes)).getD 0

/-- The accounts of the ledger that have moves, each once. -/
def accountsOf (ledger : String) (table : List Move) : List String :=
  ((table.filter (fun m => decide (m.Ledger = ledger))).map (fun m => m.Account)).dedup

/-- Modelled from the spec: `GetAggregatedBalances` (absent from the sources) without
filter nor PIT, on the insertion ordering, for one asset: the sum over the accounts of
the ledger of the balance `input - output` of their volumes. -/
def aggregatedBalance (ledger asset : String) (table : List Move) : Int :=
  ((accountsOf ledger table).map
    (fun account => (accountVolumes ledger account asset table).Balance)).sum

/-- The sum of the amounts of the moves of a direction for an asset. -/
def amountOf (isSource : Bool) (asset : String) (moves : List Move) : Int :=
  ((moves.filter (fun m => m.IsSource == isSource && m.Asset == asset)).map
    (fun m => m.Amount)).sum

/-- The signed amount of a move: what it adds to the balance of its account. -/
def Move.signed (m : Move) : Int := if m.IsSource then -m.Amount else m.Amount

/-- The sum of the signed amounts of the moves of `l` that satisfy `P`. -/
def signedSum (P : Move → Bool) (l : List Move) : Int :=
  ((l.filter P).map Move.signed).sum

/-- A transaction of the high-concurrency test: one posting of 1 `USD`. -/
def testTransaction (source destination : String) : TransactionData :=
  { Postings := [{ Source := source, Destination := destination, Asset := "USD", Amount := 1 }]
    Timestamp := 0, Reference := "", Metadata := [] }

/-! ## `Store.DeleteAccountMetadata` -/

/-- PostgreSQL `a - key` on a `jsonb` object: the object without the key. -/
def jsonbDelete (a : Metadata) (key : String) : Metadata :=
  a.filter (fun p => p.1 != key)

/-- The source's `Store.DeleteAccountMetadata`:
`update accounts set metadata = metadata - ? where address = ? and ledger = ?`. The
result is the store after the statement and the error returned, which is that of the
database (`postgres.ResolveError(err)`); database failures are not modelled, and an
update that matches no row is no error. -/
def DeleteAccountMetadata (s : Store) (account key : String) : Store × Option Err :=
  ({ s with
      accounts := s.accounts.map (fun r =>
        if r.Address == account && r.Ledger == s.ledger.Name then
          { r with Metadata := jsonbDelete r.Metadata key }
        else r) },
    none)

/-- The store `storeAlice` with a second key `role = admin` on `alice`, an account `bob`
of the same ledger and an account `alice` of ledger `l2`, all holding the key `foo`. -/
def storeThree : Store :=
  { ledger := ledgerL1
    accounts := [
      { Ledger := "l1", Address := "alice", Metadata := [("foo", "old"), ("role", "admin")],
        InsertionDate := 1, UpdatedAt := 2, FirstUsage := 1 },
      { Ledger := "l1", Address := "bob", Metadata := [("foo", "b")],
        InsertionDate := 3, UpdatedAt := 3, FirstUsage := 3 },
      { Ledger := "l2", Address := "alice", Metadata := [("foo", "c")],
        InsertionDate := 4, UpdatedAt := 4, FirstUsage := 4 }] }

/-! ## The ledger middleware (`internal/api/common/middleware_resolver.go`) -/

/-- The error of `backend.GetLedgerController`, by the test `postgres.IsNotFoundError`
that it satisfies or not. -/
inductive BackendErr
  | notFound
  | other (msg : String)
  deriving DecidableEq, Repr

/-- The ledger controller that the middleware resolves, by what the middleware asks of
it: the result of `IsDatabaseUpToDate`. -/
structure LedgerController where
  IsDatabaseUpToDate : Except String Bool

/-- What the middleware does to the outside, in order: the call of
`GetLedgerController`, the call of `IsDatabaseUpToDate`, an error response with its
status and code, and the call of the wrapped handler. -/
inductive MiddlewareEvent
  | GetLedgerController (name : String)
  | IsDatabaseUpToDate
  | Respond (status : Nat) (code : String)
  | ServeHTTP
  deriving DecidableEq, Repr

/-- The constant `ErrOutdatedSchema`. -/
def ErrOutdatedSchema : String := "OUTDATED_SCHEMA"

/-- Go `strings.Index(s, "/")`: the index of the first `/`, or -1. A character stands
for its bytes; `/` is never part of the bytes of another character, so the text that
follows the first `/` is the same counted in bytes or in characters. -/
def indexSlash : List Char → Int
  | [] => -1
  | c :: cs =>
    if c = '/' then 0
    else if indexSlash cs < 0 then -1 else indexSlash cs + 1

/-- The computation of `pathWithoutLedger` in the middleware: `r.URL.Path[1:]`, which
panics on an empty path, cut at its first `/`, or empty when it has none. -/
def pathWithoutLedger (path : String) : Outcome String String :=
  match path.toList with
  | [] => .panic "slice bounds out of range [1:0]"
  | _ :: rest =>
    let nextSlash := indexSlash rest
    if nextSlash ≥ 0 then .ok (String.mk (rest.drop nextSlash.toNat))
    else .ok ""

/-- The loop of the middleware over `excludePathFromSchemaCheck`. -/
def isExcluded (pathWithoutLedger : String) : List String → Bool
  | [] => false
  | path :: rest => if pathWithoutLedger = path then true else isExcluded pathWithoutLedger rest

/-- The handler returned by the source's `LedgerMiddleware`, run on a request: `name`
is `resolver(r)` and `path` is `r.URL.Path`. The helpers `api.NotFound` and
`api.InternalServerError` answer 404 `NOT_FOUND` and 500 `INTERNAL`. -/
def LedgerMiddleware (GetLedgerController : String → Except BackendErr LedgerController)
    (excludePathFromSchemaCheck : List String) (name path : String) :
    Outcome String (List MiddlewareEvent) :=
  if name = "" then .ok [.Respond 404 "NOT_FOUND"]
  else
    match GetLedgerController name with
    | .error .notFound => .ok [.GetLedgerController name, .Respond 404 "LEDGER_NOT_FOUND"]
    | .error (.other _) => .ok [.GetLedgerController name, .Respond 500 "INTERNAL"]
    | .ok l =>
      match pathWithoutLedger path with
      | .panic msg => .panic msg
      | .error e => .error e
      | .ok rest =>
        if !isExcluded rest excludePathFromSchemaCheck then
          match l.IsDatabaseUpToDate with
          | .error _ =>
            .ok [.GetLedgerController name, .IsDatabaseUpToDate, .Respond 500 "INTERNAL"]
          | .ok isUpToDate =>
            if !isUpToDate then
              .ok [.GetLedgerController name, .IsDatabaseUpToDate,
                .Respond 400 ErrOutdatedSchema]
            else .ok [.GetLedgerController name, .IsDatabaseUpToDate, .ServeHTTP]
        else .ok [.GetLedgerController name, .ServeHTTP]

/-- A backend that knows the ledger `l1`, whose schema is up to date or not as given,
and fails with a not-found error on any other name. -/
def backendL1 (upToDate : Bool) : String → Except BackendErr LedgerController :=
  fun name => if name = "l1" then .ok { IsDatabaseUpToDate := .ok upToDate } else .error .notFound

/-! ## `TraceWithMetric` (`internal/tracing/tracer.go`) -/

/-- What `TraceWithMetric` and `Trace` do to the outside, in order: the start and the
end of a span, `RecordError` on the span, `histogram.Record` of a number of
milliseconds, `SetAttributes` of the latency on the span, and the call of a finalizer
with the value it receives. A finalizer is named by a value of `F`. -/
inductive TraceEvent (RET ε F : Type)
  | SpanStart (name : String)
  | SpanEnd
  | RecordError (err : ε)
  | Record (milliseconds : Int)
  | SetAttributes (latency : Int)
  | Finalizer (f : F) (ret : RET)
  deriving DecidableEq, Repr

/-- Whether an event is a latency sample or the call of a finalizer. -/
def TraceEvent.isSampleOrFinalizer {RET ε F : Type} : TraceEvent RET ε F → Bool
  | .Record _ => true
  | .Finalizer _ _ => true
  | _ => false

/-- The outcome of a traced function: what it did, and the Go pair `(RET, error)` that
it returns, where `err = none` is a nil error. -/
structure Traced (RET ε F : Type) where
  events : List (TraceEvent RET ε F)
  ret : RET
  err : Option ε
  deriving DecidableEq, Repr

/-- The source's `TraceWithMetric`. `Trace` is declared in another file of the package
and is a parameter; `zeroRet` is the zero value of `RET`; `latency` is what
`time.Since(now)` reads after `fn` returned, in nanoseconds, and
`latency.Milliseconds()` is its truncated quotient by a million; `fn` is given by the
pair that it returns. The contexts are left out. -/
def TraceWithMetric {RET ε F : Type}
    (Trace : String → (Unit → Traced RET ε F) → Traced RET ε F) (zeroRet : RET)
    (operationName : String) (latency : Int) (fn : Unit → RET × Option ε)
    (finalizers : List F) : Traced RET ε F :=
  Trace operationName (fun _ =>
    match fn () with
    | (_, some err) => { events := [.RecordError err], ret := zeroRet, err := some err }
    | (ret, none) =>
      { events :=
          [.Record (latency.tdiv 1000000), .SetAttributes latency]
            ++ finalizers.map (fun finalizer => .Finalizer finalizer ret)
        ret := ret
        err := none })

/-- A `Trace` that runs its function once inside a span and returns what the function
returns. -/
def traceInSpan {RET ε F : Type} (name : String) (fn : Unit → Traced RET ε F) :
    Traced RET ε F :=
  { events := [.SpanStart name] ++ (fn ()).events ++ [.SpanEnd]
    ret := (fn ()).ret
    err := (fn ()).err }

/-! ## `Script.ToCore`: the kinds of values -/

/-- Whether a JSON value is a string, an object or `null`. -/
def Json.isStringObjectOrNull : Json → Bool
  | .str _ => true
  | .obj _ => true
  | .null => true
  | _ => false

/-- Whether a JSON value is a number, a boolean or an array. -/
def Json.isNumberBoolOrArray : Json → Bool
  | .num _ => true
  | .frac _ => true
  | .bool _ => true
  | .arr _ => true
  | _ => false

/-- Whether the member read as the asset is accepted: it is present and is a string or
`null`. -/
def acceptedAsset : Option Json → Bool
  | some (.str _) => true
  | some .null => true
  | _ => false

/-- Whether the member read as the amount is accepted: it is present and is an integer
literal or `null`. -/
def acceptedAmount : Option Json → Bool
  | some (.num _) => true
  | some .null => true
  | _ => false

/-- Whether a value is `null` or an object whose `asset` or `amount` member is not
accepted. -/
def lacksAssetOrAmount : Json → Bool
  | .null => true
  | .obj m => !acceptedAsset (rawMember m "asset") || !acceptedAmount (rawMember m "amount")
  | _ => false

/-- A script with a monetary variable of thirty digits, a string variable and a
monetary variable with a negative amount. -/
def scriptThreeVars : Script :=
  { Plain := "send $a (source = @world destination = @alice)"
    Vars := [("a", monetary "USD/2" 123456789012345678901234567890),
      ("b", .str "hello world"),
      ("c", monetary "EUR" (-5))] }

/-- A script whose only variable is the object `{"asset": null, "amount": 1}`. -/
def scriptNullAsset : Script :=
  { Plain := "send $x (source = @world destination = @alice)"
    Vars := [("x", .obj [("asset", .null), ("amount", .num 1)])] }

/-- A script whose variables are visited in the order `b`, the empty object, then `a`,
the number 5. -/
def scriptNumberAfterEmptyObject : Script :=
  { Plain := "send $a (source = @world destination = @alice)"
    Vars := [("b", .obj []), ("a", .num 5)] }

/-- The script `scriptNumberAfterEmptyObject` with its variables visited in the other
order. -/
def scriptNumberBeforeEmptyObject : Script :=
  { Plain := "send $a (source = @world destination = @alice)"
    Vars := [("a", .num 5), ("b", .obj [])] }

/-- The source's `createTransaction` with, beside what it writes, the arguments of its
calls of the controller's `CreateTransaction`, in order. A panic of `Script.ToCore`
comes before any call. -/
def createTransactionTraced {τ : Type} (env : HandlerEnv τ)
    (payload : Option CreateTransactionRequest) :
    Outcome String (Response τ × List RunScript) :=
  match payload with
  | none => .ok (BadRequest .ErrValidation, [])
  | some payload =>
    if (payload.Postings.length > 0 && payload.Script.Plain != "") ||
        (payload.Postings.length == 0 && payload.Script.Plain == "") then
      .ok (BadRequest .ErrValidation, [])
    else if payload.Postings.length > 0 then
      if !env.postingsValid payload.Postings then .ok (BadRequest .ErrValidation, [])
      else
        let txData : TransactionData :=
          { Postings := payload.Postings
            Timestamp := payload.Timestamp
            Reference := payload.Reference
            Metadata := payload.Metadata }
        match env.CreateTransaction (env.TxToScriptData txData) with
        | .error err =>
          match err with
          | .ErrInsufficientFunds =>
            .ok (BadRequest .ErrInsufficientFund, [env.TxToScriptData txData])
          | .ErrInvalidVars =>
            .ok (BadRequest .ErrScriptCompilationFailed, [env.TxToScriptData txData])
          | .ErrCompilationFailed =>
            .ok (BadRequest .ErrScriptCompilationFailed, [env.TxToScriptData txData])
          | .ErrMetadataOverride =>
            .ok (BadRequest .ErrScriptMetadataOverride, [env.TxToScriptData txData])
          | .ErrNoPostings => .ok (BadRequest .ErrValidation, [env.TxToScriptData txData])
          | .ErrReferenceConflict =>
            .ok (.error 409 .ErrConflict, [env.TxToScriptData txData])
          | .other _ => .ok (InternalServerError, [env.TxToScriptData txData])
        | .ok res => .ok (.ok res, [env.TxToScriptData txData])
    else
      match payload.Script.ToCore with
      | .panic msg => .panic msg
      | .error _ => .ok (BadRequest .ErrValidation, [])
      | .ok script =>
        let runScript : RunScript :=
          { Script := script
            Timestamp := payload.Timestamp
            Reference := payload.Reference
            Metadata := payload.Metadata }
        match env.CreateTransaction runScript with
        | .error err =>
          match err with
          | .ErrInsufficientFunds => .ok (BadRequest .ErrInsufficientFund, [runScript])
          | _ => .ok (InternalServerError, [runScript])
        | .ok res => .ok (.ok res, [runScript])

/-- A request carrying both a posting and a script. -/
def bothRequest : CreateTransactionRequest :=
  { postingsRequest with Script := scriptRequest.Script }

/-- A request carrying neither postings nor a script. -/
def neitherRequest : CreateTransactionRequest :=
  { scriptRequest with Script := { Plain := "", Vars := [] } }

/-- A handler environment that accepts no postings and whose controller creates the
transaction 1. -/
def rejectingEnv : HandlerEnv Nat :=
  { postingsValid := fun _ => false
    TxToScriptData := fun txData =>
      { Script := { Plain := "", Vars := [] }
        Timestamp := txData.Timestamp
        Reference := txData.Reference
        Metadata := txData.Metadata }
    CreateTransaction := fun _ => .ok 1 }

/-! ## Reading the log table (`Store.logs`, `Store.lastLog`) -/

/-- The SQL clause `order by id desc` on the rows of the `log` table. Rows with equal
ids, whose order SQL leaves open, keep their order. -/
def orderByIdDesc (rows : List LogRow) : List LogRow :=
  rows.insertionSort (fun a b => b.id ≤ a.id)

/-- What `logs` and `lastLog` do with a row: `Scan` of id, type and hash into the log,
`time.Parse` of the date column and `core.HydrateLog` of the type and data columns.
`parseDate` is the parse of the text that the database gives for the date, taken to
UTC; `HydrateLog` is declared outside `log.go`; `wrap` is what the caller does to the
error of `HydrateLog`. -/
def scanLog {δ : Type} (parseDate : Time → Except String Time)
    (HydrateLog : String → String → Except String δ) (wrap : String → String)
    (row : LogRow) : Except String (Log δ) :=
  match parseDate row.date with
  | .error err => .error err
  | .ok t =>
    match HydrateLog row.type row.data with
    | .error err => .error (wrap err)
    | .ok data =>
      .ok { ID := row.id, LogType := row.type, Hash := row.hash, Date := t, Data := data }

/-- The loop of `logs` over the rows of the query: the logs in the order of the rows,
or the first error. -/
def logsLoop {δ : Type} (parseDate : Time → Except String Time)
    (HydrateLog : String → String → Except String δ) :
    List LogRow → Except String (List (Log δ))
  | [] => .ok []
  | row :: rest =>
    match scanLog parseDate HydrateLog (fun err => "hydrating log: " ++ err) row with
    | .error err => .error err
    | .ok l =>
      match logsLoop parseDate HydrateLog rest with
      | .error err => .error err
      | .ok ret => .ok (l :: ret)

/-- The source's `Store.logs`:
`select id, type, hash, date, data from log order by id desc`. Failures of the query
itself are not modelled. -/
def logs {δ : Type} (parseDate : Time → Except String Time)
    (HydrateLog : String → String → Except String δ) (s : LogStore) :
    Except String (List (Log δ)) :=
  logsLoop parseDate HydrateLog (orderByIdDesc s.log)

/-- The source's `Store.Logs`. -/
def Logs {δ : Type} (parseDate : Time → Except String Time)
    (HydrateLog : String → String → Except String δ) (s : LogStore) :
    Except String (List (Log δ)) :=
  logs parseDate HydrateLog s

/-- The source's `Store.lastLog`:
`select id, type, hash, date, data from log order by id desc limit 1`; no row
(`sql.ErrNoRows`) gives `nil, nil`. -/
def lastLog {δ : Type} (parseDate : Time → Except String Time)
    (HydrateLog : String → String → Except String δ) (s : LogStore) :
    Except String (Option (Log δ)) :=
  match (orderByIdDesc s.log).head? with
  | none => .ok none
  | some row =>
    match scanLog parseDate HydrateLog (fun err => err) row with
    | .error err => .error err
    | .ok l => .ok (some l)

/-- The source's `Store.LastLog`. -/
def LastLog {δ : Type} (parseDate : Time → Except String Time)
    (HydrateLog : String → String → Except String δ) (s : LogStore) :
    Except String (Option (Log δ)) :=
  lastLog parseDate HydrateLog s

/-- The row stored for a log. -/
def Log.row {δ : Type} (l : Log δ) (data : String) : LogRow :=
  { id := l.ID, type := l.LogType, hash := l.Hash, date := l.Date, data := data }

/-- A log table holding the entries 0, 1 and 2 in insertion order. -/
def threeLogStore : LogStore :=
  { flavor := .PostgreSQL
    log := [(logEntry 0 "h0").row "{}", (logEntry 1 "h1").row "{}",
      (logEntry 2 "h2").row "{}"]
    accepts := uniqueIds }

/-! ## Theorems -/

/-- C1 (evaluation at the failing input): the stored row of `alice` has `first_usage` 1
and the incoming account has `first_usage` 5 and a metadata key the row lacks; the
update fires on the metadata condition and `upsertAccount` stores `first_usage` 5,
later than the stored value and different from `min 1 5`. -/
theorem upsertAccount_first_usage_moves_later :
    ((upsertAccount storeAlice incomingAlice).1.findAccount "l1" "alice").map
        (fun r => r.FirstUsage) = some 5
      ∧ (upsertAccount storeAlice incomingAlice).2.2 = true
      ∧ min (1 : Time) 5 = 1 := by
  decide

/-- C2 (evaluation at the failing input): `alice` is stored with `foo = old`; after
`UpdateAccountsMetadata` with `{alice: {foo: bar}}` the stored metadata of `alice`
still holds `old` for `foo`, not the value `bar` of the map. -/
theorem UpdateAccountsMetadata_keeps_existing_value :
    (((UpdateAccountsMetadata storeAlice metadataUpdateAlice 9).findAccount "l1" "alice").bind
        (fun r => r.Metadata.lookup "foo")) = some "old"
      ∧ (metadataUpdateAlice.lookup "alice").bind (fun md => md.lookup "foo") = some "bar" := by
  decide

/-- C3 (evaluation at the failing input): a leaf with key `balance[USD]` and the
operator `$exists`, which is not a comparison, passes the filter check and then makes
`selectAccounts` panic in `convertOperatorToSQL`, whatever the store, the date, the
flags and the value; no `ErrInvalidQuery` is produced. -/
theorem selectAccounts_balance_exists_panics (d : Deps) (s : Store) (date : Option Time)
    (expandVolumes expandEffectiveVolumes : Bool) (value : Value) :
    selectAccounts d s date expandVolumes expandEffectiveVolumes
        (some (.keyValue "$exists" "balance[USD]" value)) = .panic "unreachable"
      ∧ failsInvalidQuery (selectAccounts d s date expandVolumes expandEffectiveVolumes
        (some (.keyValue "$exists" "balance[USD]" value))) = false := by
  constructor <;> rfl

/-- The filter check of `selectAccounts` rejects the key `balance` with an
`ErrInvalidQuery`, whatever the operator: the key has no bracket, so `balanceRegex`
does not match it, and no other case of the check accepts it. -/
theorem checkFilter_balance_invalid (d : Deps) (s : Store) (operator : String)
    (hop : operator ≠ "$match") (value : Value) (needPCV : Bool) :
    ∃ msg, checkFilter d s operator "balance" value needPCV = .error (.invalidQuery msg) := by
  have hb : balanceRegexMatch "balance" = false := by decide
  have ha : ("balance" = "address") = False := by decide
  have hm : ("balance" = "metadata") = False := by decide
  unfold checkFilter
  simp only [hb, ha, hm, if_false, Bool.false_eq_true]
  by_cases hr : (d.metadataRegex "balance").isSome = true
  · simp [hr, hop]
  · simp [hr]

/-- C4 (evaluation at the failing inputs): for each of `$lt`, `$gt`, `$lte`, `$gte`, a
leaf with the key `balance` and a numeric value makes `selectAccounts` fail with an
`ErrInvalidQuery`: the filter check rejects the key before the query is built, so no
balance subquery is produced. -/
theorem selectAccounts_balance_key_rejected (d : Deps) (s : Store) (date : Option Time)
    (expandVolumes expandEffectiveVolumes : Bool) (n : Int) :
    failsInvalidQuery (selectAccounts d s date expandVolumes expandEffectiveVolumes
        (some (.keyValue "$lt" "balance" (.num n)))) = true
      ∧ failsInvalidQuery (selectAccounts d s date expandVolumes expandEffectiveVolumes
        (some (.keyValue "$gt" "balance" (.num n)))) = true
      ∧ failsInvalidQuery (selectAccounts d s date expandVolumes expandEffectiveVolumes
        (some (.keyValue "$lte" "balance" (.num n)))) = true
      ∧ failsInvalidQuery (selectAccounts d s date expandVolumes expandEffectiveVolumes
        (some (.keyValue "$gte" "balance" (.num n)))) = true := by
  refine ⟨?_, ?_, ?_, ?_⟩
  · obtain ⟨msg, h⟩ := checkFilter_balance_invalid d s "$lt" (by decide) (.num n) expandVolumes
    simp [selectAccounts, Builder.Walk, h, failsInvalidQuery, Err.isInvalidQuery]
  · obtain ⟨msg, h⟩ := checkFilter_balance_invalid d s "$gt" (by decide) (.num n) expandVolumes
    simp [selectAccounts, Builder.Walk, h, failsInvalidQuery, Err.isInvalidQuery]
  · obtain ⟨msg, h⟩ := checkFilter_balance_invalid d s "$lte" (by decide) (.num n) expandVolumes
    simp [selectAccounts, Builder.Walk, h, failsInvalidQuery, Err.isInvalidQuery]
  · obtain ⟨msg, h⟩ := checkFilter_balance_invalid d s "$gte" (by decide) (.num n) expandVolumes
    simp [selectAccounts, Builder.Walk, h, failsInvalidQuery, Err.isInvalidQuery]

/-- C5 (evaluation at the failing input): the key `xbalance[USD]y` is none of the
allowed keys and only contains `balance[USD]` as a proper substring; with `$lt` and a
number `selectAccounts` raises no `ErrInvalidQuery` and builds a query whose filter
clause is the balance subquery on asset `USD`. -/
theorem selectAccounts_accepts_key_containing_balance (d : Deps) (s : Store)
    (date : Option Time) (expandVolumes expandEffectiveVolumes : Bool) (n : Int) :
    failsInvalidQuery (selectAccounts d s date expandVolumes expandEffectiveVolumes
        (some (.keyValue "$lt" "xbalance[USD]y" (.num n)))) = false
      ∧ filterClause (selectAccounts d s date expandVolumes expandEffectiveVolumes
        (some (.keyValue "$lt" "xbalance[USD]y" (.num n))))
        = some (.balance date (some "USD") "balance < ?" (.num n)) := by
  constructor
  · rfl
  · simp [selectAccounts, Builder.Walk, Builder.Build, checkFilter, buildMatcher,
      filterClause, show balanceRegexMatch "xbalance[USD]y" = true by decide,
      show balanceRegexFind "xbalance[USD]y" = some "USD" by decide,
      show ("xbalance[USD]y" = "address") = False by decide,
      convertOperatorToSQL, Outcome.bind]

/-- C6 (counterexample): ledger `l1` has no feature set, so `ACCOUNT_METADATA_HISTORY`
is not `SYNC`; with the non-zero PIT date 5 and a leaf on `metadata` or on
`metadata[roles]`, `selectAccounts` does not fail with `ErrMissingFeature`. -/
theorem selectAccounts_pit_metadata_not_missing_feature :
    ledgerL1.HasFeature "ACCOUNT_METADATA_HISTORY" "SYNC" = false
      ∧ pitGiven (some 5) = true
      ∧ failsMissingFeature (selectAccounts stdDeps storeAlice (some 5) false false
          (some (.keyValue "$exists" "metadata" (.str "foo")))) = false
      ∧ failsMissingFeature (selectAccounts stdDeps storeAlice (some 5) false false
          (some (.keyValue "$match" "metadata[roles]" (.str "admin")))) = false := by
  refine ⟨by decide, by decide, ?_, ?_⟩ <;> rfl

/-- Without the account-metadata history, the query built by `selectAccounts` before
the filters projects the current `accounts.metadata` column. -/
theorem buildAccountsQuery_projects_metadata (s : Store) (date : Option Time)
    (expandEffectiveVolumes needPCV : Bool)
    (hf : s.ledger.HasFeature "ACCOUNT_METADATA_HISTORY" "SYNC" = false) :
    "accounts.metadata" ∈ (buildAccountsQuery s date expandEffectiveVolumes needPCV).columns := by
  unfold buildAccountsQuery
  simp only [hf, Bool.false_and, Bool.false_eq_true, if_false]
  split_ifs <;> cases date <;> simp

/-- C6 (amended): when `ACCOUNT_METADATA_HISTORY` is not `SYNC`, for every date (a
non-nil, non-zero PIT included) a leaf `metadata` with `$exists`, and a leaf whose key
`metadataRegex` matches (and that neither matches `balanceRegex` nor is `address`,
`balance` or `metadata`) with `$match`, make `selectAccounts` build a query without error: the leaf filters on the
current `metadata` column and the query projects `accounts.metadata`. -/
theorem selectAccounts_metadata_filter_without_history (d : Deps) (s : Store)
    (date : Option Time) (expandVolumes expandEffectiveVolumes : Bool) (value : Value)
    (hf : s.ledger.HasFeature "ACCOUNT_METADATA_HISTORY" "SYNC" = false) :
    (∃ q, selectAccounts d s date expandVolumes expandEffectiveVolumes
          (some (.keyValue "$exists" "metadata" value)) = .ok q
        ∧ q.wheres.getLast? = some (.raw "metadata -> ? is not null" [.value value])
        ∧ "accounts.metadata" ∈ q.columns)
      ∧ (∀ key name, balanceRegexMatch key = false → key ≠ "address" → key ≠ "balance" →
          key ≠ "metadata" → d.metadataRegex key = some name →
          ∃ q, selectAccounts d s date expandVolumes expandEffectiveVolumes
              (some (.keyValue "$match" key value)) = .ok q
            ∧ q.wheres.getLast? = some (.raw "metadata @> ?" [.object name value])
            ∧ "accounts.metadata" ∈ q.columns) := by
  constructor
  · have hb : balanceRegexMatch "metadata" = false := by decide
    have hb2 : balanceRegexFind "metadata" = none := by decide
    have ha : ("metadata" = "address") = False := by decide
    have hbal : ("metadata" = "balance") = False := by decide
    simp only [selectAccounts, Builder.Walk, Builder.Build, checkFilter, buildMatcher, hb,
      hb2, ha, hbal, hf, if_false, Bool.false_eq_true, Bool.false_and, ne_eq,
      not_true_eq_false, if_true]
    exact ⟨_, rfl, by simp, buildAccountsQuery_projects_metadata s date _ _ hf⟩
  · intro key name hb ha hbal hm hr
    have hb2 : balanceRegexFind key = none := by
      simpa [balanceRegexMatch] using hb
    simp only [selectAccounts, Builder.Walk, Builder.Build, checkFilter, buildMatcher, hb,
      hb2, ha, hm, hbal, hr, hf, if_false, Bool.false_eq_true, Bool.false_and, ne_eq,
      not_true_eq_false, if_true, Option.isSome_some]
    exact ⟨_, rfl, by simp, buildAccountsQuery_projects_metadata s date _ _ hf⟩

/-- C6 (amended), at ledger `l1` (no feature set), the PIT date 5 and the leaves
`metadata` with `$exists` and `metadata[roles]` with `$match`. -/
theorem selectAccounts_metadata_filter_without_history_witness :
    ledgerL1.HasFeature "ACCOUNT_METADATA_HISTORY" "SYNC" = false
      ∧ (∃ q, selectAccounts stdDeps storeAlice (some 5) false false
            (some (.keyValue "$exists" "metadata" (.str "foo"))) = .ok q
          ∧ q.wheres.getLast? = some (.raw "metadata -> ? is not null" [.value (.str "foo")])
          ∧ "accounts.metadata" ∈ q.columns)
      ∧ (∃ q, selectAccounts stdDeps storeAlice (some 5) false false
            (some (.keyValue "$match" "metadata[roles]" (.str "admin"))) = .ok q
          ∧ q.wheres.getLast? = some (.raw "metadata @> ?" [.object "roles" (.str "admin")])
          ∧ "accounts.metadata" ∈ q.columns) :=
  have h := selectAccounts_metadata_filter_without_history stdDeps storeAlice (some 5)
    false false
  ⟨by decide, (h (.str "foo") (by decide)).1,
    (h (.str "admin") (by decide)).2 "metadata[roles]" "roles" (by decide) (by decide)
      (by decide) (by decide) (by decide)⟩

/-- C7 (evaluation at the failing input): when the controller fails with a reference
conflict, every request carrying postings is answered 409 `CONFLICT`, but every request
carrying a script (whose conversion succeeds) is answered 500 `INTERNAL`. -/
theorem createTransaction_reference_conflict {τ : Type} (env : HandlerEnv τ)
    (payload : CreateTransactionRequest)
    (hfail : ∀ rs, env.CreateTransaction rs = .error .ErrReferenceConflict) :
    (payload.Postings ≠ [] → payload.Script.Plain = "" →
        env.postingsValid payload.Postings = true →
        createTransaction env (some payload) = .ok (.error 409 .ErrConflict))
      ∧ (payload.Postings = [] → payload.Script.Plain ≠ "" →
        ∀ script, payload.Script.ToCore = .ok script →
        createTransaction env (some payload) = .ok (.error 500 .ErrorInternal)) := by
  constructor
  · intro hp hs hv
    have hlen : 0 < payload.Postings.length := List.length_pos.mpr hp
    simp [createTransaction, hs, hlen, hv, hfail, Nat.pos_iff_ne_zero.mp hlen]
  · intro hp hs script hc
    simp [createTransaction, hp, hs, hc, hfail, InternalServerError]

/-- C7, at the requests `postingsRequest` and `scriptRequest`, with a controller that
fails with a reference conflict. -/
theorem createTransaction_reference_conflict_witness :
    createTransaction (failingEnv .ErrReferenceConflict) (some postingsRequest)
        = .ok (.error 409 .ErrConflict)
      ∧ createTransaction (failingEnv .ErrReferenceConflict) (some scriptRequest)
        = .ok (.error 500 .ErrorInternal)
      ∧ ErrorCode.ErrConflict.text = "CONFLICT" :=
  ⟨(createTransaction_reference_conflict (failingEnv .ErrReferenceConflict) postingsRequest
      (fun _ => rfl)).1 (by decide) (by decide) rfl,
    (createTransaction_reference_conflict (failingEnv .ErrReferenceConflict) scriptRequest
      (fun _ => rfl)).2 (by decide) (by decide) _ rfl,
    rfl⟩

/-- C8 (evaluation at the failing inputs): for a request carrying a script (whose
conversion succeeds), a compilation failure or invalid variables returned by the
controller are answered 500 `INTERNAL`, not a client error; an insufficient-funds
failure is answered 400 `INSUFFICIENT_FUND`. -/
theorem createTransaction_script_failures {τ : Type} (env : HandlerEnv τ)
    (payload : CreateTransactionRequest) (script : CoreScript)
    (hp : payload.Postings = []) (hs : payload.Script.Plain ≠ "")
    (hc : payload.Script.ToCore = .ok script) :
    ((∀ rs, env.CreateTransaction rs = .error .ErrCompilationFailed) →
        createTransaction env (some payload) = .ok (.error 500 .ErrorInternal))
      ∧ ((∀ rs, env.CreateTransaction rs = .error .ErrInvalidVars) →
        createTransaction env (some payload) = .ok (.error 500 .ErrorInternal))
      ∧ ((∀ rs, env.CreateTransaction rs = .error .ErrInsufficientFunds) →
        createTransaction env (some payload) = .ok (.error 400 .ErrInsufficientFund)) := by
  refine ⟨?_, ?_, ?_⟩ <;> intro hfail <;>
    simp [createTransaction, hp, hs, hc, hfail, InternalServerError, BadRequest]

/-- C8, at the request `scriptRequest`, with controllers failing with a compilation
failure, with invalid variables and with insufficient funds. -/
theorem createTransaction_script_failures_witness :
    createTransaction (failingEnv .ErrCompilationFailed) (some scriptRequest)
        = .ok (.error 500 .ErrorInternal)
      ∧ createTransaction (failingEnv .ErrInvalidVars) (some scriptRequest)
        = .ok (.error 500 .ErrorInternal)
      ∧ createTransaction (failingEnv .ErrInsufficientFunds) (some scriptRequest)
        = .ok (.error 400 .ErrInsufficientFund)
      ∧ createTransaction (failingEnv .ErrCompilationFailed) (some postingsRequest)
        = .ok (.error 400 .ErrScriptCompilationFailed) :=
  ⟨(createTransaction_script_failures (failingEnv .ErrCompilationFailed) scriptRequest _
      (by decide) (by decide) rfl).1 (fun _ => rfl),
    (createTransaction_script_failures (failingEnv .ErrInvalidVars) scriptRequest _
      (by decide) (by decide) rfl).2.1 (fun _ => rfl),
    (createTransaction_script_failures (failingEnv .ErrInsufficientFunds) scriptRequest _
      (by decide) (by decide) rfl).2.2 (fun _ => rfl),
    by decide⟩

/-- A successful `AppendLog` stores, after the rows already there, exactly the rows
built from the caller's logs. -/
theorem AppendLog_ok {δ : Type} (marshal : δ → Option String) (s s1 : LogStore)
    (logs : List (Log δ)) (h : AppendLog marshal s logs = .ok s1) :
    ∃ rows, logRows marshal logs = some rows ∧ s1.log = s.log ++ rows
      ∧ s1.flavor = s.flavor ∧ s1.accepts = s.accepts := by
  unfold AppendLog appendLog at h
  cases hf : s.flavor <;> simp only [hf] at h <;>
    cases hr : logRows marshal logs with
    | none => simp [hr] at h
    | some rows =>
      simp only [hr] at h
      split_ifs at h
      · simp only [Outcome.ok.injEq] at h
        subst h
        exact ⟨rows, rfl, rfl, hf.symm ▸ rfl, rfl⟩

/-- The rows built from the caller's logs carry the caller's ids and hashes. -/
theorem logRows_ids_hashes {δ : Type} (marshal : δ → Option String) :
    ∀ (logs : List (Log δ)) (rows : List LogRow), logRows marshal logs = some rows →
      rows.map (fun r => (r.id, r.hash)) = logs.map (fun l => (l.ID, l.Hash))
  | [], rows, h => by
    simp only [logRows, Option.some.injEq] at h
    subst h
    rfl
  | l :: rest, rows, h => by
    unfold logRows logRow at h
    cases hm : marshal l.Data with
    | none => simp [hm] at h
    | some data =>
      simp only [hm] at h
      cases hr : logRows marshal rest with
      | none => simp [hr] at h
      | some rows1 =>
        simp only [hr, Option.some.injEq] at h
        subst h
        simp [logRows_ids_hashes marshal rest rows1 hr]

/-- C9 (counterexample): two appends on an empty log, of entries 0 and 1 that differ
only in the hash supplied for entry 1 (`a` or `b`), both succeed and store dense ids;
whatever the hash function, the two stored logs cannot both be chained, so the stored
hash of entry 1 is not computed from the stored hash of entry 0. -/
theorem AppendLog_stores_unchained_hash :
    ∃ sA sB,
      AppendLog some emptyLogStore [logEntry 0 "h0", logEntry 1 "a"] = .ok sA
        ∧ AppendLog some emptyLogStore [logEntry 0 "h0", logEntry 1 "b"] = .ok sB
        ∧ denseIds sA.log = true ∧ denseIds sB.log = true
        ∧ ∀ H, ¬ (hashChained H sA.log = true ∧ hashChained H sB.log = true) := by
  refine ⟨_, _, rfl, rfl, by decide, by decide, ?_⟩
  intro H h
  obtain ⟨hA, hB⟩ := h
  simp [hashChained, logEntry, emptyLogStore] at hA hB
  have hab : "a" = "b" := hA.trans hB.symm
  exact absurd hab (by decide)

/-- C9 (amended): after a successful `AppendLog` the stored ids and hashes are those
already stored followed by the ids and hashes the caller supplied, unchanged; and if the
log was chained and every supplied entry with id `i > 0` carries the hash computed from
the hash of a row with id `i - 1` of the resulting log, the resulting log is chained. -/
theorem AppendLog_stores_supplied_hash {δ : Type} (marshal : δ → Option String)
    (H : String → Nat → String → Time → String → String) (s s1 : LogStore)
    (logs : List (Log δ)) (h : AppendLog marshal s logs = .ok s1) :
    s1.log.map (fun r => (r.id, r.hash))
        = s.log.map (fun r => (r.id, r.hash)) ++ logs.map (fun l => (l.ID, l.Hash))
      ∧ (hashChained H s.log = true →
          (∀ rows, logRows marshal logs = some rows → ∀ r ∈ rows, 0 < r.id →
            ∃ p ∈ s.log ++ rows, p.id + 1 = r.id ∧ r.hash = H p.hash r.id r.type r.date r.data) →
          hashChained H s1.log = true) := by
  obtain ⟨rows, hrows, hlog, -, -⟩ := AppendLog_ok marshal s s1 logs h
  constructor
  · rw [hlog, List.map_append, logRows_ids_hashes marshal logs rows hrows]
  · intro hs hnew
    rw [hlog]
    simp only [hashChained, List.all_eq_true, List.any_eq_true, Bool.or_eq_true,
      Bool.and_eq_true, beq_iff_eq, List.mem_append] at hs ⊢
    intro r hr
    by_cases h0 : r.id = 0
    · exact Or.inl h0
    · right
      rcases hr with hr | hr
      · rcases hs r hr with h1 | ⟨p, hp, hp2⟩
        · exact absurd h1 h0
        · exact ⟨p, Or.inl hp, hp2⟩
      · obtain ⟨p, hp, hp1, hp2⟩ := hnew rows hrows r hr (Nat.pos_of_ne_zero h0)
        exact ⟨p, List.mem_append.mp hp, hp1, hp2⟩

/-- C9 (amended), at the empty log and the entries 0 and 1 with the hashes `h0` and
`H h0 1 ...` for the hash function `H` that prefixes the previous hash with `#`. -/
theorem AppendLog_stores_supplied_hash_witness :
    ∃ s1, AppendLog some emptyLogStore [logEntry 0 "h0", logEntry 1 "#h0"] = .ok s1
      ∧ s1.log.map (fun r => (r.id, r.hash)) = [(0, "h0"), (1, "#h0")]
      ∧ hashChained (fun prev _ _ _ _ => "#" ++ prev) s1.log = true :=
  ⟨_, rfl,
    (AppendLog_stores_supplied_hash some (fun prev _ _ _ _ => "#" ++ prev) emptyLogStore _
      [logEntry 0 "h0", logEntry 1 "#h0"] rfl).1,
    (AppendLog_stores_supplied_hash some (fun prev _ _ _ _ => "#" ++ prev) emptyLogStore _
      [logEntry 0 "h0", logEntry 1 "#h0"] rfl).2 (by decide) (by
        intro rows hrows
        have hr : rows = [(⟨0, "NEW_TRANSACTION", "h0", 7, "{}"⟩ : LogRow),
            ⟨1, "NEW_TRANSACTION", "#h0", 7, "{}"⟩] := by
          have : logRows some [logEntry 0 "h0", logEntry 1 "#h0"]
              = some [(⟨0, "NEW_TRANSACTION", "h0", 7, "{}"⟩ : LogRow),
                ⟨1, "NEW_TRANSACTION", "#h0", 7, "{}"⟩] := rfl
          rw [this] at hrows
          exact (Option.some.inj hrows).symm
        subst hr
        decide)⟩

/-- C10 (counterexample): one `AppendLog` of an entry numbered 5 on an empty log
succeeds and stores the single id 5, which is not `0..n-1` for `n = 1`. -/
theorem appendAll_ids_not_dense :
    (storedLog (appendAll some emptyLogStore [[logEntry 5 "h5"]])).map
        (fun rows => (rows.map (fun r => r.id), rows.length, denseIds rows))
      = some ([5], 1, false) := by
  decide

/-- C10 (amended): after a sequence of successful `AppendLog` calls the stored ids are
the ids already stored followed by the ids the callers supplied, in the order of the
calls; on an initially empty log they are `0..n-1` exactly when the supplied ids are. -/
theorem appendAll_stores_supplied_ids {δ : Type} (marshal : δ → Option String)
    (calls : List (List (Log δ))) (s s1 : LogStore)
    (h : appendAll marshal s calls = .ok s1) :
    s1.log.map (fun r => r.id) = s.log.map (fun r => r.id) ++ calls.flatten.map (fun l => l.ID)
      ∧ (s.log = [] →
          (denseIds s1.log = true ↔
            calls.flatten.map (fun l => l.ID) = List.range calls.flatten.length)) := by
  have key : ∀ (calls : List (List (Log δ))) (s s1 : LogStore),
      appendAll marshal s calls = .ok s1 →
      s1.log.map (fun r => r.id)
        = s.log.map (fun r => r.id) ++ calls.flatten.map (fun l => l.ID) := by
    intro calls
    induction calls with
    | nil =>
      intro s s1 h
      simp only [appendAll, Outcome.ok.injEq] at h
      subst h
      simp
    | cons logs rest ih =>
      intro s s1 h
      unfold appendAll at h
      cases ha : AppendLog marshal s logs with
      | error e => simp [ha] at h
      | panic msg => simp [ha] at h
      | ok s2 =>
        simp only [ha] at h
        obtain ⟨rows, hrows, hlog, -, -⟩ := AppendLog_ok marshal s s2 logs ha
        have hids : rows.map (fun r => r.id) = logs.map (fun l => l.ID) := by
          have := congrArg (List.map Prod.fst) (logRows_ids_hashes marshal logs rows hrows)
          simpa [List.map_map, Function.comp_def] using this
        rw [ih s2 s1 h, hlog, List.map_append, hids]
        simp
  refine ⟨key calls s s1 h, ?_⟩
  intro hempty
  have hk := key calls s s1 h
  rw [hempty] at hk
  simp only [List.map_nil, List.nil_append] at hk
  have hlen : s1.log.length = calls.flatten.length := by
    have := congrArg List.length hk
    rw [List.length_map, List.length_map] at this
    exact this
  simp only [denseIds, beq_iff_eq, hk, hlen]

/-- C10 (amended), at the empty log and two calls supplying the ids 0 and then 1, 2. -/
theorem appendAll_stores_supplied_ids_witness :
    ∃ s1, appendAll some emptyLogStore
          [[logEntry 0 "h0"], [logEntry 1 "h1", logEntry 2 "h2"]] = .ok s1
      ∧ s1.log.map (fun r => r.id) = [0, 1, 2]
      ∧ denseIds s1.log = true :=
  ⟨_, rfl,
    (appendAll_stores_supplied_ids some
      [[logEntry 0 "h0"], [logEntry 1 "h1", logEntry 2 "h2"]] emptyLogStore _ rfl).1,
    ((appendAll_stores_supplied_ids some
      [[logEntry 0 "h0"], [logEntry 1 "h1", logEntry 2 "h2"]] emptyLogStore _ rfl).2 rfl).2
      (by decide)⟩

/-! ### `upsertAccount` -/

/-- The binding of a key in `a || b`: that of `b` when `b` holds the key, else that of
`a`. -/
theorem lookup_jsonbConcat (a b : Metadata) (k : String) :
    (jsonbConcat a b).lookup k
      = match b.lookup k with
        | some v => some v
        | none => a.lookup k := by
  unfold jsonbConcat
  rw [List.lookup_append]
  cases hb : List.lookup k b with
  | some v => simp
  | none =>
    simp only [Option.or, Option.none_or]
    induction a with
    | nil => simp
    | cons p rest ih =>
      obtain ⟨pk, pv⟩ := p
      by_cases hk : k = pk
      · subst hk
        simp [List.filter_cons, hb, List.lookup_cons]
      · have hne : (k == pk) = false := by simpa using hk
        by_cases hp : (List.lookup pk b).isNone = true
        · simp [List.filter_cons, hp, List.lookup_cons, hne, ih]
        · simp [List.filter_cons, hp, List.lookup_cons, hne, ih]

/-- In a map with distinct keys every pair is the binding of its key. -/
theorem lookup_of_mem_nodup :
    ∀ (m : Metadata), (m.map Prod.fst).Nodup → ∀ p ∈ m, m.lookup p.1 = some p.2
  | [], _, p, hp => by simp at hp
  | q :: rest, hnd, p, hp => by
    obtain ⟨qk, qv⟩ := q
    simp only [List.map_cons, List.nodup_cons, List.mem_map, not_exists, not_and] at hnd
    rcases List.mem_cons.mp hp with h | h
    · subst h
      simp [List.lookup_cons]
    · have hne : p.1 ≠ qk := fun he => hnd.1 p h he
      have hb : (p.1 == qk) = false := by simpa using hne
      simp [List.lookup_cons, hb, lookup_of_mem_nodup rest hnd.2 p h]

/-- A map with distinct keys is contained in `a || b` when it is `b`. -/
theorem jsonbContains_jsonbConcat (a b : Metadata) (hb : (b.map Prod.fst).Nodup) :
    jsonbContains (jsonbConcat a b) b = true := by
  unfold jsonbContains
  rw [List.all_eq_true]
  intro p hp
  rw [lookup_jsonbConcat, lookup_of_mem_nodup b hb p hp]
  simp

/-- A map with distinct keys contains itself. -/
theorem jsonbContains_self (b : Metadata) (hb : (b.map Prod.fst).Nodup) :
    jsonbContains b b = true := by
  unfold jsonbContains
  rw [List.all_eq_true]
  intro p hp
  rw [lookup_of_mem_nodup b hb p hp]
  simp

/-- The row of `(ledger, address)` after a row for it is appended to a table that
holds none. -/
theorem find_conflict_append (ledger address : String) (rows : List Account) (e : Account)
    (hnone : rows.find? (conflictsWith ledger address) = none)
    (he : conflictsWith ledger address e = true) :
    (rows ++ [e]).find? (conflictsWith ledger address) = some e := by
  rw [List.find?_append, hnone]
  simp [List.find?_cons, he]

/-- The row of `(ledger, address)` after every row of `(ledger, address)` is replaced
by `u`. -/
theorem find_conflict_map (ledger address : String) (u : Account)
    (hu : conflictsWith ledger address u = true) :
    ∀ (rows : List Account) (row : Account),
      rows.find? (conflictsWith ledger address) = some row →
      (rows.map (fun r => if conflictsWith ledger address r then u else r)).find?
        (conflictsWith ledger address) = some u
  | [], row, h => by simp at h
  | r :: rest, row, h => by
    by_cases hr : conflictsWith ledger address r = true
    · simp [List.find?_cons, hr, hu]
    · have hr2 : conflictsWith ledger address r = false := by simpa using hr
      simp only [List.find?_cons, hr2] at h
      simp [List.find?_cons, hr2, find_conflict_map ledger address u hu rest row h]

/-- The result of `upsertAccount` when no row conflicts: the row is inserted. -/
theorem upsertAccount_insert (s : Store) (account : Account)
    (h : s.findAccount s.ledger.Name account.Address = none) :
    upsertAccount s account
      = ({ s with accounts := s.accounts ++ [{ account with Ledger := s.ledger.Name }] },
          { account with Ledger := account.Ledger }, true) := by
  simp [upsertAccount, h]

/-- The result of `upsertAccount` when a row conflicts and the `where` holds: every
field but the ledger, the address and the insertion date is rewritten. -/
theorem upsertAccount_update (s : Store) (account row : Account)
    (h : s.findAccount s.ledger.Name account.Address = some row)
    (hw : upsertAccountWhere account { account with Ledger := s.ledger.Name } row = true) :
    upsertAccount s account
      = ({ s with
            accounts := s.accounts.map (fun r =>
              if conflictsWith s.ledger.Name account.Address r then
                upsertAccountUpdate account { account with Ledger := s.ledger.Name } row
              else r) },
          { account with
            FirstUsage :=
              (upsertAccountUpdate account { account with Ledger := s.ledger.Name } row).FirstUsage
            InsertionDate := row.InsertionDate
            UpdatedAt := account.UpdatedAt
            Metadata := jsonbConcat row.Metadata account.Metadata }, true) := by
  simp [upsertAccount, h, hw, upsertAccountUpdate]

/-- The result of `upsertAccount` when a row conflicts and the `where` fails: nothing
is written and the stored row is read back. -/
theorem upsertAccount_noop (s : Store) (account row : Account)
    (h : s.findAccount s.ledger.Name account.Address = some row)
    (hw : upsertAccountWhere account { account with Ledger := s.ledger.Name } row = false) :
    upsertAccount s account
      = (s,
          { account with
            FirstUsage := row.FirstUsage
            InsertionDate := row.InsertionDate
            UpdatedAt := row.UpdatedAt
            Metadata := row.Metadata }, false) := by
  simp [upsertAccount, h, hw]

/-- A stored row conflicts with the key it was found under. -/
theorem conflictsWith_of_find (s : Store) (ledger address : String) (row : Account)
    (h : s.findAccount ledger address = some row) : conflictsWith ledger address row = true :=
  List.find?_some h

/-- The `where` of the update fails on a row that is not used later than the incoming
account and that contains the incoming metadata. -/
theorem upsertAccountWhere_false (account excluded row : Account)
    (hfu : ¬ account.FirstUsage < row.FirstUsage)
    (hmd : jsonbContains row.Metadata excluded.Metadata = true) :
    upsertAccountWhere account excluded row = false := by
  simp [upsertAccountWhere, hfu, hmd]

/-- After any `upsertAccount` of `a` the store holds a row for `a` that is not used
later than `a` and, when the keys of `a.Metadata` are distinct, contains its
metadata. -/
theorem upsertAccount_settles (s : Store) (a : Account)
    (hk : (a.Metadata.map Prod.fst).Nodup) :
    (upsertAccount s a).1.ledger = s.ledger
      ∧ ∃ stored, (upsertAccount s a).1.findAccount s.ledger.Name a.Address = some stored
        ∧ ¬ a.FirstUsage < stored.FirstUsage
        ∧ jsonbContains stored.Metadata a.Metadata = true := by
  cases hrow : s.findAccount s.ledger.Name a.Address with
  | none =>
    rw [upsertAccount_insert s a hrow]
    refine ⟨rfl, { a with Ledger := s.ledger.Name }, ?_, lt_irrefl _, jsonbContains_self _ hk⟩
    exact find_conflict_append _ _ _ _ hrow (by simp [conflictsWith])
  | some row =>
    have hc := conflictsWith_of_find s _ _ row hrow
    cases hw : upsertAccountWhere a { a with Ledger := s.ledger.Name } row with
    | true =>
      rw [upsertAccount_update s a row hrow hw]
      refine ⟨rfl, upsertAccountUpdate a { a with Ledger := s.ledger.Name } row, ?_, ?_, ?_⟩
      · exact find_conflict_map _ _ _ (by simpa [upsertAccountUpdate] using hc) _ row hrow
      · simp [upsertAccountUpdate]
      · simpa [upsertAccountUpdate] using jsonbContains_jsonbConcat row.Metadata a.Metadata hk
    | false =>
      rw [upsertAccount_noop s a row hrow hw]
      simp only [upsertAccountWhere, Bool.or_eq_false_iff, decide_eq_false_iff_not,
        Bool.not_eq_false'] at hw
      exact ⟨rfl, row, hrow, hw.1, hw.2⟩

/-- C13: when `upsertAccount` modifies an existing row with metadata `M` for an incoming
metadata `N`, the stored metadata is `M || N`: every key of `N` holds the value of `N`,
and every other key holds what `M` holds for it (its value in `M`, or nothing). -/
theorem upsertAccount_metadata_overlay (s : Store) (account row : Account)
    (hrow : s.findAccount s.ledger.Name account.Address = some row)
    (hmod : (upsertAccount s account).2.2 = true) :
    ∃ stored,
      (upsertAccount s account).1.findAccount s.ledger.Name account.Address = some stored
        ∧ stored.Metadata = jsonbConcat row.Metadata account.Metadata
        ∧ (∀ k v, account.Metadata.lookup k = some v → stored.Metadata.lookup k = some v)
        ∧ (∀ k, account.Metadata.lookup k = none →
            stored.Metadata.lookup k = row.Metadata.lookup k) := by
  have hc := conflictsWith_of_find s _ _ row hrow
  cases hw : upsertAccountWhere account { account with Ledger := s.ledger.Name } row with
  | false =>
    rw [upsertAccount_noop s account row hrow hw] at hmod
    simp at hmod
  | true =>
    rw [upsertAccount_update s account row hrow hw]
    refine ⟨upsertAccountUpdate account { account with Ledger := s.ledger.Name } row, ?_, rfl,
      ?_, ?_⟩
    · exact find_conflict_map _ _ _ (by simpa [upsertAccountUpdate] using hc) _ row hrow
    · intro k v hk
      simp [upsertAccountUpdate, lookup_jsonbConcat, hk]
    · intro k hk
      simp [upsertAccountUpdate, lookup_jsonbConcat, hk]

/-- C13, at the store `storeAlice` (`alice` with `foo = old`) and the incoming account
`incomingAlice` (`role = admin`): the stored metadata holds both keys. -/
theorem upsertAccount_metadata_overlay_witness :
    ∃ stored,
      (upsertAccount storeAlice incomingAlice).1.findAccount "l1" "alice" = some stored
        ∧ stored.Metadata = [("role", "admin"), ("foo", "old")] := by
  obtain ⟨stored, h1, h2, -, -⟩ :=
    upsertAccount_metadata_overlay storeAlice incomingAlice
      { Ledger := "l1", Address := "alice", Metadata := [("foo", "old")],
        InsertionDate := 1, UpdatedAt := 1, FirstUsage := 1 } (by decide) (by decide)
  exact ⟨stored, h1, by rw [h2]; decide⟩

/-- The row that the update arm writes: the incoming `first_usage` and `updated_at`,
and the stored metadata overlaid with the incoming one. -/
theorem upsertAccountUpdate_eq (s : Store) (account row : Account) :
    upsertAccountUpdate account { account with Ledger := s.ledger.Name } row
      = { row with
          FirstUsage := account.FirstUsage
          Metadata := jsonbConcat row.Metadata account.Metadata
          UpdatedAt := account.UpdatedAt } := by
  simp [upsertAccountUpdate]

/-- When the `where` of the update holds for an incoming metadata with distinct keys,
the row written differs from the stored row: its `first_usage` is strictly earlier, or
its metadata binds some key otherwise. -/
theorem upsertAccountUpdate_changes (s : Store) (account row : Account)
    (hk : (account.Metadata.map Prod.fst).Nodup)
    (hw : upsertAccountWhere account { account with Ledger := s.ledger.Name } row = true) :
    account.FirstUsage < row.FirstUsage
      ∨ ∃ k, (jsonbConcat row.Metadata account.Metadata).lookup k ≠ row.Metadata.lookup k := by
  simp only [upsertAccountWhere, Bool.or_eq_true, decide_eq_true_eq,
    Bool.not_eq_true'] at hw
  rcases hw with h | h
  · exact Or.inl h
  · right
    have hex : ∃ p ∈ account.Metadata, ¬ (row.Metadata.lookup p.1 == some p.2) = true := by
      by_contra hno
      have hall : jsonbContains row.Metadata account.Metadata = true := by
        unfold jsonbContains
        rw [List.all_eq_true]
        intro p hp
        by_contra hp2
        exact hno ⟨p, hp, hp2⟩
      rw [hall] at h
      cases h
    obtain ⟨p, hp, hne⟩ := hex
    refine ⟨p.1, ?_⟩
    rw [lookup_jsonbConcat, lookup_of_mem_nodup account.Metadata hk p hp]
    intro heq
    exact hne (by rw [← heq]; simp)

/-- C14: `upsertAccount` returns true exactly when no row was stored for the account
(it is then inserted: the table gains that row), or the incoming `first_usage` is
strictly earlier than the stored one, or the incoming metadata is not contained in the
stored metadata. When it returns true on a stored row, only that row of the table is
rewritten, and the row stored after the call is the stored row with the incoming
`first_usage` and `updated_at` and with the stored metadata overlaid with the incoming
one, and, the incoming metadata being a map
(distinct keys), that row differs from the one stored before: its `first_usage` is
strictly earlier or its metadata binds some key otherwise. So, for a map, true is
returned exactly when the table changed; and when false is returned the table, hence
the stored row, is unchanged. -/
theorem upsertAccount_reports_change (s : Store) (account : Account) :
    ((upsertAccount s account).2.2 = true ↔
        (s.findAccount s.ledger.Name account.Address = none ∨
          ∃ row, s.findAccount s.ledger.Name account.Address = some row
            ∧ (account.FirstUsage < row.FirstUsage
              ∨ jsonbContains row.Metadata account.Metadata = false)))
      ∧ (s.findAccount s.ledger.Name account.Address = none →
          (upsertAccount s account).1.findAccount s.ledger.Name account.Address
              = some { account with Ledger := s.ledger.Name }
            ∧ (upsertAccount s account).1.accounts
              = s.accounts ++ [{ account with Ledger := s.ledger.Name }])
      ∧ (∀ row, s.findAccount s.ledger.Name account.Address = some row →
          (upsertAccount s account).2.2 = true →
          ∃ stored,
            (upsertAccount s account).1.findAccount s.ledger.Name account.Address
                = some stored
              ∧ (upsertAccount s account).1.accounts
                = s.accounts.map (fun r =>
                    if conflictsWith s.ledger.Name account.Address r then stored else r)
              ∧ stored = { row with
                  FirstUsage := account.FirstUsage
                  Metadata := jsonbConcat row.Metadata account.Metadata
                  UpdatedAt := account.UpdatedAt }
              ∧ ((account.Metadata.map Prod.fst).Nodup →
                  stored.FirstUsage < row.FirstUsage
                    ∨ ∃ k, stored.Metadata.lookup k ≠ row.Metadata.lookup k))
      ∧ ((account.Metadata.map Prod.fst).Nodup →
          ((upsertAccount s account).2.2 = true
            ↔ (upsertAccount s account).1.accounts ≠ s.accounts))
      ∧ ((upsertAccount s account).2.2 = false →
          (upsertAccount s account).1.accounts = s.accounts) := by
  cases hrow : s.findAccount s.ledger.Name account.Address with
  | none =>
    rw [upsertAccount_insert s account hrow]
    refine ⟨by simp, fun _ => ⟨?_, rfl⟩, by simp, fun _ => ?_, by simp⟩
    · exact find_conflict_append _ _ _ _ hrow (by simp [conflictsWith])
    · refine ⟨fun _ => ?_, fun _ => rfl⟩
      intro h
      have hlen := congrArg List.length h
      simp at hlen
  | some row =>
    have hc := conflictsWith_of_find s _ _ row hrow
    have hmem : row ∈ s.accounts := List.mem_of_find?_eq_some hrow
    cases hw : upsertAccountWhere account { account with Ledger := s.ledger.Name } row with
    | true =>
      rw [upsertAccount_update s account row hrow hw]
      have hu : conflictsWith s.ledger.Name account.Address
          (upsertAccountUpdate account { account with Ledger := s.ledger.Name } row)
          = true := by
        simpa [upsertAccountUpdate, conflictsWith] using hc
      refine ⟨?_, by simp, ?_, ?_, by simp⟩
      · simp only [upsertAccountWhere, Bool.or_eq_true, decide_eq_true_eq,
          Bool.not_eq_true'] at hw
        simpa using hw
      · intro row2 hrow2 _
        cases hrow2
        refine ⟨_, find_conflict_map _ _ _ hu s.accounts row hrow, rfl,
          upsertAccountUpdate_eq s account row, ?_⟩
        intro hk
        rw [upsertAccountUpdate_eq]
        exact upsertAccountUpdate_changes s account row hk hw
      · intro hk
        refine ⟨fun _ => ?_, fun _ => rfl⟩
        intro h
        have hfix : ∀ r ∈ s.accounts,
            (if conflictsWith s.ledger.Name account.Address r then
              upsertAccountUpdate account { account with Ledger := s.ledger.Name } row
            else r) = id r :=
          List.map_inj_left.1 (h.trans (List.map_id s.accounts).symm)
        have hsame := hfix row hmem
        rw [if_pos hc, upsertAccountUpdate_eq] at hsame
        rcases upsertAccountUpdate_changes s account row hk hw with hlt | ⟨k, hk2⟩
        · have hfu := congrArg Account.FirstUsage hsame
          simp only [id_eq] at hfu
          exact absurd hfu (ne_of_lt hlt)
        · have hmd := congrArg Account.Metadata hsame
          simp only [id_eq] at hmd
          exact hk2 (by rw [hmd])
    | false =>
      rw [upsertAccount_noop s account row hrow hw]
      refine ⟨?_, by simp, by simp, fun _ => by simp, by simp⟩
      simp only [upsertAccountWhere, Bool.or_eq_false_iff, decide_eq_false_iff_not,
        Bool.not_eq_false'] at hw
      simp [hw.1, hw.2]

/-- C14, at the store `storeAlice` and the incoming account `incomingAlice`, whose
metadata `role = admin` the stored row does not contain: true is returned, the table
changed, and the stored row holds the overlaid metadata and the incoming `updated_at`;
the same account a second time returns false and leaves the table as it was. -/
theorem upsertAccount_reports_change_witness :
    (incomingAlice.Metadata.map Prod.fst).Nodup
      ∧ (upsertAccount storeAlice incomingAlice).2.2 = true
      ∧ (upsertAccount storeAlice incomingAlice).1.accounts
        = [{ Ledger := "l1", Address := "alice",
             Metadata := [("role", "admin"), ("foo", "old")],
             InsertionDate := 1, UpdatedAt := 5, FirstUsage := 5 }]
      ∧ (upsertAccount (upsertAccount storeAlice incomingAlice).1 incomingAlice).2.2 = false
      ∧ (upsertAccount storeAlice incomingAlice).1.accounts ≠ storeAlice.accounts :=
  ⟨by decide, by decide, by decide, by decide,
    ((upsertAccount_reports_change storeAlice incomingAlice).2.2.2.1 (by decide)).1
      (by decide)⟩

/-- C15: after a first `upsertAccount` of `a`, a second call with the same address,
`first_usage` and metadata (any other field) reports no change and leaves the table,
hence the stored `updated_at`, as the first call left it. The metadata is a map: its
keys are distinct. -/
theorem upsertAccount_twice (s : Store) (a a2 : Account)
    (hk : (a.Metadata.map Prod.fst).Nodup)
    (haddr : a2.Address = a.Address) (hfu : a2.FirstUsage = a.FirstUsage)
    (hmd : a2.Metadata = a.Metadata) :
    (upsertAccount (upsertAccount s a).1 a2).2.2 = false
      ∧ (upsertAccount (upsertAccount s a).1 a2).1.accounts = (upsertAccount s a).1.accounts := by
  obtain ⟨hl, stored, hfind, hnot, hcont⟩ := upsertAccount_settles s a hk
  have hfind2 : (upsertAccount s a).1.findAccount (upsertAccount s a).1.ledger.Name a2.Address
      = some stored := by rw [hl, haddr]; exact hfind
  have hw : upsertAccountWhere a2 { a2 with Ledger := (upsertAccount s a).1.ledger.Name } stored
      = false :=
    upsertAccountWhere_false _ _ _ (by rw [hfu]; exact hnot) (by simpa [hmd] using hcont)
  rw [upsertAccount_noop _ a2 stored hfind2 hw]
  exact ⟨rfl, rfl⟩

/-- C15, at the store `storeAlice` and the account `incomingAlice`, upserted a second
time with `updated_at` 9: no change is reported and the stored `updated_at` stays 5. -/
theorem upsertAccount_twice_witness :
    (upsertAccount (upsertAccount storeAlice incomingAlice).1
        { incomingAlice with UpdatedAt := 9 }).2.2 = false
      ∧ ((upsertAccount (upsertAccount storeAlice incomingAlice).1
          { incomingAlice with UpdatedAt := 9 }).1.findAccount "l1" "alice").map
            (fun r => r.UpdatedAt) = some 5 := by
  have h := upsertAccount_twice storeAlice incomingAlice { incomingAlice with UpdatedAt := 9 }
    (by decide) rfl rfl rfl
  refine ⟨h.1, ?_⟩
  unfold Store.findAccount
  rw [h.2]
  decide

/-- The account that `upsertAccount` leaves to its caller carries the `FirstUsage`,
`InsertionDate`, `UpdatedAt` and `Metadata` of the row stored after the call; when
nothing was upserted, that row is the row stored before and the table is unchanged. -/
theorem upsertAccount_reads_back (s : Store) (m : Account) :
    ∃ row, (upsertAccount s m).1.findAccount s.ledger.Name m.Address = some row
      ∧ (upsertAccount s m).2.1.FirstUsage = row.FirstUsage
      ∧ (upsertAccount s m).2.1.InsertionDate = row.InsertionDate
      ∧ (upsertAccount s m).2.1.UpdatedAt = row.UpdatedAt
      ∧ (upsertAccount s m).2.1.Metadata = row.Metadata
      ∧ ((upsertAccount s m).2.2 = false →
          s.findAccount s.ledger.Name m.Address = some row
            ∧ (upsertAccount s m).1.accounts = s.accounts) := by
  cases hrow : s.findAccount s.ledger.Name m.Address with
  | none =>
    rw [upsertAccount_insert s m hrow]
    exact ⟨_, find_conflict_append _ _ _ _ hrow (by simp [conflictsWith]), rfl, rfl, rfl, rfl,
      by simp⟩
  | some row =>
    have hc := conflictsWith_of_find s _ _ row hrow
    cases hw : upsertAccountWhere m { m with Ledger := s.ledger.Name } row with
    | true =>
      rw [upsertAccount_update s m row hrow hw]
      exact ⟨_, find_conflict_map _ _ _ (by simpa [upsertAccountUpdate] using hc) _ row hrow,
        rfl, rfl, rfl, rfl, by simp⟩
    | false =>
      rw [upsertAccount_noop s m row hrow hw]
      exact ⟨row, hrow, rfl, rfl, rfl, rfl, fun _ => ⟨rfl, rfl⟩⟩

/-- C16: `UpsertAccount` returns no error, also when nothing changed and the
transaction was rolled back, and leaves in the caller's account the `FirstUsage`,
`InsertionDate`, `UpdatedAt` and `Metadata` of the row stored for `(ledger, address)`;
when nothing changed, that row is the row stored before the call and the table is
unchanged. -/
theorem UpsertAccount_returns_stored_row (s : Store) (account : Account) :
    (UpsertAccount s account).2.2 = none
      ∧ ∃ row, (UpsertAccount s account).1.findAccount s.ledger.Name account.Address = some row
        ∧ (UpsertAccount s account).2.1.FirstUsage = row.FirstUsage
        ∧ (UpsertAccount s account).2.1.InsertionDate = row.InsertionDate
        ∧ (UpsertAccount s account).2.1.UpdatedAt = row.UpdatedAt
        ∧ (UpsertAccount s account).2.1.Metadata = row.Metadata
        ∧ ((upsertAccount s { account with Ledger := s.ledger.Name }).2.2 = false →
            s.findAccount s.ledger.Name account.Address = some row
              ∧ (UpsertAccount s account).1.accounts = s.accounts) := by
  have herr : ∀ b, upsertAccountError (upsertAccountTxError b) = none := by
    intro b
    cases b <;> rfl
  obtain ⟨row, h1, h2, h3, h4, h5, h6⟩ :=
    upsertAccount_reads_back s { account with Ledger := s.ledger.Name }
  simp only [UpsertAccount, herr]
  exact ⟨trivial, row, h1, h2, h3, h4, h5, h6⟩

/-! ### `toCore` -/

/-- The loop of `toCore` from any map `acc`: an asset without row keeps what `acc`
holds, an asset with rows holds what `acc` holds (zero when nothing) plus the sums of
its rows. -/
theorem foldl_toCoreStep (a : String) :
    ∀ (vs : List AggregatedAccountVolume) (acc : VolumesByAssets),
      vs.foldl toCoreStep acc a
        = if a ∈ vs.map (fun v => v.Asset) then
            some
              { Input := ((acc a).getD ⟨0, 0⟩).Input
                  + ((rowsOfAsset a vs).map (fun v => v.Input)).sum
                Output := ((acc a).getD ⟨0, 0⟩).Output
                  + ((rowsOfAsset a vs).map (fun v => v.Output)).sum }
          else acc a
  | [], acc => by simp
  | v :: vs, acc => by
    rw [List.foldl_cons, foldl_toCoreStep a vs (toCoreStep acc v)]
    by_cases hav : v.Asset = a
    · subst hav
      have hstep : toCoreStep acc v v.Asset
          = some { Input := ((acc v.Asset).getD ⟨0, 0⟩).Input + v.Input
                   Output := ((acc v.Asset).getD ⟨0, 0⟩).Output + v.Output } := by
        unfold toCoreStep
        cases h : acc v.Asset <;> simp [VolumesByAssets.set]
      by_cases hmem : v.Asset ∈ vs.map (fun v => v.Asset)
      · simp [hmem, hstep, rowsOfAsset, List.filter_cons, add_assoc]
      · have hnil : rowsOfAsset v.Asset vs = [] := by
          simp only [rowsOfAsset, List.filter_eq_nil_iff, beq_iff_eq]
          intro w hw he
          exact hmem (List.mem_map.mpr ⟨w, hw, he⟩)
        have hnil2 : List.filter (fun w => w.Asset == v.Asset) vs = [] := hnil
        simp [hmem, hstep, rowsOfAsset, List.filter_cons, hnil2]
    · have hva : (v.Asset == a) = false := by simpa using hav
      have hstep : toCoreStep acc v a = acc a := by
        unfold toCoreStep
        cases h : acc v.Asset <;> simp [VolumesByAssets.set, Ne.symm hav]
      have hav2 : ¬ a = v.Asset := fun h => hav h.symm
      simp [hstep, rowsOfAsset, List.filter_cons, hva, hav2]

/-- The sum of differences over a list is the difference of the sums. -/
theorem sum_map_sub_eq {α : Type} (f g : α → Int) :
    ∀ (l : List α), (l.map (fun x => f x - g x)).sum = (l.map f).sum - (l.map g).sum
  | [] => by simp
  | x :: l => by
    simp only [List.map_cons, List.sum_cons, sum_map_sub_eq f g l]
    ring

/-- C17: `toCore` of the rows `vs` holds a value exactly for the assets occurring in
`vs`, namely the sums of `Input` and of `Output` over the rows of that asset, on
unbounded integers; so its balance is the sum of the balances of these rows, a
permutation of `vs` gives the same map, rows with non-negative volumes give
non-negative volumes, and `toCore` of the nil slice and of the empty slice is the empty
map. -/
theorem toCore_sums (vs : List AggregatedAccountVolume) :
    (∀ a, AggregatedAccountVolumes.toCore (some vs) a
        = if a ∈ vs.map (fun v => v.Asset) then
            some { Input := ((rowsOfAsset a vs).map (fun v => v.Input)).sum
                   Output := ((rowsOfAsset a vs).map (fun v => v.Output)).sum }
          else none)
      ∧ (∀ a volumes, AggregatedAccountVolumes.toCore (some vs) a = some volumes →
          volumes.Balance = ((rowsOfAsset a vs).map (fun v => v.Input - v.Output)).sum)
      ∧ (∀ vs2, vs2.Perm vs →
          AggregatedAccountVolumes.toCore (some vs2) = AggregatedAccountVolumes.toCore (some vs))
      ∧ ((∀ v ∈ vs, 0 ≤ v.Input ∧ 0 ≤ v.Output) →
          ∀ a volumes, AggregatedAccountVolumes.toCore (some vs) a = some volumes →
            0 ≤ volumes.Input ∧ 0 ≤ volumes.Output)
      ∧ AggregatedAccountVolumes.toCore none = (fun _ => none)
      ∧ AggregatedAccountVolumes.toCore (some []) = (fun _ => none) := by
  have main : ∀ (ws : List AggregatedAccountVolume) (a : String),
      AggregatedAccountVolumes.toCore (some ws) a
        = if a ∈ ws.map (fun v => v.Asset) then
            some { Input := ((rowsOfAsset a ws).map (fun v => v.Input)).sum
                   Output := ((rowsOfAsset a ws).map (fun v => v.Output)).sum }
          else none := by
    intro ws a
    simp [AggregatedAccountVolumes.toCore, foldl_toCoreStep a ws]
  refine ⟨main vs, ?_, ?_, ?_, rfl, rfl⟩
  · intro a volumes h
    rw [main vs a] at h
    split_ifs at h
    simp only [Option.some.injEq] at h
    subst h
    simp [Volumes.Balance, sum_map_sub_eq]
  · intro vs2 hperm
    funext a
    rw [main vs2 a, main vs a]
    have hmem : a ∈ vs2.map (fun v => v.Asset) ↔ a ∈ vs.map (fun v => v.Asset) :=
      (hperm.map _).mem_iff
    have hrows : (rowsOfAsset a vs2).Perm (rowsOfAsset a vs) := hperm.filter _
    simp only [hmem, (hrows.map (fun v => v.Input)).sum_eq,
      (hrows.map (fun v => v.Output)).sum_eq]
  · intro hpos a volumes h
    rw [main vs a] at h
    split_ifs at h
    simp only [Option.some.injEq] at h
    subst h
    have hsub : ∀ v ∈ rowsOfAsset a vs, v ∈ vs := fun v hv => (List.mem_filter.mp hv).1
    constructor
    · apply List.sum_nonneg
      intro x hx
      obtain ⟨v, hv, rfl⟩ := List.mem_map.mp hx
      exact (hpos v (hsub v hv)).1
    · apply List.sum_nonneg
      intro x hx
      obtain ⟨v, hv, rfl⟩ := List.mem_map.mp hx
      exact (hpos v (hsub v hv)).2

/-- An evaluation of `toCore`: two rows for `USD` and one for `EUR` aggregate to
`USD = (150, 300)` and `EUR = (7, 0)`, and no other asset is a key. -/
theorem toCore_example :
    AggregatedAccountVolumes.toCore (some [
        { Input := 100, Output := 300, Asset := "USD" },
        { Input := 7, Output := 0, Asset := "EUR" },
        { Input := 50, Output := 0, Asset := "USD" }]) "USD" = some ⟨150, 300⟩
      ∧ AggregatedAccountVolumes.toCore (some [
        { Input := 100, Output := 300, Asset := "USD" },
        { Input := 7, Output := 0, Asset := "EUR" },
        { Input := 50, Output := 0, Asset := "USD" }]) "EUR" = some ⟨7, 0⟩
      ∧ AggregatedAccountVolumes.toCore (some [
        { Input := 100, Output := 300, Asset := "USD" },
        { Input := 7, Output := 0, Asset := "EUR" },
        { Input := 50, Output := 0, Asset := "USD" }]) "GBP" = none := by
  decide

/-! ### The shape of the account query -/

mutual
/-- The filter check never resets `needPCV`: a walk started with `true` ends with
`true`. -/
theorem Walk_checkFilter_keeps (d : Deps) (s : Store) :
    ∀ (b : Builder) (r : Bool), b.Walk (checkFilter d s) true = .ok r → r = true
  | .keyValue operator key value, r, h => by
    simp only [Builder.Walk, checkFilter] at h
    split_ifs at h
    · first | exact h | exact h.symm | simpa using h
    · cases hv : d.validateAddressFilter s.ledger operator value <;> simp [hv] at h
      exact h
    · first | exact h | exact h.symm | simpa using h
    · first | exact h | exact h.symm | simpa using h
  | .set _ items, r, h => by
    simp only [Builder.Walk] at h
    exact WalkItems_checkFilter_keeps d s items r h
  | .not expression, r, h => by
    simp only [Builder.Walk] at h
    exact Walk_checkFilter_keeps d s expression r h
/-- The loop of `set.Walk` never resets `needPCV`. -/
theorem WalkItems_checkFilter_keeps (d : Deps) (s : Store) :
    ∀ (items : List Builder) (r : Bool),
      Builder.WalkItems (checkFilter d s) items true = .ok r → r = true
  | [], r, h => by
    simp only [Builder.WalkItems, Outcome.ok.injEq] at h
    exact h.symm
  | item :: rest, r, h => by
    simp only [Builder.WalkItems] at h
    cases hw : Builder.Walk (checkFilter d s) item true with
    | ok st1 =>
      rw [hw] at h
      have h1 := Walk_checkFilter_keeps d s item st1 hw
      subst h1
      exact WalkItems_checkFilter_keeps d s rest r h
    | error e => simp [hw] at h
    | panic msg => simp [hw] at h
end

/-- The joins, columns and conditions of the query that `selectAccounts` builds before
the filters, by the features of the ledger, the date and the two flags. -/
theorem buildAccountsQuery_shape (s : Store) (date : Option Time)
    (expandEffectiveVolumes needPCV : Bool) :
    (buildAccountsQuery s date expandEffectiveVolumes needPCV).joins
        = (if s.ledger.HasFeature "ACCOUNT_METADATA_HISTORY" "SYNC" && pitGiven date then
            [Join.accountsMetadata (selectDistinctAccountMetadataHistories s date)] else [])
          ++ (if s.ledger.HasFeature "MOVES_HISTORY" "ON" && needPCV then
            [Join.pcv date] else [])
          ++ (if s.ledger.HasFeature "MOVES_HISTORY_POST_COMMIT_EFFECTIVE_VOLUMES" "SYNC"
              && expandEffectiveVolumes then [Join.pcev date] else [])
      ∧ (buildAccountsQuery s date expandEffectiveVolumes needPCV).columns
        = ["accounts.address", "accounts.first_usage"]
          ++ (if s.ledger.HasFeature "ACCOUNT_METADATA_HISTORY" "SYNC" && pitGiven date then
            ["coalesce(accounts_metadata.metadata, '{}'::jsonb) as metadata"]
            else ["accounts.metadata"])
          ++ (if s.ledger.HasFeature "MOVES_HISTORY" "ON" && needPCV then ["pcv.*"] else [])
          ++ (if s.ledger.HasFeature "MOVES_HISTORY_POST_COMMIT_EFFECTIVE_VOLUMES" "SYNC"
              && expandEffectiveVolumes then ["pcev.*"] else [])
      ∧ (buildAccountsQuery s date expandEffectiveVolumes needPCV).wheres
        = Clause.raw "ledger = ?" [.str s.ledger.Name]
          :: (match date with
              | some t =>
                if t.IsZero then [] else [Clause.raw "accounts.first_usage <= ?" [.time t]]
              | none => []) := by
  unfold buildAccountsQuery
  cases date with
  | none =>
    cases s.ledger.HasFeature "ACCOUNT_METADATA_HISTORY" "SYNC" <;>
    cases s.ledger.HasFeature "MOVES_HISTORY" "ON" <;>
    cases s.ledger.HasFeature "MOVES_HISTORY_POST_COMMIT_EFFECTIVE_VOLUMES" "SYNC" <;>
    cases needPCV <;> cases expandEffectiveVolumes <;> simp [pitGiven]
  | some t =>
    cases ht : t.IsZero <;>
    cases s.ledger.HasFeature "ACCOUNT_METADATA_HISTORY" "SYNC" <;>
    cases s.ledger.HasFeature "MOVES_HISTORY" "ON" <;>
    cases s.ledger.HasFeature "MOVES_HISTORY_POST_COMMIT_EFFECTIVE_VOLUMES" "SYNC" <;>
    cases needPCV <;> cases expandEffectiveVolumes <;> simp [pitGiven, ht]

/-- A query returned by `selectAccounts` is the query built before the filters, for a
`needPCV` that is true when volumes are requested, with the clause of the filters, if
any, as last condition. -/
theorem selectAccounts_ok_shape (d : Deps) (s : Store) (date : Option Time)
    (expandVolumes expandEffectiveVolumes : Bool) (qb : Option Builder) (q : SelectQuery)
    (h : selectAccounts d s date expandVolumes expandEffectiveVolumes qb = .ok q) :
    ∃ needPCV fc,
      (expandVolumes = true → needPCV = true)
        ∧ (qb = none → fc = [])
        ∧ q.joins = (buildAccountsQuery s date expandEffectiveVolumes needPCV).joins
        ∧ q.columns = (buildAccountsQuery s date expandEffectiveVolumes needPCV).columns
        ∧ q.wheres = (buildAccountsQuery s date expandEffectiveVolumes needPCV).wheres ++ fc := by
  cases qb with
  | none =>
    simp only [selectAccounts, Outcome.ok.injEq] at h
    subst h
    exact ⟨expandVolumes, [], id, fun _ => rfl, rfl, rfl, by simp⟩
  | some b =>
    simp only [selectAccounts] at h
    cases hw : b.Walk (checkFilter d s) expandVolumes with
    | error e => simp [hw] at h
    | panic msg => simp [hw] at h
    | ok needPCV =>
      simp only [hw] at h
      cases hb : b.Build (buildMatcher d s date) with
      | error e => simp [hb] at h
      | panic msg => simp [hb] at h
      | ok clause =>
        simp only [hb, Outcome.ok.injEq] at h
        subst h
        refine ⟨needPCV, [clause], ?_, by simp, rfl, rfl, rfl⟩
        intro hev
        subst hev
        exact Walk_checkFilter_keeps d s b needPCV hw

/-- C18: in a query built by `selectAccounts`, the join on the latest metadata at the
date is present exactly when `ACCOUNT_METADATA_HISTORY` is `SYNC` and a non-zero PIT
date is given, and otherwise the current `accounts.metadata` column is projected; the
`post_commit_volumes` aggregate is joined when `MOVES_HISTORY` is `ON` and volumes are
requested, and never when `MOVES_HISTORY` is not `ON`; the
`post_commit_effective_volumes` aggregate is joined exactly when the effective-volumes
feature is `SYNC` and effective volumes are requested. -/
theorem selectAccounts_joins (d : Deps) (s : Store) (date : Option Time)
    (expandVolumes expandEffectiveVolumes : Bool) (qb : Option Builder) (q : SelectQuery)
    (h : selectAccounts d s date expandVolumes expandEffectiveVolumes qb = .ok q) :
    (q.joins.any Join.isAccountsMetadata = true ↔
        (s.ledger.HasFeature "ACCOUNT_METADATA_HISTORY" "SYNC" = true ∧ pitGiven date = true))
      ∧ (q.joins.any Join.isAccountsMetadata = true →
          Join.accountsMetadata (selectDistinctAccountMetadataHistories s date) ∈ q.joins)
      ∧ (q.joins.any Join.isAccountsMetadata = false → "accounts.metadata" ∈ q.columns)
      ∧ (s.ledger.HasFeature "MOVES_HISTORY" "ON" = true → expandVolumes = true →
          q.joins.any Join.isPcv = true)
      ∧ (s.ledger.HasFeature "MOVES_HISTORY" "ON" = false → q.joins.any Join.isPcv = false)
      ∧ (q.joins.any Join.isPcev = true ↔
          (s.ledger.HasFeature "MOVES_HISTORY_POST_COMMIT_EFFECTIVE_VOLUMES" "SYNC" = true
            ∧ expandEffectiveVolumes = true)) := by
  obtain ⟨needPCV, fc, hpcv, -, hj, hc, -⟩ :=
    selectAccounts_ok_shape d s date expandVolumes expandEffectiveVolumes qb q h
  obtain ⟨hjoins, hcols, -⟩ := buildAccountsQuery_shape s date expandEffectiveVolumes needPCV
  rw [hj, hc, hjoins, hcols]
  refine ⟨?_, ?_, ?_, ?_, ?_, ?_⟩
  · cases s.ledger.HasFeature "ACCOUNT_METADATA_HISTORY" "SYNC" <;> cases pitGiven date <;>
      cases s.ledger.HasFeature "MOVES_HISTORY" "ON" && needPCV <;>
      cases s.ledger.HasFeature "MOVES_HISTORY_POST_COMMIT_EFFECTIVE_VOLUMES" "SYNC"
        && expandEffectiveVolumes <;>
      simp [Join.isAccountsMetadata]
  · cases s.ledger.HasFeature "ACCOUNT_METADATA_HISTORY" "SYNC" <;> cases pitGiven date <;>
      cases s.ledger.HasFeature "MOVES_HISTORY" "ON" && needPCV <;>
      cases s.ledger.HasFeature "MOVES_HISTORY_POST_COMMIT_EFFECTIVE_VOLUMES" "SYNC"
        && expandEffectiveVolumes <;>
      simp [Join.isAccountsMetadata]
  · cases s.ledger.HasFeature "ACCOUNT_METADATA_HISTORY" "SYNC" <;> cases pitGiven date <;>
      cases s.ledger.HasFeature "MOVES_HISTORY" "ON" && needPCV <;>
      cases s.ledger.HasFeature "MOVES_HISTORY_POST_COMMIT_EFFECTIVE_VOLUMES" "SYNC"
        && expandEffectiveVolumes <;>
      simp [Join.isAccountsMetadata]
  · intro hm hev
    rw [hm, hpcv hev]
    cases s.ledger.HasFeature "ACCOUNT_METADATA_HISTORY" "SYNC" && pitGiven date <;>
      cases s.ledger.HasFeature "MOVES_HISTORY_POST_COMMIT_EFFECTIVE_VOLUMES" "SYNC"
        && expandEffectiveVolumes <;>
      simp [Join.isPcv]
  · intro hm
    rw [hm]
    cases s.ledger.HasFeature "ACCOUNT_METADATA_HISTORY" "SYNC" && pitGiven date <;>
      cases s.ledger.HasFeature "MOVES_HISTORY_POST_COMMIT_EFFECTIVE_VOLUMES" "SYNC"
        && expandEffectiveVolumes <;>
      simp [Join.isPcv]
  · cases s.ledger.HasFeature "ACCOUNT_METADATA_HISTORY" "SYNC" && pitGiven date <;>
      cases s.ledger.HasFeature "MOVES_HISTORY" "ON" && needPCV <;>
      cases s.ledger.HasFeature "MOVES_HISTORY_POST_COMMIT_EFFECTIVE_VOLUMES" "SYNC" <;>
      cases expandEffectiveVolumes <;>
      simp [Join.isPcev]

/-- C18, at the ledger `ledgerFull` with the PIT date 5 and both expansions requested
(the three joins are present), and at the ledger `l1` without features (no join, the
current metadata column). -/
theorem selectAccounts_joins_witness :
    (∃ q, selectAccounts stdDeps storeFull (some 5) true true none = .ok q
        ∧ q.joins.any Join.isAccountsMetadata = true
        ∧ q.joins.any Join.isPcv = true
        ∧ q.joins.any Join.isPcev = true)
      ∧ (∃ q, selectAccounts stdDeps storeAlice (some 5) true true none = .ok q
        ∧ q.joins.any Join.isPcv = false
        ∧ "accounts.metadata" ∈ q.columns) :=
  ⟨⟨_, rfl,
      (selectAccounts_joins stdDeps storeFull (some 5) true true none _ rfl).1.mpr
        ⟨by decide, by decide⟩,
      (selectAccounts_joins stdDeps storeFull (some 5) true true none _ rfl).2.2.2.1
        (by decide) rfl,
      (selectAccounts_joins stdDeps storeFull (some 5) true true none _ rfl).2.2.2.2.2.mpr
        ⟨by decide, rfl⟩⟩,
    ⟨_, rfl,
      (selectAccounts_joins stdDeps storeAlice (some 5) true true none _ rfl).2.2.2.2.1
        (by decide),
      (selectAccounts_joins stdDeps storeAlice (some 5) true true none _ rfl).2.2.1 rfl⟩⟩

/-- The conditions of the metadata-history sub-select hold on a row exactly when the
row is of the store's ledger and, for a non-nil, non-zero date, dated at or before it;
the sub-select is `distinct on (accounts_address)` under the order
`accounts_address, revision desc`. -/
theorem selectDistinctAccountMetadataHistories_reads (s : Store) (date : Option Time) :
    (∀ r : AccountMetadataRow,
        (selectDistinctAccountMetadataHistories s date).wheres.all
            (fun c => historyWhereHolds c r) = true ↔
          (r.Ledger = s.ledger.Name ∧ ∀ t, date = some t → t ≠ 0 → r.Date ≤ t))
      ∧ (selectDistinctAccountMetadataHistories s date).distinctOn = ["accounts_address"]
      ∧ (selectDistinctAccountMetadataHistories s date).order
          = ["accounts_address", "revision desc"] := by
  unfold selectDistinctAccountMetadataHistories
  cases date with
  | none => simp [historyWhereHolds]
  | some t =>
    by_cases ht : t = 0
    · subst ht
      simp [historyWhereHolds, Time.IsZero]
    · have hz : Time.IsZero t = false := by simpa [Time.IsZero] using ht
      simp [historyWhereHolds, hz, ht]

/-- C19: a query built by `selectAccounts` selects a row exactly when the row is of the
store's ledger, its `first_usage` is at or before the PIT date when a non-nil, non-zero
date is given (no date bound otherwise), and the clause of the filters, if any, holds;
so a PIT earlier than every `first_usage` selects no account. The metadata-history
sub-select returns, per address, the row of highest revision among the rows of the
ledger dated at or before the PIT date. -/
theorem selectAccounts_pit_bound (d : Deps) (s : Store) (date : Option Time)
    (expandVolumes expandEffectiveVolumes : Bool) (qb : Option Builder) (q : SelectQuery)
    (filter : Clause → Account → Bool)
    (h : selectAccounts d s date expandVolumes expandEffectiveVolumes qb = .ok q) :
    (∃ fc, (qb = none → fc = []) ∧ ∀ r, q.selects filter r = true ↔
        (r.Ledger = s.ledger.Name
          ∧ (∀ t, date = some t → t ≠ 0 → r.FirstUsage ≤ t)
          ∧ fc.all (fun c => whereHolds filter c r) = true))
      ∧ (∀ t, date = some t → t ≠ 0 → ∀ accounts : List Account,
          (∀ r ∈ accounts, t < r.FirstUsage) → accounts.filter (q.selects filter) = [])
      ∧ (∀ table r, r ∈ (selectDistinctAccountMetadataHistories s date).rows table ↔
          (r ∈ table ∧ r.Ledger = s.ledger.Name
            ∧ (∀ t, date = some t → t ≠ 0 → r.Date ≤ t)
            ∧ ∀ r2 ∈ table, r2.Ledger = s.ledger.Name →
                (∀ t, date = some t → t ≠ 0 → r2.Date ≤ t) →
                r2.AccountsAddress = r.AccountsAddress → r2.Revision ≤ r.Revision)) := by
  obtain ⟨needPCV, fc, -, hfc, -, -, hw⟩ :=
    selectAccounts_ok_shape d s date expandVolumes expandEffectiveVolumes qb q h
  obtain ⟨-, -, hwheres⟩ := buildAccountsQuery_shape s date expandEffectiveVolumes needPCV
  rw [hwheres] at hw
  have hsel : ∀ r, q.selects filter r = true ↔
      (r.Ledger = s.ledger.Name
        ∧ (∀ t, date = some t → t ≠ 0 → r.FirstUsage ≤ t)
        ∧ fc.all (fun c => whereHolds filter c r) = true) := by
    intro r
    unfold SelectQuery.selects
    rw [hw]
    cases date with
    | none => simp [whereHolds]
    | some t =>
      by_cases ht : t = 0
      · subst ht
        simp [whereHolds, Time.IsZero]
      · have hz : Time.IsZero t = false := by simpa [Time.IsZero] using ht
        simp [whereHolds, hz, ht]
  refine ⟨⟨fc, hfc, hsel⟩, ?_, ?_⟩
  · intro t hd ht accounts hall
    rw [List.filter_eq_nil_iff]
    intro r hr hsr
    have := ((hsel r).mp hsr).2.1 t hd ht
    exact absurd (hall r hr) (not_lt.mpr this)
  · intro table r
    obtain ⟨hkeep, hdist, hord⟩ := selectDistinctAccountMetadataHistories_reads s date
    simp only [SubSelect.rows, hdist, hord, and_self, if_true, List.mem_filter,
      List.all_eq_true, hkeep, Bool.or_eq_true, bne_iff_ne, ne_eq, decide_eq_true_eq]
    constructor
    · rintro ⟨⟨hmem, hl, hd⟩, hmax⟩
      refine ⟨hmem, hl, hd, ?_⟩
      intro r2 h2 hl2 hd2 haddr
      rcases hmax r2 ⟨h2, hl2, hd2⟩ with hne | hle
      · exact absurd haddr hne
      · exact hle
    · rintro ⟨hmem, hl, hd, hmax⟩
      refine ⟨⟨hmem, hl, hd⟩, ?_⟩
      rintro r2 ⟨h2, hl2, hd2⟩
      by_cases haddr : r2.AccountsAddress = r.AccountsAddress
      · exact Or.inr (hmax r2 h2 hl2 hd2 haddr)
      · exact Or.inl haddr

/-- C19, at the store `storeAlice` (`alice` first used at 1): the PIT date 1 selects
`alice`, the PIT date -1 selects no account, and at the PIT date 5 the history
sub-select keeps, of the revisions 1, 2, 3 of `alice` dated 1, 3, 7, the revision 2. -/
theorem selectAccounts_pit_bound_witness :
    (∃ q, selectAccounts stdDeps storeAlice (some 1) false false none = .ok q
        ∧ storeAlice.accounts.filter (q.selects anyRow) = storeAlice.accounts)
      ∧ (∃ q, selectAccounts stdDeps storeAlice (some (-1)) false false none = .ok q
        ∧ storeAlice.accounts.filter (q.selects anyRow) = [])
      ∧ (selectDistinctAccountMetadataHistories storeAlice (some 5)).rows historyAlice
        = [{ Ledger := "l1", AccountsAddress := "alice", Revision := 2, Date := 3,
             Metadata := [("foo", "old")] }] :=
  ⟨⟨_, rfl, by decide⟩,
    ⟨_, rfl,
      (selectAccounts_pit_bound stdDeps storeAlice (some (-1)) false false none _ anyRow
        rfl).2.1 (-1) rfl (by decide) storeAlice.accounts (by decide)⟩,
    by decide⟩

/-! ### Balance keys -/

/-- The group `(.*)` followed by `]`, matched on an asset without newline followed by
the closing bracket, is the asset. -/
theorem greedyUntilBracket_asset :
    ∀ (a : List Char), '\n' ∉ a → greedyUntilBracket (a ++ [']']) = some a
  | [], _ => by decide
  | c :: cs, h => by
    have hc : c ≠ '\n' := fun he => h (he ▸ List.mem_cons_self _ _)
    have hcs : '\n' ∉ cs := fun hm => h (List.mem_cons_of_mem _ hm)
    simp [greedyUntilBracket, hc, greedyUntilBracket_asset cs hcs]

/-- The pattern `balanceRegex` finds, in the key `balance[A]` of an asset `A` without
newline, the asset `A`. -/
theorem balanceRegexFind_balance_key (A : String) (hA : '\n' ∉ A.toList) :
    balanceRegexFind ("balance[" ++ A ++ "]") = some A := by
  have hk : ("balance[" ++ A ++ "]").toList
      = 'b' :: 'a' :: 'l' :: 'a' :: 'n' :: 'c' :: 'e' :: '[' :: (A.toList ++ [']']) := by
    simp [String.toList, String.data_append]
  have hlit : "balance[".toList = ['b', 'a', 'l', 'a', 'n', 'c', 'e', '['] := by decide
  have hg : greedyUntilBracket (A.data ++ [']']) = some A.data :=
    greedyUntilBracket_asset A.data hA
  unfold balanceRegexFind
  rw [hk, hlit]
  simp [regexFind, List.isPrefixOf, String.toList, hg]

/-- C20: for every asset `A` without newline, the key `balance[A]` is recognised as a
balance filter by the filter check of `selectAccounts`, the asset read from the key is
`A`, and with any operator that `convertOperatorToSQL` translates the query built
carries the balance sub-select on the asset `A`. -/
theorem selectAccounts_balance_asset (A : String) (hA : '\n' ∉ A.toList) (d : Deps)
    (s : Store) (date : Option Time) (expandVolumes expandEffectiveVolumes : Bool)
    (operator sqlOperator : String) (value : Value)
    (hop : convertOperatorToSQL operator = .ok sqlOperator) :
    balanceRegexMatch ("balance[" ++ A ++ "]") = true
      ∧ balanceRegexFind ("balance[" ++ A ++ "]") = some A
      ∧ filterClause (selectAccounts d s date expandVolumes expandEffectiveVolumes
          (some (.keyValue operator ("balance[" ++ A ++ "]") value)))
        = some (.balance date (some A) ("balance " ++ sqlOperator ++ " ?") value) := by
  have hfind := balanceRegexFind_balance_key A hA
  have hmatch : balanceRegexMatch ("balance[" ++ A ++ "]") = true := by
    simp [balanceRegexMatch, hfind]
  have haddr : ¬ ("balance[" ++ A ++ "]" = "address") := by
    intro he
    have := congrArg String.toList he
    simp [String.toList, String.data_append] at this
  refine ⟨hmatch, hfind, ?_⟩
  simp [selectAccounts, Builder.Walk, Builder.Build, checkFilter, buildMatcher, hmatch,
    hfind, haddr, hop, Outcome.bind, filterClause]

/-- C20, at the asset `USD/2` of the test of the account list and the operator `$lt`. -/
theorem selectAccounts_balance_asset_witness :
    balanceRegexMatch "balance[USD/2]" = true
      ∧ balanceRegexFind "balance[USD/2]" = some "USD/2"
      ∧ filterClause (selectAccounts stdDeps storeAlice none false false
          (some (.keyValue "$lt" "balance[USD/2]" (.num 100))))
        = some (.balance none (some "USD/2") "balance < ?" (.num 100)) :=
  selectAccounts_balance_asset "USD/2" (by decide) stdDeps storeAlice none false false
    "$lt" "<" (.num 100) rfl

/-! ### Moves -/

/-- The moves of the test of `insertMoves`, at `t0`, `t3`, `t1`, `t2`, `t4` (here 0, 3,
1, 2, 4): the snapshots read back are those the test requires. -/
theorem insertMoves_nominal_test :
    (insertMoves [] [testMove true 100 0, testMove false 50 3, testMove true 200 1,
        testMove false 50 2, testMove false 50 4]).2.map
        (fun m => (m.PostCommitVolumes, m.PostCommitEffectiveVolumes))
      = [(some ⟨0, 100⟩, some ⟨0, 100⟩), (some ⟨50, 100⟩, some ⟨50, 100⟩),
         (some ⟨50, 300⟩, some ⟨0, 300⟩), (some ⟨100, 300⟩, some ⟨50, 300⟩),
         (some ⟨150, 300⟩, some ⟨150, 300⟩)] := by
  decide

/-- The cumulative volumes of a list with one more move. -/
theorem cumulative_cons (P : Move → Bool) (x : Move) (l : List Move) :
    cumulative P (x :: l) = (if P x then x.delta else 0) + cumulative P l := by
  unfold cumulative
  by_cases h : P x = true
  · simp [List.filter_cons, h]
  · simp [List.filter_cons, h]

/-- The cumulative volumes of two lists put together. -/
theorem cumulative_append (P : Move → Bool) (l1 l2 : List Move) :
    cumulative P (l1 ++ l2) = cumulative P l1 + cumulative P l2 := by
  simp [cumulative, List.filter_append, List.map_append, List.sum_append]

/-- The cumulative volumes depend on the condition only through the moves listed. -/
theorem cumulative_congr (P Q : Move → Bool) :
    ∀ (l : List Move), (∀ x ∈ l, P x = Q x) → cumulative P l = cumulative Q l
  | [], _ => rfl
  | x :: l, h => by
    rw [cumulative_cons, cumulative_cons, h x (List.mem_cons_self _ _),
      cumulative_congr P Q l (fun y hy => h y (List.mem_cons_of_mem _ hy))]

/-- The cumulative volumes when no move satisfies the condition. -/
theorem cumulative_eq_zero (P : Move → Bool) (l : List Move) (h : ∀ x ∈ l, P x = false) :
    cumulative P l = 0 := by
  have h2 : l.filter P = [] := by
    rw [List.filter_eq_nil_iff]
    intro x hx
    simp [h x hx]
  simp [cumulative, h2]

/-- The cumulative volumes through a rewriting of the moves that keeps their deltas. -/
theorem cumulative_map (P : Move → Bool) (f : Move → Move) (hf : ∀ x, (f x).delta = x.delta) :
    ∀ (l : List Move), cumulative P (l.map f) = cumulative (fun x => P (f x)) l
  | [] => rfl
  | x :: l => by
    rw [List.map_cons, cumulative_cons, cumulative_cons, cumulative_map P f hf l, hf x]

/-- The cumulative volumes do not depend on the order of the moves. -/
theorem cumulative_reverse (P : Move → Bool) (l : List Move) :
    cumulative P l.reverse = cumulative P l := by
  unfold cumulative
  rw [List.filter_reverse, List.map_reverse, List.sum_reverse]

/-- The re-aggregation changes nothing of a move but its effective volumes. -/
theorem reaggregate_keeps (move m : Move) :
    (reaggregate move m).key = m.key
      ∧ (reaggregate move m).EffectiveDate = m.EffectiveDate
      ∧ (reaggregate move m).delta = m.delta
      ∧ (reaggregate move m).PostCommitVolumes = m.PostCommitVolumes
      ∧ (reaggregate move m).bare = m.bare := by
  unfold reaggregate
  split_ifs <;> simp [Move.key, Move.delta, Move.bare]

/-- A split of a rewritten table is the rewriting of a split of the table. -/
theorem map_eq_split (f : Move → Move) (table pre post : List Move) (y : Move)
    (h : table.map f = pre ++ y :: post) :
    ∃ pre0 y0 post0, table = pre0 ++ y0 :: post0 ∧ pre = pre0.map f ∧ y = f y0
      ∧ post = post0.map f := by
  obtain ⟨l1, l2, hl, h1, h2⟩ := List.map_eq_append_iff.mp h
  obtain ⟨y0, post0, hl2, hy, hp⟩ := List.map_eq_cons_iff.mp h2
  exact ⟨l1, y0, post0, by rw [hl, hl2], h1.symm, hy.symm, hp.symm⟩

/-- Without previous move under the effective-date ordering, no stored move of the
`(account, asset)` is dated at or before the move. -/
theorem previousByEffectiveDate_none_aux (move : Move) :
    ∀ (table : List Move), previousByEffectiveDate move table = none →
      ∀ x ∈ table, ¬ (x.key = move.key ∧ x.EffectiveDate ≤ move.EffectiveDate)
  | [], _, x, hx => by simp at hx
  | a :: table, h, x, hx => by
    unfold previousByEffectiveDate at h
    by_cases hc : a.key = move.key ∧ a.EffectiveDate ≤ move.EffectiveDate
    · rw [if_pos hc] at h
      cases hr : previousByEffectiveDate move table with
      | none => simp [hr] at h
      | some q =>
        rw [hr] at h
        by_cases hlt : a.EffectiveDate < q.EffectiveDate <;> simp [hlt] at h
    · rw [if_neg hc] at h
      rcases List.mem_cons.mp hx with he | hm
      · rw [he]; exact hc
      · exact previousByEffectiveDate_none_aux move table h x hm
/-- The tail of a table consistent under the insertion ordering is consistent. -/
theorem insertionConsistent_tail (a : Move) (table : List Move)
    (h : insertionConsistent (a :: table)) : insertionConsistent table := by
  intro pre m post hsplit
  exact h (a :: pre) m post (by rw [hsplit]; rfl)

/-- In a table consistent under the insertion ordering, the volumes of the previous
move of an `(account, asset)` are the cumulative volumes of its moves. -/
theorem previousByInsertion_volumes (move : Move) :
    ∀ (table : List Move), insertionConsistent table →
      ((previousByInsertion move table).bind (fun p => p.PostCommitVolumes)).getD 0
        = cumulative (fun x => decide (x.key = move.key)) table
  | [], _ => rfl
  | a :: table, h => by
    have ih := previousByInsertion_volumes move table (insertionConsistent_tail a table h)
    by_cases hk : a.key = move.key
    · have ha := h [] a table rfl
      simp only [previousByInsertion, List.find?_cons, hk, decide_True, cumulative_cons,
        if_true]
      rw [← hk]
      simp [ha]
    · simp only [previousByInsertion, List.find?_cons, hk, decide_False, cumulative_cons,
        Bool.false_eq_true, if_false, zero_add]
      exact ih

/-- The previous move under the effective-date ordering, when there is one, splits the
table: it is of the `(account, asset)` of the move and dated at or before it, the moves
of that `(account, asset)` dated at or before the move are dated before it when
inserted after it, and at or before it when inserted before it. -/
theorem previousByEffectiveDate_some (move : Move) :
    ∀ (table : List Move) (p : Move), previousByEffectiveDate move table = some p →
      ∃ pre post, table = pre ++ p :: post ∧ p.key = move.key
        ∧ p.EffectiveDate ≤ move.EffectiveDate
        ∧ (∀ x ∈ pre, x.key = move.key → x.EffectiveDate ≤ move.EffectiveDate →
            x.EffectiveDate < p.EffectiveDate)
        ∧ (∀ x ∈ post, x.key = move.key → x.EffectiveDate ≤ move.EffectiveDate →
            x.EffectiveDate ≤ p.EffectiveDate)
  | [], p, h => by simp [previousByEffectiveDate] at h
  | a :: table, p, h => by
    unfold previousByEffectiveDate at h
    by_cases hc : a.key = move.key ∧ a.EffectiveDate ≤ move.EffectiveDate
    · rw [if_pos hc] at h
      cases hr : previousByEffectiveDate move table with
      | none =>
        rw [hr] at h
        simp only [Option.some.injEq] at h
        subst h
        refine ⟨[], table, rfl, hc.1, hc.2, by simp, ?_⟩
        intro x hx hxk hxd
        exact absurd ⟨hxk, hxd⟩ (previousByEffectiveDate_none_aux move table hr x hx)
      | some q =>
        rw [hr] at h
        obtain ⟨pre, post, hsplit, hqk, hqd, hpre, hpost⟩ :=
          previousByEffectiveDate_some move table q hr
        by_cases hlt : a.EffectiveDate < q.EffectiveDate
        · simp only [hlt, if_true, Option.some.injEq] at h
          subst h
          refine ⟨a :: pre, post, by rw [hsplit]; rfl, hqk, hqd, ?_, hpost⟩
          intro x hx hxk hxd
          rcases List.mem_cons.mp hx with he | hm
          · rw [he]; exact hlt
          · exact hpre x hm hxk hxd
        · simp only [hlt, if_false, Option.some.injEq] at h
          subst h
          refine ⟨[], table, rfl, hc.1, hc.2, by simp, ?_⟩
          intro x hx hxk hxd
          rw [hsplit] at hx
          have hqa : q.EffectiveDate ≤ a.EffectiveDate := not_lt.mp hlt
          rcases List.mem_append.mp hx with hm | hm
          · exact le_of_lt (lt_of_lt_of_le (hpre x hm hxk hxd) hqa)
          · rcases List.mem_cons.mp hm with he | hm2
            · rw [he]; exact hqa
            · exact le_trans (hpost x hm2 hxk hxd) hqa
    · rw [if_neg hc] at h
      obtain ⟨pre, post, hsplit, hqk, hqd, hpre, hpost⟩ :=
        previousByEffectiveDate_some move table p h
      refine ⟨a :: pre, post, by rw [hsplit]; rfl, hqk, hqd, ?_, hpost⟩
      intro x hx hxk hxd
      rcases List.mem_cons.mp hx with he | hm
      · rw [he] at hxk hxd
        exact absurd ⟨hxk, hxd⟩ hc
      · exact hpre x hm hxk hxd

/-- In a table consistent under the effective-date ordering, the effective volumes of
the previous move of a move are the cumulative volumes of the stored moves of its
`(account, asset)` dated at or before it. -/
theorem previousByEffectiveDate_volumes (move : Move) (table : List Move)
    (h : effectiveConsistent table) :
    ((previousByEffectiveDate move table).bind
        (fun p => p.PostCommitEffectiveVolumes)).getD 0
      = cumulative (fun x => decide (x.key = move.key)
          && decide (x.EffectiveDate ≤ move.EffectiveDate)) table := by
  cases hr : previousByEffectiveDate move table with
  | none =>
    have hnone := previousByEffectiveDate_none_aux move table hr
    rw [cumulative_eq_zero]
    · rfl
    · intro x hx
      have := hnone x hx
      simpa [not_and] using this
  | some p =>
    obtain ⟨pre, post, hsplit, hpk, hpd, hpre, hpost⟩ :=
      previousByEffectiveDate_some move table p hr
    have hp := h pre p post hsplit
    have h1 : cumulative (fun x => decide (x.key = move.key)
          && decide (x.EffectiveDate ≤ move.EffectiveDate)) pre
        = cumulative (fun x => decide (x.key = p.key)
          && decide (x.EffectiveDate < p.EffectiveDate)) pre := by
      apply cumulative_congr
      intro x hx
      rw [hpk]
      by_cases hxk : x.key = move.key
      · by_cases hxd : x.EffectiveDate ≤ move.EffectiveDate
        · simp [hxk, hxd, hpre x hx hxk hxd]
        · have : ¬ x.EffectiveDate < p.EffectiveDate :=
            fun hlt => hxd (le_trans (le_of_lt hlt) hpd)
          simp [hxk, hxd, this]
      · simp [hxk]
    have h2 : cumulative (fun x => decide (x.key = move.key)
          && decide (x.EffectiveDate ≤ move.EffectiveDate)) post
        = cumulative (fun x => decide (x.key = p.key)
          && decide (x.EffectiveDate ≤ p.EffectiveDate)) post := by
      apply cumulative_congr
      intro x hx
      rw [hpk]
      by_cases hxk : x.key = move.key
      · by_cases hxd : x.EffectiveDate ≤ move.EffectiveDate
        · simp [hxk, hxd, hpost x hx hxk hxd]
        · have : ¬ x.EffectiveDate ≤ p.EffectiveDate :=
            fun hle => hxd (le_trans hle hpd)
          simp [hxk, hxd, this]
      · simp [hxk]
    have hcond : (decide (p.key = move.key)
        && decide (p.EffectiveDate ≤ move.EffectiveDate)) = true := by
      simp [hpk, hpd]
    rw [hsplit, cumulative_append, cumulative_cons, h1, h2, hcond, if_pos rfl]
    simp only [Option.some_bind, hp, Option.getD_some]
    abel

/-- Inserting a move keeps the table consistent under the insertion ordering. -/
theorem insertMove_insertionConsistent (table : List Move) (move : Move)
    (h : insertionConsistent table) : insertionConsistent (insertMove table move).1 := by
  intro pre m post hsplit
  simp only [insertMove] at hsplit
  cases pre with
  | nil =>
    simp only [List.nil_append, List.cons.injEq] at hsplit
    obtain ⟨hm, hpost⟩ := hsplit
    subst hm
    subst hpost
    have hmap : cumulative (fun x => decide (x.key = move.key)) (table.map (reaggregate move))
        = cumulative (fun x => decide (x.key = move.key)) table := by
      rw [cumulative_map _ _ (fun x => (reaggregate_keeps move x).2.2.1)]
      apply cumulative_congr
      intro x _
      rw [(reaggregate_keeps move x).1]
    simp only [Move.key, Move.delta] at hmap ⊢
    rw [hmap]
    have := previousByInsertion_volumes move table h
    simp only [Move.key] at this
    rw [this, add_comm]
  | cons a pre =>
    simp only [List.cons_append, List.cons.injEq] at hsplit
    obtain ⟨-, hrest⟩ := hsplit
    obtain ⟨pre0, y0, post0, htable, -, hy, hpost⟩ :=
      map_eq_split (reaggregate move) table pre post m hrest
    have hy0 := h pre0 y0 post0 htable
    obtain ⟨hk, -, hd, hv, -⟩ := reaggregate_keeps move y0
    rw [hy, hv, hd, hk, hpost, hy0,
      cumulative_map _ _ (fun x => (reaggregate_keeps move x).2.2.1)]
    congr 2
    apply cumulative_congr
    intro x _
    rw [(reaggregate_keeps move x).1]

/-- The effective volumes of a move after the re-aggregation. -/
theorem reaggregate_effective (move m : Move) :
    (reaggregate move m).PostCommitEffectiveVolumes
      = if m.key = move.key ∧ move.EffectiveDate < m.EffectiveDate then
          m.PostCommitEffectiveVolumes.map (· + move.delta)
        else m.PostCommitEffectiveVolumes := by
  unfold reaggregate
  split_ifs <;> rfl

/-- The cumulative volumes of a re-aggregated table, for a condition on the
`(account, asset)` and the effective date. -/
theorem cumulative_reaggregate (move : Move) (P : String × String × String → Time → Bool)
    (l : List Move) :
    cumulative (fun x => P x.key x.EffectiveDate) (l.map (reaggregate move))
      = cumulative (fun x => P x.key x.EffectiveDate) l := by
  rw [cumulative_map _ _ (fun x => (reaggregate_keeps move x).2.2.1)]
  apply cumulative_congr
  intro x _
  rw [(reaggregate_keeps move x).1, (reaggregate_keeps move x).2.1]

/-- Inserting a move keeps the table consistent under the effective-date ordering: the
moves of greater effective date are re-aggregated. -/
theorem insertMove_effectiveConsistent (table : List Move) (move : Move)
    (h : effectiveConsistent table) : effectiveConsistent (insertMove table move).1 := by
  intro pre m post hsplit
  simp only [insertMove] at hsplit
  cases pre with
  | nil =>
    simp only [List.nil_append, List.cons.injEq] at hsplit
    obtain ⟨hm, hpost⟩ := hsplit
    subst hm
    subst hpost
    have hprev := previousByEffectiveDate_volumes move table h
    have hmap := cumulative_reaggregate move
      (fun k d => decide (k = move.key) && decide (d ≤ move.EffectiveDate)) table
    simp only [Move.key, Move.delta] at hprev hmap ⊢
    rw [hmap, hprev]
    simp only [cumulative, List.filter_nil, List.map_nil, List.sum_nil, add_zero]
    rw [add_comm]
  | cons a pre =>
    simp only [List.cons_append, List.cons.injEq] at hsplit
    obtain ⟨ha, hrest⟩ := hsplit
    obtain ⟨pre0, y0, post0, htable, hpre, hy, hpost⟩ :=
      map_eq_split (reaggregate move) table pre post m hrest
    have hy0 := h pre0 y0 post0 htable
    obtain ⟨hk, hd, hdelta, -, -⟩ := reaggregate_keeps move y0
    have hLE := cumulative_reaggregate move
      (fun k d => decide (k = y0.key) && decide (d ≤ y0.EffectiveDate)) post0
    have hLT := cumulative_reaggregate move
      (fun k d => decide (k = y0.key) && decide (d < y0.EffectiveDate)) pre0
    have hakey : a.key = move.key := by rw [← ha]; rfl
    have hadate : a.EffectiveDate = move.EffectiveDate := by rw [← ha]
    have hadelta : a.delta = move.delta := by rw [← ha]; rfl
    rw [hy, hk, hd, hdelta, hpost, hpre, cumulative_cons, hLE, hLT, reaggregate_effective, hy0,
      hakey, hadate, hadelta]
    by_cases hc : y0.key = move.key ∧ move.EffectiveDate < y0.EffectiveDate
    · have hc2 : (decide (move.key = y0.key)
          && decide (move.EffectiveDate < y0.EffectiveDate)) = true := by
        simp [hc.1, hc.2]
      rw [if_pos hc, hc2, if_pos rfl]
      simp only [Option.map_some', Option.some.injEq]
      abel
    · have hc2 : (decide (move.key = y0.key)
          && decide (move.EffectiveDate < y0.EffectiveDate)) = false := by
        by_cases hkk : move.key = y0.key
        · have : ¬ move.EffectiveDate < y0.EffectiveDate := fun hlt => hc ⟨hkk.symm, hlt⟩
          simp [hkk, this]
        · simp [hkk]
      rw [if_neg hc, hc2]
      simp

/-- The table built by `insertMoves` from a consistent table is consistent under both
orderings. -/
theorem insertMoves_consistent :
    ∀ (moves table : List Move), insertionConsistent table → effectiveConsistent table →
      insertionConsistent (insertMoves table moves).1
        ∧ effectiveConsistent (insertMoves table moves).1
  | [], _, h1, h2 => ⟨h1, h2⟩
  | move :: rest, table, h1, h2 => by
    simp only [insertMoves]
    exact insertMoves_consistent rest _ (insertMove_insertionConsistent table move h1)
      (insertMove_effectiveConsistent table move h2)

/-- The table built by `insertMoves` holds the moves given, the last one first, before
the moves already stored, with nothing changed but the snapshots. -/
theorem insertMoves_bare :
    ∀ (moves table : List Move),
      (insertMoves table moves).1.map Move.bare
        = (moves.map Move.bare).reverse ++ table.map Move.bare
  | [], table => by simp [insertMoves]
  | move :: rest, table => by
    simp only [insertMoves]
    rw [insertMoves_bare rest]
    have h1 : (insertMove table move).1.map Move.bare = move.bare :: table.map Move.bare := by
      simp only [insertMove, List.map_cons, List.map_map]
      congr 1
      apply List.map_congr_left
      intro x _
      exact (reaggregate_keeps move x).2.2.2.2
    rw [h1]
    simp

/-- The cumulative volumes, for a condition on the `(account, asset)` and the effective
date, are those of the moves without their snapshots. -/
theorem cumulative_bare (P : String × String × String → Time → Bool) (l : List Move) :
    cumulative (fun x => P x.key x.EffectiveDate) (l.map Move.bare)
      = cumulative (fun x => P x.key x.EffectiveDate) l := by
  rw [cumulative_map _ _ (fun x => by simp [Move.bare, Move.delta])]
  rfl

/-- The cumulative volumes of the table built by `insertMoves` from the empty table are
those of the moves given. -/
theorem cumulative_insertMoves (P : String × String × String → Time → Bool)
    (moves : List Move) :
    cumulative (fun x => P x.key x.EffectiveDate) (insertMoves [] moves).1
      = cumulative (fun x => P x.key x.EffectiveDate) moves := by
  rw [← cumulative_bare P (insertMoves [] moves).1, insertMoves_bare, List.map_nil,
    List.append_nil, cumulative_reverse, cumulative_bare]

/-- C11: for every sequence of moves inserted through `insertMoves` from an empty table,
in any order of effective dates, the move inserted next is read back with, as
`post_commit_volumes`, the cumulative volumes of the moves of its `(account, asset)`
inserted so far, itself included, and as `post_commit_effective_volumes` the cumulative
volumes of those of them dated at or before it, itself included. -/
theorem insertMoves_snapshots (moves : List Move) (move : Move) :
    (insertMove (insertMoves [] moves).1 move).2.PostCommitVolumes
        = some (move.delta + cumulative (fun x => decide (x.key = move.key)) moves)
      ∧ (insertMove (insertMoves [] moves).1 move).2.PostCommitEffectiveVolumes
        = some (move.delta + cumulative (fun x => decide (x.key = move.key)
            && decide (x.EffectiveDate ≤ move.EffectiveDate)) moves) := by
  have hnil1 : insertionConsistent [] := by
    intro pre m post h
    simp at h
  have hnil2 : effectiveConsistent [] := by
    intro pre m post h
    simp at h
  obtain ⟨h1, h2⟩ := insertMoves_consistent moves [] hnil1 hnil2
  have e1 := previousByInsertion_volumes move _ h1
  have e2 := previousByEffectiveDate_volumes move _ h2
  have c1 := cumulative_insertMoves (fun k _ => decide (k = move.key)) moves
  have c2 := cumulative_insertMoves
    (fun k d => decide (k = move.key) && decide (d ≤ move.EffectiveDate)) moves
  simp only [insertMove]
  rw [e1, e2, c1, c2]
  exact ⟨by rw [add_comm], by rw [add_comm]⟩

/-! ### Conservation -/

/-- Three transactions in the manner of the high-concurrency test, between
`accounts:1`, `accounts:2` and `accounts:3`: the aggregated balance of `USD` is 0. -/
theorem aggregatedBalance_test :
    aggregatedBalance "l1" "USD"
        (commitAll "l1" 9 [] [testTransaction "accounts:1" "accounts:2",
          testTransaction "accounts:3" "accounts:1", testTransaction "accounts:2" "accounts:2"])
      = 0 := by
  decide

/-- The balance of a sum of volumes is the sum of the balances. -/
theorem Balance_add (a b : Volumes) : (a + b).Balance = a.Balance + b.Balance := by
  show (a.Input + b.Input) - (a.Output + b.Output) = (a.Input - a.Output) + (b.Input - b.Output)
  ring

/-- The balance of the cumulative volumes of moves is the sum of their signed amounts. -/
theorem cumulative_Balance (P : Move → Bool) :
    ∀ (l : List Move), (cumulative P l).Balance = signedSum P l
  | [] => rfl
  | x :: l => by
    rw [cumulative_cons, Balance_add, cumulative_Balance P l]
    unfold signedSum
    by_cases h : P x = true
    · cases hs : x.IsSource <;>
        simp [List.filter_cons, h, Move.delta, Move.signed, Volumes.Balance, hs]
    · simp only [List.filter_cons, h, if_false, Bool.false_eq_true]
      show (0 : Int) - 0 + _ = _
      simp

/-- The sum of the signed amounts of a list with one more move. -/
theorem signedSum_cons (P : Move → Bool) (x : Move) (l : List Move) :
    signedSum P (x :: l) = (if P x then x.signed else 0) + signedSum P l := by
  unfold signedSum
  by_cases h : P x = true
  · simp [List.filter_cons, h]
  · simp [List.filter_cons, h]

/-- The sum of the signed amounts of two lists put together. -/
theorem signedSum_append (P : Move → Bool) (l1 l2 : List Move) :
    signedSum P (l1 ++ l2) = signedSum P l1 + signedSum P l2 := by
  simp [signedSum, List.filter_append, List.map_append, List.sum_append]

/-- The sum of the signed amounts depends on the condition only through the moves
listed. -/
theorem signedSum_congr (P Q : Move → Bool) :
    ∀ (l : List Move), (∀ x ∈ l, P x = Q x) → signedSum P l = signedSum Q l
  | [], _ => rfl
  | x :: l, h => by
    rw [signedSum_cons, signedSum_cons, h x (List.mem_cons_self _ _),
      signedSum_congr P Q l (fun y hy => h y (List.mem_cons_of_mem _ hy))]

/-- Inserting two lists of moves one after the other is inserting them together. -/
theorem insertMoves_append :
    ∀ (a b table : List Move),
      (insertMoves table (a ++ b)).1 = (insertMoves (insertMoves table a).1 b).1
  | [], b, table => rfl
  | x :: a, b, table => by
    simp only [List.cons_append, insertMoves]
    exact insertMoves_append a b _

/-- The table left by a sequence of commits holds the moves of the transactions,
inserted in the order of the transactions and of their postings. -/
theorem commitAll_eq (ledger : String) (now : Time) :
    ∀ (txs : List TransactionData) (table : List Move),
      commitAll ledger now table txs
        = (insertMoves table (txs.flatMap (transactionMoves ledger now))).1
  | [], table => rfl
  | tx :: rest, table => by
    rw [commitAll, commitAll_eq ledger now rest, CommitTransaction, List.flatMap_cons,
      insertMoves_append]

/-- Over distinct accounts, the value placed on one account sums to that value when the
account is listed. -/
theorem sum_ite_of_nodup (c : String) (v : Int) :
    ∀ (accounts : List String), accounts.Nodup →
      (accounts.map (fun a => if c = a then v else 0)).sum = if c ∈ accounts then v else 0
  | [], _ => rfl
  | a :: rest, h => by
    rw [List.nodup_cons] at h
    rw [List.map_cons, List.sum_cons, sum_ite_of_nodup c v rest h.2]
    by_cases hca : c = a
    · subst hca
      simp [h.1]
    · have hne : ¬ a = c := fun he => hca he.symm
      simp [hca, hne]

/-- Summing account by account, over distinct accounts that cover the moves, gives the
sum over the moves. -/
theorem signedSum_by_account (Q : Move → Bool) (accounts : List String)
    (hnd : accounts.Nodup) :
    ∀ (l : List Move), (∀ x ∈ l, Q x = true → x.Account ∈ accounts) →
      (accounts.map (fun a => signedSum (fun x => Q x && decide (x.Account = a)) l)).sum
        = signedSum Q l
  | [], _ => by simp [signedSum]
  | x :: l, h => by
    have ih := signedSum_by_account Q accounts hnd l
      (fun y hy => h y (List.mem_cons_of_mem _ hy))
    have hsplit : (accounts.map
          (fun a => signedSum (fun x => Q x && decide (x.Account = a)) (x :: l))).sum
        = (accounts.map (fun a => if x.Account = a then (if Q x then x.signed else 0) else 0)).sum
          + (accounts.map (fun a => signedSum (fun x => Q x && decide (x.Account = a)) l)).sum := by
      rw [← List.sum_map_add]
      congr 1
      apply List.map_congr_left
      intro a _
      rw [signedSum_cons]
      by_cases hq : Q x = true <;> by_cases ha : x.Account = a <;> simp [hq, ha]
    rw [hsplit, ih, sum_ite_of_nodup _ _ accounts hnd, signedSum_cons]
    by_cases hq : Q x = true
    · simp [hq, h x (List.mem_cons_self _ _) hq]
    · simp [hq]

/-- The signed amounts of the moves of committed transactions, for one ledger and one
asset, sum to zero: each posting gives its amount once to a source and once to a
destination. -/
theorem signedSum_transactions (ledger : String) (now : Time) (l asset : String) :
    ∀ (txs : List TransactionData),
      signedSum (fun x => decide (x.Ledger = l ∧ x.Asset = asset))
        (txs.flatMap (transactionMoves ledger now)) = 0
  | [] => rfl
  | tx :: rest => by
    rw [List.flatMap_cons, signedSum_append, signedSum_transactions ledger now l asset rest,
      add_zero]
    unfold transactionMoves
    induction tx.Postings with
    | nil => rfl
    | cons p ps ih =>
      rw [List.flatMap_cons, signedSum_append, ih, add_zero]
      by_cases hc : ledger = l ∧ p.Asset = asset
      · simp [postingMoves, signedSum, List.filter_cons, hc, Move.signed]
      · simp [postingMoves, signedSum, List.filter_cons, hc, Move.signed]

/-- In the moves of a transaction, for every asset, the source amounts and the
destination amounts have the same sum. -/
theorem amountOf_transaction (ledger : String) (now : Time) (asset : String)
    (tx : TransactionData) :
    amountOf true asset (transactionMoves ledger now tx)
      = amountOf false asset (transactionMoves ledger now tx) := by
  unfold transactionMoves
  induction tx.Postings with
  | nil => rfl
  | cons p ps ih =>
    unfold amountOf at ih ⊢
    rw [List.flatMap_cons, List.filter_append, List.filter_append, List.map_append,
      List.map_append, List.sum_append, List.sum_append, ih]
    congr 1
    by_cases hc : p.Asset = asset
    · simp [postingMoves, List.filter_cons, hc]
    · simp [postingMoves, List.filter_cons, hc]

/-- C12: for every sequence of committed transactions, each a list of postings, and for
every asset, the source amounts and the destination amounts of each transaction have the
same sum, and the balance `input - output` aggregated over all accounts of the ledger is
0 for that asset. -/
theorem aggregatedBalance_zero (ledger : String) (now : Time) (txs : List TransactionData)
    (asset : String) :
    (∀ tx ∈ txs, amountOf true asset (transactionMoves ledger now tx)
        = amountOf false asset (transactionMoves ledger now tx))
      ∧ aggregatedBalance ledger asset (commitAll ledger now [] txs) = 0 := by
  refine ⟨fun tx _ => amountOf_transaction ledger now asset tx, ?_⟩
  have hnil1 : insertionConsistent [] := by
    intro pre m post h
    simp at h
  have hnil2 : effectiveConsistent [] := by
    intro pre m post h
    simp at h
  rw [commitAll_eq]
  obtain ⟨hcons, -⟩ :=
    insertMoves_consistent (txs.flatMap (transactionMoves ledger now)) [] hnil1 hnil2
  generalize hT : (insertMoves [] (txs.flatMap (transactionMoves ledger now))).1 = table
    at hcons
  have hvol : ∀ account, (accountVolumes ledger account asset table).Balance
      = signedSum (fun x => decide (x.Ledger = ledger ∧ x.Asset = asset)
          && decide (x.Account = account)) table := by
    intro account
    unfold accountVolumes
    rw [previousByInsertion_volumes _ table hcons, cumulative_Balance]
    apply signedSum_congr
    intro x _
    simp only [Move.key, probe, Prod.mk.injEq]
    by_cases h1 : x.Ledger = ledger <;> by_cases h2 : x.Account = account <;>
      by_cases h3 : x.Asset = asset <;> simp [h1, h2, h3]
  unfold aggregatedBalance
  rw [List.map_congr_left (fun account _ => hvol account)]
  have hsum := signedSum_by_account (fun x => decide (x.Ledger = ledger ∧ x.Asset = asset))
    (accountsOf ledger table) (by unfold accountsOf; exact List.nodup_dedup _) table
    (by
      intro x hx hq
      simp only [decide_eq_true_eq] at hq
      unfold accountsOf
      rw [List.mem_dedup, List.mem_map]
      exact ⟨x, List.mem_filter.mpr ⟨hx, by simpa using hq.1⟩, rfl⟩)
  rw [hsum, ← cumulative_Balance, ← hT]
  have := cumulative_insertMoves (fun k _ => decide (k.1 = ledger ∧ k.2.2 = asset))
    (txs.flatMap (transactionMoves ledger now))
  simp only [Move.key] at this
  rw [this, cumulative_Balance]
  exact signedSum_transactions ledger now ledger asset txs

/-! ### `DeleteAccountMetadata` -/

/-- The binding of a key in a list of pairs with one more pair. -/
theorem lookup_cons_ite (k pk pv : String) (rest : Metadata) :
    List.lookup k ((pk, pv) :: rest) = if k = pk then some pv else List.lookup k rest := by
  by_cases h : k = pk
  · subst h
    simp [List.lookup_cons]
  · have hb : (k == pk) = false := by simpa using h
    simp [List.lookup_cons, hb, h]

/-- The bindings of `a - key`: none for the key, those of `a` for the other keys. -/
theorem lookup_jsonbDelete (a : Metadata) (key k : String) :
    (jsonbDelete a key).lookup k = if k = key then none else a.lookup k := by
  unfold jsonbDelete
  induction a with
  | nil => simp
  | cons p rest ih =>
    obtain ⟨pk, pv⟩ := p
    by_cases hpk : pk = key
    · have hne : (pk != key) = false := by simpa using hpk
      rw [List.filter_cons, hne, if_neg (by simp), ih, lookup_cons_ite]
      by_cases hkk : k = key
      · simp [hkk]
      · have hkp : ¬ k = pk := fun h => hkk (h.trans hpk)
        simp [hkk, hkp]
    · have hne : (pk != key) = true := by simpa using hpk
      rw [List.filter_cons, hne, if_pos rfl, lookup_cons_ite, lookup_cons_ite, ih]
      by_cases hkp : k = pk
      · have hkk : ¬ k = key := fun h => hpk (hkp.symm.trans h)
        simp [hkp, hpk]
      · simp [hkp]

/-- Deleting a key twice is deleting it once. -/
theorem jsonbDelete_idem (a : Metadata) (key : String) :
    jsonbDelete (jsonbDelete a key) key = jsonbDelete a key := by
  unfold jsonbDelete
  rw [List.filter_filter]
  simp

/-- C30: `DeleteAccountMetadata(a, k)` returns no error, whether or not the account or
the key exists, and keeps the rows in place: a row of the store's ledger with address
`a` loses the key `k` and keeps its other keys, its insertion date, `first_usage` and
`updated_at`; every other row, of another address or of another ledger, is unchanged;
and applying it twice gives the state that applying it once gives. -/
theorem DeleteAccountMetadata_frame (s : Store) (a k : String) :
    (DeleteAccountMetadata s a k).2 = none
      ∧ (DeleteAccountMetadata s a k).1.ledger = s.ledger
      ∧ (DeleteAccountMetadata s a k).1.accounts.length = s.accounts.length
      ∧ (∀ (i : Nat) (r r2 : Account), s.accounts[i]? = some r →
          (DeleteAccountMetadata s a k).1.accounts[i]? = some r2 →
          r2.Ledger = r.Ledger ∧ r2.Address = r.Address
            ∧ r2.InsertionDate = r.InsertionDate ∧ r2.UpdatedAt = r.UpdatedAt
            ∧ r2.FirstUsage = r.FirstUsage
            ∧ (r.Ledger = s.ledger.Name → r.Address = a →
                r2.Metadata.lookup k = none
                  ∧ ∀ k2, k2 ≠ k → r2.Metadata.lookup k2 = r.Metadata.lookup k2)
            ∧ (¬ (r.Ledger = s.ledger.Name ∧ r.Address = a) → r2 = r))
      ∧ (DeleteAccountMetadata (DeleteAccountMetadata s a k).1 a k).1.accounts
          = (DeleteAccountMetadata s a k).1.accounts := by
  refine ⟨rfl, rfl, by simp [DeleteAccountMetadata], ?_, ?_⟩
  · intro i r r2 hr hr2
    simp only [DeleteAccountMetadata, List.getElem?_map, hr, Option.map_some',
      Option.some.injEq] at hr2
    by_cases hc : r.Address = a ∧ r.Ledger = s.ledger.Name
    · have hcond : (r.Address == a && r.Ledger == s.ledger.Name) = true := by
        simp [hc.1, hc.2]
      rw [hcond, if_pos rfl] at hr2
      subst hr2
      refine ⟨rfl, rfl, rfl, rfl, rfl, ?_, ?_⟩
      · intro _ _
        refine ⟨by simp [lookup_jsonbDelete], ?_⟩
        intro k2 hk2
        simp [lookup_jsonbDelete, hk2]
      · intro hn
        exact absurd ⟨hc.2, hc.1⟩ hn
    · have hcond : (r.Address == a && r.Ledger == s.ledger.Name) = false := by
        by_cases h1 : r.Address = a
        · have h2 : ¬ r.Ledger = s.ledger.Name := fun h => hc ⟨h1, h⟩
          simp [h1, h2]
        · simp [h1]
      rw [hcond] at hr2
      simp only [Bool.false_eq_true, if_false] at hr2
      subst hr2
      refine ⟨rfl, rfl, rfl, rfl, rfl, ?_, fun _ => rfl⟩
      intro h1 h2
      exact absurd ⟨h2, h1⟩ hc
  · simp only [DeleteAccountMetadata, List.map_map]
    apply List.map_congr_left
    intro r _
    by_cases hc : r.Address = a ∧ r.Ledger = s.ledger.Name
    · simp [hc.1, hc.2, jsonbDelete_idem]
    · have hcond : (r.Address == a && r.Ledger == s.ledger.Name) = false := by
        by_cases h1 : r.Address = a
        · have h2 : ¬ r.Ledger = s.ledger.Name := fun h => hc ⟨h1, h⟩
          simp [h1, h2]
        · simp [h1]
      simp [hcond, hc]

/-- An evaluation of `DeleteAccountMetadata` on the store `storeThree`: deleting `foo`
of `alice` in ledger `l1` leaves `role = admin` on that row and leaves `bob` and the
`alice` of ledger `l2` as they were. -/
theorem DeleteAccountMetadata_example :
    (DeleteAccountMetadata storeThree "alice" "foo").1.accounts
      = [ { Ledger := "l1", Address := "alice", Metadata := [("role", "admin")],
            InsertionDate := 1, UpdatedAt := 2, FirstUsage := 1 },
          { Ledger := "l1", Address := "bob", Metadata := [("foo", "b")],
            InsertionDate := 3, UpdatedAt := 3, FirstUsage := 3 },
          { Ledger := "l2", Address := "alice", Metadata := [("foo", "c")],
            InsertionDate := 4, UpdatedAt := 4, FirstUsage := 4 }] := by
  decide

/-! ### The ledger middleware -/

/-- The loop over the excluded paths finds a path exactly when it is listed. -/
theorem isExcluded_iff (rest : String) :
    ∀ (excluded : List String), isExcluded rest excluded = true ↔ rest ∈ excluded
  | [] => by simp [isExcluded]
  | path :: more => by
    unfold isExcluded
    by_cases h : rest = path
    · simp [h]
    · simp [h, isExcluded_iff rest more]

/-- The index of the first `/` is -1 or a position of the text. -/
theorem indexSlash_range : ∀ (cs : List Char), -1 ≤ indexSlash cs ∧ indexSlash cs < cs.length
  | [] => by simp [indexSlash]
  | c :: cs => by
    have ih := indexSlash_range cs
    unfold indexSlash
    split_ifs <;> simp <;> omega

/-- The text cut at the index of its first `/` is what follows what precedes the first
`/`; it is empty when there is none. -/
theorem drop_indexSlash :
    ∀ (cs : List Char),
      (0 ≤ indexSlash cs → cs.drop (indexSlash cs).toNat = cs.dropWhile (fun c => c != '/'))
        ∧ (indexSlash cs < 0 → cs.dropWhile (fun c => c != '/') = [])
  | [] => by simp [indexSlash]
  | c :: cs => by
    have ih := drop_indexSlash cs
    have hr := indexSlash_range cs
    unfold indexSlash
    by_cases hc : c = '/'
    · simp [hc, List.dropWhile_cons]
    · by_cases hneg : indexSlash cs < 0
      · simp [hc, hneg, List.dropWhile_cons, ih.2 hneg]
      · have hpos : 0 ≤ indexSlash cs := not_lt.mp hneg
        have hnat : (indexSlash cs + 1).toNat = (indexSlash cs).toNat + 1 := by omega
        simp only [hc, hneg, if_false]
        refine ⟨fun _ => ?_, fun h => by omega⟩
        rw [hnat, List.drop_succ_cons, ih.1 hpos]
        simp [List.dropWhile_cons, hc]

/-- The path without the ledger, for a path with a first character: what follows the
first segment, from its `/` on. -/
theorem pathWithoutLedger_cons (c : Char) (cs : List Char) :
    pathWithoutLedger (String.mk (c :: cs))
      = .ok (String.mk (cs.dropWhile (fun c => c != '/'))) := by
  have h := drop_indexSlash cs
  unfold pathWithoutLedger
  simp only [String.toList]
  by_cases hneg : indexSlash cs < 0
  · have hn : ¬ indexSlash cs ≥ 0 := not_le.mpr hneg
    simp only [hn, if_false, h.2 hneg]
  · have hpos : indexSlash cs ≥ 0 := not_lt.mp hneg
    simp only [hpos, if_true, h.1 hpos]

/-- What follows the first `/` of a text, from that `/` on, is a suffix of the text and
is empty or starts with `/`. -/
theorem dropWhile_slash_shape :
    ∀ (cs : List Char),
      cs.dropWhile (fun c => c != '/') = []
        ∨ ∃ tail, cs.dropWhile (fun c => c != '/') = '/' :: tail
  | [] => by simp
  | c :: cs => by
    by_cases hc : c = '/'
    · right
      exact ⟨cs, by simp [List.dropWhile_cons, hc]⟩
    · have ih := dropWhile_slash_shape cs
      simpa [List.dropWhile_cons, hc] using ih

/-- A text free of `/` is skipped whole by the search for the first `/`. -/
theorem dropWhile_slash_append :
    ∀ (L tail : List Char), '/' ∉ L →
      (L ++ '/' :: tail).dropWhile (fun c => c != '/') = '/' :: tail
  | [], tail, _ => by simp [List.dropWhile_cons]
  | c :: L, tail, h => by
    have hc : c ≠ '/' := fun e => h (by simp [e])
    have hL : '/' ∉ L := fun e => h (List.mem_cons_of_mem _ e)
    simp [List.dropWhile_cons, hc, dropWhile_slash_append L tail hL]

/-- A text free of `/` has nothing from its first `/` on. -/
theorem dropWhile_slash_free :
    ∀ (L : List Char), '/' ∉ L → L.dropWhile (fun c => c != '/') = []
  | [], _ => by simp
  | c :: L, h => by
    have hc : c ≠ '/' := fun e => h (by simp [e])
    have hL : '/' ∉ L := fun e => h (List.mem_cons_of_mem _ e)
    simp [List.dropWhile_cons, hc, dropWhile_slash_free L hL]

/-- The middleware on a request whose name is not empty, whose ledger resolves and
whose path is not empty, by the remainder of the path. -/
theorem LedgerMiddleware_resolved
    (get : String → Except BackendErr LedgerController) (excluded : List String)
    (name path rest : String) (l : LedgerController)
    (hname : name ≠ "") (hget : get name = .ok l)
    (hpath : pathWithoutLedger path = .ok rest) :
    LedgerMiddleware get excluded name path
      = if rest ∈ excluded then .ok [.GetLedgerController name, .ServeHTTP]
        else match l.IsDatabaseUpToDate with
          | .error _ =>
            .ok [.GetLedgerController name, .IsDatabaseUpToDate, .Respond 500 "INTERNAL"]
          | .ok true => .ok [.GetLedgerController name, .IsDatabaseUpToDate, .ServeHTTP]
          | .ok false =>
            .ok [.GetLedgerController name, .IsDatabaseUpToDate,
              .Respond 400 "OUTDATED_SCHEMA"] := by
  unfold LedgerMiddleware
  simp only [hname, if_false, hget, hpath]
  by_cases hex : rest ∈ excluded
  · have hb : isExcluded rest excluded = true := (isExcluded_iff rest excluded).2 hex
    simp [hb, hex]
  · have hb : isExcluded rest excluded = false := by
      cases h : isExcluded rest excluded
      · rfl
      · exact absurd ((isExcluded_iff rest excluded).1 h) hex
    simp only [hb, hex, if_false, Bool.not_false, if_true]
    cases hup : l.IsDatabaseUpToDate with
    | error e => rfl
    | ok b => cases b <;> simp [ErrOutdatedSchema]

/-- C22: for every request, an empty resolved name is answered 404 without calling
`GetLedgerController`; a not-found error of `GetLedgerController` is answered 404 with
code `LEDGER_NOT_FOUND` and any other error of it is answered 500. In these three cases
the middleware does nothing else: `IsDatabaseUpToDate` is not called and the wrapped
handler is not invoked. -/
theorem LedgerMiddleware_resolution_failures
    (get : String → Except BackendErr LedgerController) (excluded : List String)
    (name path : String) :
    (name = "" →
        LedgerMiddleware get excluded name path = .ok [.Respond 404 "NOT_FOUND"])
      ∧ (name ≠ "" → get name = .error .notFound →
        LedgerMiddleware get excluded name path
          = .ok [.GetLedgerController name, .Respond 404 "LEDGER_NOT_FOUND"])
      ∧ (∀ msg, name ≠ "" → get name = .error (.other msg) →
        LedgerMiddleware get excluded name path
          = .ok [.GetLedgerController name, .Respond 500 "INTERNAL"])
      ∧ ((name = "" ∨ ∃ e, get name = .error e) →
        ∃ events, LedgerMiddleware get excluded name path = .ok events
          ∧ MiddlewareEvent.IsDatabaseUpToDate ∉ events
          ∧ MiddlewareEvent.ServeHTTP ∉ events
          ∧ (name = "" → MiddlewareEvent.GetLedgerController name ∉ events)) := by
  have h1 : name = "" →
      LedgerMiddleware get excluded name path = .ok [.Respond 404 "NOT_FOUND"] := by
    intro h
    simp [LedgerMiddleware, h]
  have h2 : name ≠ "" → get name = .error .notFound →
      LedgerMiddleware get excluded name path
        = .ok [.GetLedgerController name, .Respond 404 "LEDGER_NOT_FOUND"] := by
    intro h hg
    simp [LedgerMiddleware, h, hg]
  have h3 : ∀ msg, name ≠ "" → get name = .error (.other msg) →
      LedgerMiddleware get excluded name path
        = .ok [.GetLedgerController name, .Respond 500 "INTERNAL"] := by
    intro msg h hg
    simp [LedgerMiddleware, h, hg]
  refine ⟨h1, h2, h3, ?_⟩
  intro h
  by_cases hname : name = ""
  · exact ⟨_, h1 hname, by simp, by simp, fun _ => by simp⟩
  · rcases h with h | ⟨e, he⟩
    · exact absurd h hname
    · cases e with
      | notFound => exact ⟨_, h2 hname he, by simp, by simp, fun hn => absurd hn hname⟩
      | other msg => exact ⟨_, h3 msg hname he, by simp, by simp, fun hn => absurd hn hname⟩

/-- C28: for every non-empty request path the path without the ledger is computed
without a panic and is the empty string or a suffix of the path that starts with `/`;
it is empty for `/L` and `/rest` for `/L/rest`, where `L` has no `/`; and, for a request
that reaches the schema check (non-empty name, resolved ledger), `IsDatabaseUpToDate`
is skipped exactly when this remainder is one of the excluded paths. -/
theorem pathWithoutLedger_remainder (path : String) (hpath : path ≠ "") :
    ∃ rest, pathWithoutLedger path = .ok rest
      ∧ (rest = "" ∨ (rest.toList <:+ path.toList ∧ rest.toList.head? = some '/'))
      ∧ (∀ L : List Char, '/' ∉ L → path = String.mk ('/' :: L) → rest = "")
      ∧ (∀ L tail : List Char, '/' ∉ L → path = String.mk ('/' :: (L ++ '/' :: tail)) →
          rest = String.mk ('/' :: tail))
      ∧ (∀ (get : String → Except BackendErr LedgerController) (excluded : List String)
          (name : String) (l : LedgerController), name ≠ "" → get name = .ok l →
          ∃ events, LedgerMiddleware get excluded name path = .ok events
            ∧ (MiddlewareEvent.IsDatabaseUpToDate ∉ events ↔ rest ∈ excluded)) := by
  obtain ⟨chars⟩ := path
  cases chars with
  | nil => exact absurd rfl hpath
  | cons c cs =>
    have hp := pathWithoutLedger_cons c cs
    refine ⟨_, hp, ?_, ?_, ?_, ?_⟩
    · rcases dropWhile_slash_shape cs with h | ⟨tail, h⟩
      · left
        rw [h]
      · right
        refine ⟨?_, by simp [h]⟩
        exact (List.dropWhile_suffix _).trans (List.suffix_cons c cs)
    · intro L hL e
      have e2 : c :: cs = '/' :: L := congrArg String.data e
      have e3 : cs = L := (List.cons.inj e2).2
      rw [e3, dropWhile_slash_free L hL]
    · intro L tail hL e
      have e2 : c :: cs = '/' :: (L ++ '/' :: tail) := congrArg String.data e
      have e3 : cs = L ++ '/' :: tail := (List.cons.inj e2).2
      rw [e3, dropWhile_slash_append L tail hL]
    · intro get excluded name l hname hget
      rw [LedgerMiddleware_resolved get excluded name _ _ l hname hget hp]
      by_cases hex : String.mk (cs.dropWhile (fun c => c != '/')) ∈ excluded
      · exact ⟨_, by rw [if_pos hex], by simp [hex]⟩
      · rw [if_neg hex]
        cases hup : l.IsDatabaseUpToDate with
        | error e => exact ⟨_, rfl, by simp [hex]⟩
        | ok b => cases b <;> exact ⟨_, rfl, by simp [hex]⟩

/-- The remainder of the path `/l1/transactions` is `/transactions`, and the schema
check is skipped for it exactly when `/transactions` is excluded. -/
theorem pathWithoutLedger_remainder_witness :
    "/l1/transactions" ≠ ""
      ∧ pathWithoutLedger "/l1/transactions" = .ok "/transactions"
      ∧ pathWithoutLedger "/l1" = .ok ""
      ∧ pathWithoutLedger "" = .panic "slice bounds out of range [1:0]"
      ∧ LedgerMiddleware (backendL1 false) ["/transactions"] "l1" "/l1/transactions"
          = .ok [.GetLedgerController "l1", .ServeHTTP]
      ∧ LedgerMiddleware (backendL1 false) ["/trans"] "l1" "/l1/transactions"
          = .ok [.GetLedgerController "l1", .IsDatabaseUpToDate,
              .Respond 400 "OUTDATED_SCHEMA"]
      ∧ ∃ rest, pathWithoutLedger "/l1/transactions" = .ok rest
          ∧ (rest = "" ∨ (rest.toList <:+ "/l1/transactions".toList
              ∧ rest.toList.head? = some '/')) :=
  ⟨by decide, by decide, by decide, by decide, by decide, by decide,
    (pathWithoutLedger_remainder "/l1/transactions" (by decide)).imp
      (fun _ h => ⟨h.1, h.2.1⟩)⟩

/-- C21: for every request whose name is not empty, whose ledger resolves to a
controller and whose path without the ledger is not excluded, an `IsDatabaseUpToDate`
that reports false is answered 400 with code `OUTDATED_SCHEMA` and the wrapped handler
is not invoked; and the wrapped handler is invoked if and only if the name is not
empty, the ledger resolves, and the path without the ledger is excluded or
`IsDatabaseUpToDate` succeeds and reports true. -/
theorem LedgerMiddleware_outdated_schema
    (get : String → Except BackendErr LedgerController) (excluded : List String)
    (name path : String) :
    (∀ (l : LedgerController) (rest : String), name ≠ "" → get name = .ok l →
        pathWithoutLedger path = .ok rest → rest ∉ excluded →
        l.IsDatabaseUpToDate = .ok false →
        LedgerMiddleware get excluded name path
          = .ok [.GetLedgerController name, .IsDatabaseUpToDate,
              .Respond 400 "OUTDATED_SCHEMA"])
      ∧ ((∃ events, LedgerMiddleware get excluded name path = .ok events
            ∧ MiddlewareEvent.ServeHTTP ∈ events)
          ↔ name ≠ "" ∧ ∃ l rest, get name = .ok l ∧ pathWithoutLedger path = .ok rest
              ∧ (rest ∈ excluded ∨ l.IsDatabaseUpToDate = .ok true)) := by
  constructor
  · intro l rest hname hget hpath hex hup
    rw [LedgerMiddleware_resolved get excluded name path rest l hname hget hpath,
      if_neg hex, hup]
  · constructor
    · rintro ⟨events, hev, hserve⟩
      by_cases hname : name = ""
      · simp [LedgerMiddleware, hname] at hev
        subst hev
        simp at hserve
      · refine ⟨hname, ?_⟩
        cases hget : get name with
        | error e =>
          cases e with
          | notFound =>
            simp [LedgerMiddleware, hname, hget] at hev
            subst hev
            simp at hserve
          | other msg =>
            simp [LedgerMiddleware, hname, hget] at hev
            subst hev
            simp at hserve
        | ok l =>
          cases hpath : pathWithoutLedger path with
          | panic msg => simp [LedgerMiddleware, hname, hget, hpath] at hev
          | error e => simp [LedgerMiddleware, hname, hget, hpath] at hev
          | ok rest =>
            refine ⟨l, rest, rfl, rfl, ?_⟩
            rw [LedgerMiddleware_resolved get excluded name path rest l hname hget hpath]
              at hev
            by_cases hex : rest ∈ excluded
            · exact Or.inl hex
            · right
              rw [if_neg hex] at hev
              cases hup : l.IsDatabaseUpToDate with
              | error e =>
                rw [hup] at hev
                simp at hev
                subst hev
                simp at hserve
              | ok b =>
                cases b with
                | true => rfl
                | false =>
                  rw [hup] at hev
                  simp at hev
                  subst hev
                  simp at hserve
    · rintro ⟨hname, l, rest, hget, hpath, h⟩
      rw [LedgerMiddleware_resolved get excluded name path rest l hname hget hpath]
      by_cases hex : rest ∈ excluded
      · exact ⟨_, by rw [if_pos hex], by simp⟩
      · rcases h with h | h
        · exact absurd h hex
        · rw [if_neg hex, h]
          exact ⟨_, rfl, by simp⟩

/-- The ledger `l1` with an outdated schema, asked for `/l1/transactions` with only
`/_info` excluded: 400 `OUTDATED_SCHEMA`, and the handler is not invoked; with an up to
date schema the handler is invoked. -/
theorem LedgerMiddleware_outdated_schema_witness :
    LedgerMiddleware (backendL1 false) ["/_info"] "l1" "/l1/transactions"
        = .ok [.GetLedgerController "l1", .IsDatabaseUpToDate,
            .Respond 400 "OUTDATED_SCHEMA"]
      ∧ LedgerMiddleware (backendL1 true) ["/_info"] "l1" "/l1/transactions"
        = .ok [.GetLedgerController "l1", .IsDatabaseUpToDate, .ServeHTTP]
      ∧ LedgerMiddleware (backendL1 false) ["/_info"] "l1" "/l1/_info"
        = .ok [.GetLedgerController "l1", .ServeHTTP] :=
  ⟨(LedgerMiddleware_outdated_schema (backendL1 false) ["/_info"] "l1"
      "/l1/transactions").1 { IsDatabaseUpToDate := .ok false } "/transactions"
      (by decide) rfl (by decide) (by decide) rfl,
    by decide, by decide⟩

/-! ### `TraceWithMetric` -/

/-- The calls of the finalizers are all samples or finalizer calls. -/
theorem filter_finalizers {RET ε F : Type} (finalizers : List F) (ret : RET) :
    (finalizers.map (fun f => (TraceEvent.Finalizer f ret : TraceEvent RET ε F))).filter
        TraceEvent.isSampleOrFinalizer
      = finalizers.map (fun f => TraceEvent.Finalizer f ret) := by
  induction finalizers with
  | nil => rfl
  | cons f rest ih => simp [List.filter_cons, TraceEvent.isSampleOrFinalizer]

/-- C27: for every `fn`, and every `Trace` that returns what its function returns and
runs it once (its samples and finalizer calls are those of its function),
`TraceWithMetric` returns the value of `fn` with a nil error when `fn` succeeds, having
recorded one latency sample and then called each finalizer once, in the order given,
with that value; when `fn` returns an error it returns that error with the zero value,
whatever value `fn` returned, and records no sample and calls no finalizer. -/
theorem TraceWithMetric_result {RET ε F : Type}
    (Trace : String → (Unit → Traced RET ε F) → Traced RET ε F) (zeroRet : RET)
    (operationName : String) (latency : Int) (fn : Unit → RET × Option ε)
    (finalizers : List F)
    (hTrace : ∀ name body, (Trace name body).ret = (body ()).ret
      ∧ (Trace name body).err = (body ()).err
      ∧ (Trace name body).events.filter TraceEvent.isSampleOrFinalizer
          = (body ()).events.filter TraceEvent.isSampleOrFinalizer) :
    (∀ ret, fn () = (ret, none) →
        (TraceWithMetric Trace zeroRet operationName latency fn finalizers).ret = ret
          ∧ (TraceWithMetric Trace zeroRet operationName latency fn finalizers).err = none
          ∧ (TraceWithMetric Trace zeroRet operationName latency fn finalizers).events.filter
                TraceEvent.isSampleOrFinalizer
              = .Record (latency.tdiv 1000000)
                  :: finalizers.map (fun f => .Finalizer f ret))
      ∧ (∀ ret err, fn () = (ret, some err) →
        (TraceWithMetric Trace zeroRet operationName latency fn finalizers).ret = zeroRet
          ∧ (TraceWithMetric Trace zeroRet operationName latency fn finalizers).err
              = some err
          ∧ (TraceWithMetric Trace zeroRet operationName latency fn finalizers).events.filter
                TraceEvent.isSampleOrFinalizer
              = []) := by
  constructor
  · intro ret hfn
    obtain ⟨h1, h2, h3⟩ := hTrace operationName (fun _ =>
      match fn () with
      | (_, some err) => { events := [.RecordError err], ret := zeroRet, err := some err }
      | (ret, none) =>
        { events :=
            [.Record (latency.tdiv 1000000), .SetAttributes latency]
              ++ finalizers.map (fun finalizer => .Finalizer finalizer ret)
          ret := ret
          err := none })
    unfold TraceWithMetric
    rw [h1, h2, h3]
    rw [hfn]
    refine ⟨rfl, rfl, ?_⟩
    simp only [List.cons_append, List.nil_append, List.filter_cons,
      TraceEvent.isSampleOrFinalizer, if_true, Bool.false_eq_true, if_false,
      filter_finalizers]
  · intro ret err hfn
    obtain ⟨h1, h2, h3⟩ := hTrace operationName (fun _ =>
      match fn () with
      | (_, some err) => { events := [.RecordError err], ret := zeroRet, err := some err }
      | (ret, none) =>
        { events :=
            [.Record (latency.tdiv 1000000), .SetAttributes latency]
              ++ finalizers.map (fun finalizer => .Finalizer finalizer ret)
          ret := ret
          err := none })
    unfold TraceWithMetric
    rw [h1, h2, h3]
    rw [hfn]
    exact ⟨rfl, rfl, rfl⟩

/-- With a `Trace` that runs its function in a span: a function that returns 7 after
2.5 ms gives 7, one sample of 2 ms and the finalizers `a`, `b` called in that order with
7; a function that returns 7 and an error gives the zero value 0 and that error, with no
sample and no finalizer call. -/
theorem TraceWithMetric_result_witness :
    TraceWithMetric traceInSpan (0 : Nat) "op" 2500000 (fun _ => (7, (none : Option String)))
        ["a", "b"]
        = { events := [.SpanStart "op", .Record 2, .SetAttributes 2500000,
              .Finalizer "a" 7, .Finalizer "b" 7, .SpanEnd]
            ret := 7
            err := none }
      ∧ TraceWithMetric traceInSpan (0 : Nat) "op" 2500000 (fun _ => (7, some "boom"))
        ["a", "b"]
        = { events := [.SpanStart "op", .RecordError "boom", .SpanEnd]
            ret := 0
            err := some "boom" }
      ∧ (TraceWithMetric traceInSpan (0 : Nat) "op" 2500000
            (fun _ => (7, (none : Option String))) ["a", "b"]).events.filter
              TraceEvent.isSampleOrFinalizer
          = [.Record 2, .Finalizer "a" 7, .Finalizer "b" 7] :=
  ⟨by decide, by decide,
    ((TraceWithMetric_result traceInSpan (0 : Nat) "op" 2500000
      (fun _ => (7, (none : Option String))) ["a", "b"]
      (fun name body => ⟨rfl, rfl, by
        simp [traceInSpan, List.filter_append, List.filter_cons,
          TraceEvent.isSampleOrFinalizer]⟩)).1 7 rfl).2.2⟩

/-! ### `Script.ToCore` -/

/-- The conversion of a string is the string. -/
theorem convertVar_str (s : String) : convertVar (.str s) = .ok s := rfl

/-- The conversion of a monetary value. -/
theorem convertVar_monetary (a : String) (n : Int) :
    convertVar (monetary a n) = .ok (a ++ " " ++ toString n) := by
  simp [convertVar, monetary, unmarshalMap, rawMember, unmarshalString, unmarshalBigInt,
    List.lookup]

/-- A number, a boolean or an array panics. -/
theorem convertVar_panics (v : Json) (h : v.isNumberBoolOrArray = true) :
    ∃ msg, convertVar v = .panic msg := by
  cases v <;> simp [Json.isNumberBoolOrArray] at h <;>
    exact ⟨_, rfl⟩

/-- A string, an object or `null` does not panic, and is an error exactly when it is
`null` or an object whose asset or amount member is not accepted. -/
theorem convertVar_safe (v : Json) (h : v.isStringObjectOrNull = true) :
    (∀ msg, convertVar v ≠ .panic msg)
      ∧ ((∃ err, convertVar v = .error err) ↔ lacksAssetOrAmount v = true) := by
  cases v with
  | null => exact ⟨fun msg => by simp [convertVar, unmarshalMap, rawMember, unmarshalString],
      ⟨fun _ => rfl, fun _ => ⟨_, rfl⟩⟩⟩
  | bool b => simp [Json.isStringObjectOrNull] at h
  | num n => simp [Json.isStringObjectOrNull] at h
  | frac t => simp [Json.isStringObjectOrNull] at h
  | arr items => simp [Json.isStringObjectOrNull] at h
  | str s => exact ⟨fun msg => by simp [convertVar_str],
      ⟨fun ⟨e, he⟩ => by simp [convertVar_str] at he, fun hl => by simp [lacksAssetOrAmount] at hl⟩⟩
  | obj m =>
    simp only [convertVar, unmarshalMap, lacksAssetOrAmount]
    cases hasset : rawMember m "asset" with
    | none => simp [unmarshalString, acceptedAsset]
    | some asset =>
      cases hamount : rawMember m "amount" with
      | none => cases asset <;> simp [unmarshalString, unmarshalBigInt, acceptedAsset, acceptedAmount]
      | some amount =>
        cases asset <;> cases amount <;>
          simp [unmarshalString, unmarshalBigInt, acceptedAsset, acceptedAmount]

/-- The bindings of the map after `vars[k] = value`. -/
theorem lookup_varsSet (vars : List (String × String)) (k value k2 : String) :
    (varsSet vars k value).lookup k2 = if k2 = k then some value else vars.lookup k2 := by
  unfold varsSet
  by_cases hany : vars.any (fun p => p.1 == k) = true
  · rw [if_pos hany]
    induction vars with
    | nil => simp at hany
    | cons p rest ih =>
      obtain ⟨pk, pv⟩ := p
      by_cases hpk : pk = k
      · subst hpk
        by_cases hk2 : k2 = pk
        · simp [hk2, List.lookup_cons]
        · have hb : (k2 == pk) = false := by simpa using hk2
          simp only [List.map_cons, beq_self_eq_true, if_true, List.lookup_cons, hb, hk2,
            if_false]
          by_cases hrest : rest.any (fun p => p.1 == pk) = true
          · rw [ih hrest, if_neg hk2]
          · have hid : rest.map (fun p => if p.1 == pk then (pk, value) else p) = rest := by
              have hall : ∀ p ∈ rest, (p.1 == pk) = false := by
                intro p hp
                cases hpb : p.1 == pk
                · rfl
                · exact absurd (List.any_eq_true.2 ⟨p, hp, hpb⟩) hrest
              calc rest.map (fun p => if p.1 == pk then (pk, value) else p)
                  = rest.map id :=
                    List.map_congr_left (fun p hp => by simp [hall p hp])
                _ = rest := List.map_id rest
            rw [hid]
      · have hbk : (pk == k) = false := by simpa using hpk
        have hrest : rest.any (fun p => p.1 == k) = true := by
          simpa [List.any_cons, hbk] using hany
        simp only [List.map_cons, hbk, Bool.false_eq_true, if_false, lookup_cons_ite,
          ih hrest]
        by_cases hk2 : k2 = pk
        · have hne : k2 ≠ k := fun e => hpk (hk2.symm.trans e)
          simp [hk2, hpk]
        · simp [hk2]
  · rw [if_neg hany, List.lookup_append]
    have hnone : vars.lookup k = none := by
      rw [List.lookup_eq_none_iff]
      intro p hp
      cases hpb : p.1 == k
      · have hne : p.1 ≠ k := by simpa using hpb
        simpa using fun e => hne e.symm
      · exact absurd (List.any_eq_true.2 ⟨p, hp, hpb⟩) hany
    by_cases hk2 : k2 = k
    · subst hk2
      simp [hnone, List.lookup_cons]
    · have hb : (k2 == k) = false := by simpa using hk2
      simp [hk2, List.lookup_cons, hb, List.lookup]

/-- The keys of the map after `vars[k] = value`. -/
theorem keys_varsSet (vars : List (String × String)) (k value k2 : String) :
    k2 ∈ (varsSet vars k value).map Prod.fst ↔ k2 = k ∨ k2 ∈ vars.map Prod.fst := by
  unfold varsSet
  by_cases hany : vars.any (fun p => p.1 == k) = true
  · rw [if_pos hany]
    obtain ⟨q, hq, hqk⟩ := List.any_eq_true.1 hany
    have hqk2 : q.1 = k := by simpa using hqk
    simp only [List.mem_map]
    constructor
    · rintro ⟨p, ⟨p0, hp0, rfl⟩, rfl⟩
      by_cases hp : p0.1 = k
      · left
        simp [hp]
      · right
        have hb : (p0.1 == k) = false := by simpa using hp
        exact ⟨p0, hp0, by simp [hb]⟩
    · rintro (h | ⟨p, hp, rfl⟩)
      · exact ⟨(k, value), ⟨q, hq, by simp [hqk2]⟩, h.symm⟩
      · by_cases hpk : p.1 = k
        · exact ⟨(k, value), ⟨p, hp, by simp [hpk]⟩, hpk.symm⟩
        · have hb : (p.1 == k) = false := by simpa using hpk
          exact ⟨p, ⟨p, hp, by simp [hb]⟩, rfl⟩
  · rw [if_neg hany]
    simp only [List.map_append, List.map_cons, List.map_nil, List.mem_append,
      List.mem_singleton]
    exact Or.comm

/-- The loop leaves the keys that it does not visit as they were. -/
theorem toCoreVars_frame :
    ∀ (vars : List (String × Json)) (out res : List (String × String)) (k : String),
      toCoreVars vars out = .ok res → k ∉ vars.map Prod.fst → res.lookup k = out.lookup k
  | [], out, res, k, h, _ => by
    simp only [toCoreVars, Outcome.ok.injEq] at h
    rw [h]
  | (k0, v0) :: rest, out, res, k, h, hk => by
    unfold toCoreVars at h
    cases hv : convertVar v0 with
    | panic msg => simp [hv] at h
    | error err => simp [hv] at h
    | ok value =>
      simp only [hv] at h
      have hk0 : k ≠ k0 := fun e => hk (by simp [e])
      have hrest : k ∉ rest.map Prod.fst := fun e => hk (by simp [List.mem_map] at e ⊢; exact Or.inr e)
      rw [toCoreVars_frame rest _ res k h hrest, lookup_varsSet, if_neg hk0]

/-- The keys of the map that the loop returns are the keys of the map it started from
and the keys it visited. -/
theorem toCoreVars_keys :
    ∀ (vars : List (String × Json)) (out res : List (String × String)) (k : String),
      toCoreVars vars out = .ok res →
      (k ∈ res.map Prod.fst ↔ k ∈ out.map Prod.fst ∨ k ∈ vars.map Prod.fst)
  | [], out, res, k, h => by
    simp only [toCoreVars, Outcome.ok.injEq] at h
    simp [h]
  | (k0, v0) :: rest, out, res, k, h => by
    unfold toCoreVars at h
    cases hv : convertVar v0 with
    | panic msg => simp [hv] at h
    | error err => simp [hv] at h
    | ok value =>
      simp only [hv] at h
      rw [toCoreVars_keys rest _ res k h, keys_varsSet]
      simp only [List.map_cons, List.mem_cons]
      tauto

/-- Under distinct keys, the map that the loop returns binds each key visited to the
conversion of its value. -/
theorem toCoreVars_lookup :
    ∀ (vars : List (String × Json)) (out res : List (String × String)),
      toCoreVars vars out = .ok res → (vars.map Prod.fst).Nodup →
      ∀ k v, (k, v) ∈ vars → ∃ x, convertVar v = .ok x ∧ res.lookup k = some x
  | [], _, _, _, _, k, v, hmem => by simp at hmem
  | (k0, v0) :: rest, out, res, h, hnd, k, v, hmem => by
    unfold toCoreVars at h
    have hk0 : k0 ∉ rest.map Prod.fst := (List.nodup_cons.1 hnd).1
    have hrest : (rest.map Prod.fst).Nodup := (List.nodup_cons.1 hnd).2
    cases hv : convertVar v0 with
    | panic msg => simp [hv] at h
    | error err => simp [hv] at h
    | ok value =>
      simp only [hv] at h
      rcases List.mem_cons.1 hmem with heq | hin
      · have hk : k = k0 := congrArg Prod.fst heq
        have hvv : v = v0 := congrArg Prod.snd heq
        subst hk
        subst hvv
        refine ⟨value, hv, ?_⟩
        rw [toCoreVars_frame rest _ res k h hk0, lookup_varsSet, if_pos rfl]
      · exact toCoreVars_lookup rest _ res h hrest k v hin

/-- The loop returns a map when every value converts. -/
theorem toCoreVars_ok_of_all :
    ∀ (vars : List (String × Json)) (out : List (String × String)),
      (∀ p ∈ vars, ∃ x, convertVar p.2 = .ok x) → ∃ res, toCoreVars vars out = .ok res
  | [], out, _ => ⟨out, rfl⟩
  | (k0, v0) :: rest, out, h => by
    obtain ⟨x, hx⟩ := h (k0, v0) (List.mem_cons_self _ _)
    unfold toCoreVars
    simp only [hx]
    exact toCoreVars_ok_of_all rest _ (fun p hp => h p (List.mem_cons_of_mem _ hp))

/-- The loop does not panic when no value does. -/
theorem toCoreVars_no_panic :
    ∀ (vars : List (String × Json)) (out : List (String × String)),
      (∀ p ∈ vars, ∀ msg, convertVar p.2 ≠ .panic msg) →
      ∀ msg, toCoreVars vars out ≠ .panic msg
  | [], out, _, msg => by simp [toCoreVars]
  | (k0, v0) :: rest, out, h, msg => by
    unfold toCoreVars
    cases hv : convertVar v0 with
    | panic m => exact absurd hv (h (k0, v0) (List.mem_cons_self _ _) m)
    | error err => simp
    | ok value =>
      simp only
      exact toCoreVars_no_panic rest _ (fun p hp => h p (List.mem_cons_of_mem _ hp)) msg

/-- When no value panics, the loop returns an error exactly when the conversion of
some value is an error. -/
theorem toCoreVars_error_iff :
    ∀ (vars : List (String × Json)) (out : List (String × String)),
      (∀ p ∈ vars, ∀ msg, convertVar p.2 ≠ .panic msg) →
      ((∃ err, toCoreVars vars out = .error err)
        ↔ ∃ p ∈ vars, ∃ err, convertVar p.2 = .error err)
  | [], out, _ => by simp [toCoreVars]
  | (k0, v0) :: rest, out, h => by
    have ih := fun out2 => toCoreVars_error_iff rest out2
      (fun p hp => h p (List.mem_cons_of_mem _ hp))
    unfold toCoreVars
    cases hv : convertVar v0 with
    | panic m => exact absurd hv (h (k0, v0) (List.mem_cons_self _ _) m)
    | error err =>
      simp only
      exact ⟨fun _ => ⟨(k0, v0), List.mem_cons_self _ _, err, hv⟩, fun _ => ⟨err, rfl⟩⟩
    | ok value =>
      simp only
      rw [ih]
      constructor
      · rintro ⟨p, hp, e, he⟩
        exact ⟨p, List.mem_cons_of_mem _ hp, e, he⟩
      · rintro ⟨p, hp, e, he⟩
        rcases List.mem_cons.1 hp with heq | hin
        · subst heq
          rw [hv] at he
          cases he
        · exact ⟨p, hin, e, he⟩

/-- The loop panics at the first value that panics, when the values before it convert. -/
theorem toCoreVars_panic_at :
    ∀ (pre : List (String × Json)) (k : String) (v : Json) (post : List (String × Json))
      (out : List (String × String)) (msg : String),
      (∀ p ∈ pre, ∃ x, convertVar p.2 = .ok x) → convertVar v = .panic msg →
      toCoreVars (pre ++ (k, v) :: post) out = .panic msg
  | [], k, v, post, out, msg, _, hv => by
    simp [toCoreVars, hv]
  | (k0, v0) :: pre, k, v, post, out, msg, h, hv => by
    obtain ⟨x, hx⟩ := h (k0, v0) (List.mem_cons_self _ _)
    simp only [List.cons_append, toCoreVars, hx]
    exact toCoreVars_panic_at pre k v post _ msg
      (fun p hp => h p (List.mem_cons_of_mem _ hp)) hv

/-- The outcome of `Script.ToCore` by the outcome of its loop. -/
theorem ToCore_cases (s : Script) :
    (∀ res, s.ToCore = .ok res ↔ res.Plain = s.Plain ∧ toCoreVars s.Vars [] = .ok res.Vars)
      ∧ (∀ err, s.ToCore = .error err ↔ toCoreVars s.Vars [] = .error err)
      ∧ (∀ msg, s.ToCore = .panic msg ↔ toCoreVars s.Vars [] = .panic msg) := by
  unfold Script.ToCore
  cases h : toCoreVars s.Vars [] with
  | panic m => simp
  | error e => simp
  | ok vars =>
    refine ⟨fun res => ?_, by simp, by simp⟩
    obtain ⟨p, vs⟩ := res
    simp only [Outcome.ok.injEq, CoreScript.mk.injEq]
    constructor
    · rintro ⟨h1, h2⟩
      exact ⟨h1.symm, h2⟩
    · rintro ⟨h1, h2⟩
      exact ⟨h1.symm, h2⟩

/-- C24: for a script whose variables have distinct keys, as those of a Go map,
`Script.ToCore` returns a script when every value is a string or an object
`{"asset": a, "amount": n}`; and a script that it returns keeps the text, has exactly
the keys of the request's variables, binds a variable whose value is the string `s` to
`s`, and binds a variable whose value is `{"asset": a, "amount": n}`, for any asset `a`
and any integer `n` (an unbounded `Int`), to `a`, one space and the decimal text of
`n`. -/
theorem ToCore_converts (s : Script) (hkeys : (s.Vars.map Prod.fst).Nodup) :
    ((∀ p ∈ s.Vars, (∃ x, p.2 = .str x) ∨ ∃ a n, p.2 = monetary a n) →
        ∃ res, s.ToCore = .ok res)
      ∧ (∀ res, s.ToCore = .ok res →
          res.Plain = s.Plain
            ∧ (∀ k, k ∈ res.Vars.map Prod.fst ↔ k ∈ s.Vars.map Prod.fst)
            ∧ (∀ k x, (k, Json.str x) ∈ s.Vars → res.Vars.lookup k = some x)
            ∧ (∀ k a n, (k, monetary a n) ∈ s.Vars →
                res.Vars.lookup k = some (a ++ " " ++ toString n))) := by
  constructor
  · intro hvals
    have hall : ∀ p ∈ s.Vars, ∃ x, convertVar p.2 = .ok x := by
      intro p hp
      rcases hvals p hp with ⟨x, hx⟩ | ⟨a, n, hx⟩
      · exact ⟨x, by rw [hx, convertVar_str]⟩
      · exact ⟨_, by rw [hx, convertVar_monetary]⟩
    obtain ⟨vars, hvars⟩ := toCoreVars_ok_of_all s.Vars [] hall
    exact ⟨{ Plain := s.Plain, Vars := vars }, ((ToCore_cases s).1 _).2 ⟨rfl, hvars⟩⟩
  · intro res hres
    obtain ⟨hplain, hloop⟩ := ((ToCore_cases s).1 res).1 hres
    refine ⟨hplain, ?_, ?_, ?_⟩
    · intro k
      rw [toCoreVars_keys s.Vars [] res.Vars k hloop]
      simp
    · intro k x hmem
      obtain ⟨y, hy, hlook⟩ := toCoreVars_lookup s.Vars [] res.Vars hloop hkeys k _ hmem
      rw [convertVar_str] at hy
      cases hy
      exact hlook
    · intro k a n hmem
      obtain ⟨y, hy, hlook⟩ := toCoreVars_lookup s.Vars [] res.Vars hloop hkeys k _ hmem
      rw [convertVar_monetary] at hy
      cases hy
      exact hlook

/-- C24, at the script `scriptThreeVars`: an amount of thirty digits and a negative
amount are written in full. -/
theorem ToCore_converts_witness :
    (scriptThreeVars.Vars.map Prod.fst).Nodup
      ∧ scriptThreeVars.ToCore
        = .ok { Plain := "send $a (source = @world destination = @alice)"
                Vars := [("a", "USD/2 123456789012345678901234567890"),
                  ("b", "hello world"), ("c", "EUR -5")] }
      ∧ ∃ res, scriptThreeVars.ToCore = .ok res :=
  ⟨by decide, by decide,
    (ToCore_converts scriptThreeVars (by decide)).1 (fun p hp => by
      simp only [scriptThreeVars, List.mem_cons, List.mem_singleton, List.mem_nil_iff,
        or_false] at hp
      rcases hp with h | h | h
      · exact Or.inr ⟨_, _, by rw [h]⟩
      · exact Or.inl ⟨_, by rw [h]⟩
      · exact Or.inr ⟨_, _, by rw [h]⟩)⟩

/-- C29 (counterexample): the only variable of `scriptNullAsset` is an object whose
asset member is `null`, not a string, and `Script.ToCore` returns a script, with an
empty asset, not an error; and `scriptNumberAfterEmptyObject` holds a number, yet
`Script.ToCore` returns an error, not a panic, because it visits the empty object
first. -/
theorem ToCore_null_asset_and_number_no_panic :
    ((∀ p ∈ scriptNullAsset.Vars, p.2.isStringObjectOrNull = true)
        ∧ (∃ k m, scriptNullAsset.Vars = [(k, .obj m)]
            ∧ ∀ a, rawMember m "asset" ≠ some (.str a))
        ∧ scriptNullAsset.ToCore
          = .ok { Plain := "send $x (source = @world destination = @alice)"
                  Vars := [("x", " 1")] })
      ∧ ((∃ p ∈ scriptNumberAfterEmptyObject.Vars, p.2.isNumberBoolOrArray = true)
        ∧ scriptNumberAfterEmptyObject.ToCore
          = .error "unmarshalling asset: unexpected end of JSON input"
        ∧ scriptNumberBeforeEmptyObject.ToCore
          = .panic "json: cannot unmarshal into Go value of type string") := by
  refine ⟨⟨by decide, ⟨"x", _, rfl, ?_⟩, by decide⟩, ⟨?_, by decide, by decide⟩⟩
  · intro a h
    simp [rawMember, List.lookup] at h
  · exact ⟨("a", .num 5), by simp [scriptNumberAfterEmptyObject], rfl⟩

/-- The loop returns the error of the first value that fails, when the values before it
convert, whatever the values after it. -/
theorem toCoreVars_error_at :
    ∀ (pre : List (String × Json)) (k : String) (v : Json) (post : List (String × Json))
      (out : List (String × String)) (err : String),
      (∀ p ∈ pre, ∃ x, convertVar p.2 = .ok x) → convertVar v = .error err →
      toCoreVars (pre ++ (k, v) :: post) out = .error err
  | [], k, v, post, out, err, _, hv => by
    simp [toCoreVars, hv]
  | (k0, v0) :: pre, k, v, post, out, err, h, hv => by
    obtain ⟨x, hx⟩ := h (k0, v0) (List.mem_cons_self _ _)
    simp only [List.cons_append, toCoreVars, hx]
    exact toCoreVars_error_at pre k v post _ err
      (fun p hp => h p (List.mem_cons_of_mem _ hp)) hv

/-- The conversion of an object whose asset member is a string or `null` and whose
amount member is an integer literal or `null`: a `null` asset is read as the empty
string and a `null` amount as 0. -/
theorem convertVar_obj_read (m : List (String × Json)) (a : String) (n : Int)
    (ha : rawMember m "asset" = some (.str a) ∨ (rawMember m "asset" = some .null ∧ a = ""))
    (hn : rawMember m "amount" = some (.num n)
      ∨ (rawMember m "amount" = some .null ∧ n = 0)) :
    convertVar (.obj m) = .ok (a ++ " " ++ toString n) := by
  unfold convertVar
  simp only [unmarshalMap]
  rcases ha with ha | ⟨ha, rfl⟩ <;> rcases hn with hn | ⟨hn, rfl⟩ <;>
    simp [ha, hn, unmarshalString, unmarshalBigInt]

/-- The error of a value that is `null` or an object whose asset or amount member is
not accepted: that of the asset, or that of the amount. -/
theorem convertVar_error_text (v : Json) (h : lacksAssetOrAmount v = true) :
    ∃ err, convertVar v = .error err
      ∧ ∃ detail, err = "unmarshalling asset: " ++ detail
          ∨ err = "unmarshalling amount: " ++ detail := by
  cases v with
  | null => exact ⟨_, rfl, _, Or.inl rfl⟩
  | bool b => simp [lacksAssetOrAmount] at h
  | num n => simp [lacksAssetOrAmount] at h
  | frac t => simp [lacksAssetOrAmount] at h
  | arr items => simp [lacksAssetOrAmount] at h
  | str s => simp [lacksAssetOrAmount] at h
  | obj m =>
    simp only [lacksAssetOrAmount] at h
    simp only [convertVar, unmarshalMap]
    cases hasset : rawMember m "asset" with
    | none => exact ⟨_, rfl, _, Or.inl rfl⟩
    | some asset =>
      cases hamount : rawMember m "amount" with
      | none =>
        cases asset <;>
          first
            | exact ⟨_, rfl, _, Or.inl rfl⟩
            | exact ⟨_, rfl, _, Or.inr rfl⟩
      | some amount =>
        rw [hasset, hamount] at h
        cases asset <;> cases amount <;>
          first
            | (simp [acceptedAsset, acceptedAmount] at h
               done)
            | exact ⟨_, rfl, _, Or.inl rfl⟩
            | exact ⟨_, rfl, _, Or.inr rfl⟩

/-- C29 (amended): when every value is a string, an object or `null`, `Script.ToCore`
does not panic: it returns the converted script or an error, the error exactly when
some value is `null` or an object whose `asset` member is absent or neither a string
nor `null`, or whose `amount` member is absent or neither an integer literal nor
`null`. The first value, in the order of the visit, that does not convert decides: if
it is a number, a boolean or an array `Script.ToCore` panics, and if it is `null` or an
object with a member that is not accepted `Script.ToCore` returns the error of that
value, on its asset or on its amount, whatever the values after it. In a script
returned, an object is bound to its asset, a space and its amount, a `null` asset being
read as the empty string and a `null` amount as 0. -/
theorem ToCore_panic_free (s : Script) :
    ((∀ p ∈ s.Vars, p.2.isStringObjectOrNull = true) →
        (∀ msg, s.ToCore ≠ .panic msg)
          ∧ ((∃ err, s.ToCore = .error err)
              ↔ ∃ p ∈ s.Vars, lacksAssetOrAmount p.2 = true)
          ∧ ((∃ err, s.ToCore = .error err) ∨ ∃ res, s.ToCore = .ok res))
      ∧ (∀ pre k v post, s.Vars = pre ++ (k, v) :: post →
          (∀ p ∈ pre, p.2.isStringObjectOrNull = true ∧ lacksAssetOrAmount p.2 = false) →
          (v.isNumberBoolOrArray = true → ∃ msg, s.ToCore = .panic msg)
            ∧ (lacksAssetOrAmount v = true →
                ∃ err, s.ToCore = .error err ∧ convertVar v = .error err
                  ∧ ∃ detail, err = "unmarshalling asset: " ++ detail
                      ∨ err = "unmarshalling amount: " ++ detail))
      ∧ ((s.Vars.map Prod.fst).Nodup → ∀ res, s.ToCore = .ok res →
          ∀ k m a n, (k, Json.obj m) ∈ s.Vars →
            (rawMember m "asset" = some (.str a)
              ∨ (rawMember m "asset" = some .null ∧ a = "")) →
            (rawMember m "amount" = some (.num n)
              ∨ (rawMember m "amount" = some .null ∧ n = 0)) →
            res.Vars.lookup k = some (a ++ " " ++ toString n)) := by
  refine ⟨?_, ?_, ?_⟩
  · intro hkinds
    have hsafe : ∀ p ∈ s.Vars, ∀ msg, convertVar p.2 ≠ .panic msg :=
      fun p hp => (convertVar_safe p.2 (hkinds p hp)).1
    have hnp : ∀ msg, s.ToCore ≠ .panic msg := by
      intro msg h
      exact toCoreVars_no_panic s.Vars [] hsafe msg (((ToCore_cases s).2.2 msg).1 h)
    refine ⟨hnp, ?_, ?_⟩
    · constructor
      · rintro ⟨err, herr⟩
        obtain ⟨p, hp, e, he⟩ :=
          (toCoreVars_error_iff s.Vars [] hsafe).1 ⟨err, ((ToCore_cases s).2.1 err).1 herr⟩
        exact ⟨p, hp, (convertVar_safe p.2 (hkinds p hp)).2.1 ⟨e, he⟩⟩
      · rintro ⟨p, hp, hl⟩
        obtain ⟨e, he⟩ := (convertVar_safe p.2 (hkinds p hp)).2.2 hl
        obtain ⟨err, herr⟩ := (toCoreVars_error_iff s.Vars [] hsafe).2 ⟨p, hp, e, he⟩
        exact ⟨err, ((ToCore_cases s).2.1 err).2 herr⟩
    · cases h : s.ToCore with
      | panic msg => exact absurd h (hnp msg)
      | error err => exact Or.inl ⟨err, rfl⟩
      | ok res => exact Or.inr ⟨res, rfl⟩
  · intro pre k v post hvars hpre
    have hok : ∀ p ∈ pre, ∃ x, convertVar p.2 = .ok x := by
      intro p hp
      obtain ⟨hkind, hl⟩ := hpre p hp
      have hs := convertVar_safe p.2 hkind
      cases hc : convertVar p.2 with
      | panic m => exact absurd hc (hs.1 m)
      | error e =>
        have := hs.2.1 ⟨e, hc⟩
        rw [hl] at this
        cases this
      | ok x => exact ⟨x, rfl⟩
    constructor
    · intro hv
      obtain ⟨msg, hmsg⟩ := convertVar_panics v hv
      refine ⟨msg, ((ToCore_cases s).2.2 msg).2 ?_⟩
      rw [hvars]
      exact toCoreVars_panic_at pre k v post [] msg hok hmsg
    · intro hv
      obtain ⟨err, herr, hdetail⟩ := convertVar_error_text v hv
      refine ⟨err, ((ToCore_cases s).2.1 err).2 ?_, herr, hdetail⟩
      rw [hvars]
      exact toCoreVars_error_at pre k v post [] err hok herr
  · intro hkeys res hres k m a n hmem ha hn
    obtain ⟨_, hloop⟩ := ((ToCore_cases s).1 res).1 hres
    obtain ⟨y, hy, hlook⟩ := toCoreVars_lookup s.Vars [] res.Vars hloop hkeys k _ hmem
    rw [convertVar_obj_read m a n ha hn] at hy
    cases hy
    exact hlook

/-- C29 (amended), at the scripts of the counterexample: `scriptNumberAfterEmptyObject`
returns the error of the empty object, visited before the number;
`scriptNumberBeforeEmptyObject` panics on the number; and in what `scriptNullAsset`
returns the `null` asset is read as the empty string. -/
theorem ToCore_panic_free_witness :
    (∃ err, scriptNumberAfterEmptyObject.ToCore = .error err
        ∧ convertVar (.obj []) = .error err
        ∧ ∃ detail, err = "unmarshalling asset: " ++ detail
            ∨ err = "unmarshalling amount: " ++ detail)
      ∧ (∃ msg, scriptNumberBeforeEmptyObject.ToCore = .panic msg)
      ∧ (∀ res, scriptNullAsset.ToCore = .ok res → res.Vars.lookup "x" = some " 1") :=
  ⟨((ToCore_panic_free scriptNumberAfterEmptyObject).2.1 [] "b" (.obj []) [("a", .num 5)]
      rfl (fun p hp => by simp at hp)).2 (by decide),
    ((ToCore_panic_free scriptNumberBeforeEmptyObject).2.1 [] "a" (.num 5) [("b", .obj [])]
      rfl (fun p hp => by simp at hp)).1 (by decide),
    fun res hres =>
      (ToCore_panic_free scriptNullAsset).2.2 (by decide) res hres "x"
        [("asset", .null), ("amount", .num 1)] "" 1 (by simp [scriptNullAsset])
        (Or.inr ⟨rfl, rfl⟩) (Or.inl rfl)⟩

/-! ### The calls of the v1 handler -/

/-- What `createTransactionTraced` writes is what `createTransaction` writes. -/
theorem createTransactionTraced_response {τ : Type} (env : HandlerEnv τ)
    (payload : Option CreateTransactionRequest) :
    (createTransactionTraced env payload).bind (fun r => .ok r.1)
      = createTransaction env payload := by
  cases payload with
  | none => rfl
  | some payload =>
    unfold createTransactionTraced createTransaction
    by_cases h1 : ((payload.Postings.length > 0 && payload.Script.Plain != "") ||
        (payload.Postings.length == 0 && payload.Script.Plain == "")) = true
    · simp only [h1, if_true]
      rfl
    · simp only [h1, if_false]
      by_cases h2 : payload.Postings.length > 0
      · simp only [h2, if_true]
        by_cases h3 : (!env.postingsValid payload.Postings) = true
        · simp only [h3, if_true]
          rfl
        · simp only [h3, if_false]
          cases hc : env.CreateTransaction (env.TxToScriptData
              { Postings := payload.Postings
                Timestamp := payload.Timestamp
                Reference := payload.Reference
                Metadata := payload.Metadata }) with
          | error err => cases err <;> rfl
          | ok res => rfl
      · simp only [h2, if_false]
        cases hs : payload.Script.ToCore with
        | panic msg => rfl
        | error e => rfl
        | ok script =>
          simp only
          cases hc : env.CreateTransaction
              { Script := script
                Timestamp := payload.Timestamp
                Reference := payload.Reference
                Metadata := payload.Metadata } with
          | error err => cases err <;> rfl
          | ok res => rfl

/-- C23: for every decoded payload, one with both a non-empty postings list and a
non-empty script text, or with neither, is answered 400 `VALIDATION` without a call of
the controller's `CreateTransaction`; with exactly one of them `CreateTransaction` is
called at most once, and on the postings path it is called only when the postings
validate (and then once, with the script data of the postings). -/
theorem createTransaction_calls {τ : Type} (env : HandlerEnv τ)
    (payload : CreateTransactionRequest) :
    (((payload.Postings ≠ [] ∧ payload.Script.Plain ≠ "")
          ∨ (payload.Postings = [] ∧ payload.Script.Plain = "")) →
        createTransactionTraced env (some payload) = .ok (.error 400 .ErrValidation, [])
          ∧ createTransaction env (some payload) = .ok (.error 400 .ErrValidation)
          ∧ ErrorCode.ErrValidation.text = "VALIDATION")
      ∧ (∀ r calls, createTransactionTraced env (some payload) = .ok (r, calls) →
          calls.length ≤ 1)
      ∧ (payload.Postings ≠ [] → payload.Script.Plain = "" →
          (env.postingsValid payload.Postings = false →
            createTransactionTraced env (some payload)
              = .ok (.error 400 .ErrValidation, []))
          ∧ (env.postingsValid payload.Postings = true →
            ∃ r, createTransactionTraced env (some payload)
              = .ok (r, [env.TxToScriptData
                  { Postings := payload.Postings
                    Timestamp := payload.Timestamp
                    Reference := payload.Reference
                    Metadata := payload.Metadata }]))) := by
  refine ⟨?_, ?_, ?_⟩
  · intro h
    have hcond : ((payload.Postings.length > 0 && payload.Script.Plain != "") ||
        (payload.Postings.length == 0 && payload.Script.Plain == "")) = true := by
      rcases h with ⟨hp, hs⟩ | ⟨hp, hs⟩
      · have hlen : 0 < payload.Postings.length := List.length_pos.mpr hp
        simp [hlen, hs]
      · simp [hp, hs]
    refine ⟨?_, ?_, rfl⟩
    · unfold createTransactionTraced
      simp only [hcond, if_true]
      rfl
    · unfold createTransaction
      simp only [hcond, if_true]
      rfl
  · intro r calls h
    unfold createTransactionTraced at h
    simp only at h
    split_ifs at h with h1 h2 h3
    · cases h
      simp
    · cases h
      simp
    · generalize env.CreateTransaction (env.TxToScriptData
          { Postings := payload.Postings
            Timestamp := payload.Timestamp
            Reference := payload.Reference
            Metadata := payload.Metadata }) = c at h
      rcases c with err | res
      · cases err <;> cases h <;> simp
      · cases h
        simp
    · cases hs : payload.Script.ToCore with
      | panic msg => simp [hs] at h
      | error e =>
        simp only [hs] at h
        cases h
        simp
      | ok script =>
        simp only [hs] at h
        generalize env.CreateTransaction
          { Script := script
            Timestamp := payload.Timestamp
            Reference := payload.Reference
            Metadata := payload.Metadata } = c at h
        rcases c with err | res
        · cases err <;> cases h <;> simp
        · cases h
          simp
  · intro hp hs
    have hlen : 0 < payload.Postings.length := List.length_pos.mpr hp
    have hcond : ((payload.Postings.length > 0 && payload.Script.Plain != "") ||
        (payload.Postings.length == 0 && payload.Script.Plain == "")) = false := by
      simp [hlen, hs, Nat.pos_iff_ne_zero.mp hlen]
    have hc1 : ¬ ((payload.Postings.length > 0 && payload.Script.Plain != "") ||
        (payload.Postings.length == 0 && payload.Script.Plain == "")) = true := by
      rw [hcond]
      simp
    constructor
    · intro hv
      unfold createTransactionTraced
      simp only
      rw [if_neg hc1, if_pos hlen, if_pos (by simp [hv])]
      rfl
    · intro hv
      unfold createTransactionTraced
      simp only
      rw [if_neg hc1, if_pos hlen, if_neg (by simp [hv])]
      generalize env.CreateTransaction (env.TxToScriptData
          { Postings := payload.Postings
            Timestamp := payload.Timestamp
            Reference := payload.Reference
            Metadata := payload.Metadata }) = c
      rcases c with err | res
      · cases err <;> exact ⟨_, rfl⟩
      · exact ⟨_, rfl⟩

/-- The requests with both and with neither are answered 400 `VALIDATION` with no call;
the request with a posting that does not validate likewise; the request with a script
makes one call. -/
theorem createTransaction_calls_examples :
    createTransactionTraced (failingEnv .ErrNoPostings) (some bothRequest)
        = .ok (.error 400 .ErrValidation, [])
      ∧ createTransactionTraced (failingEnv .ErrNoPostings) (some neitherRequest)
        = .ok (.error 400 .ErrValidation, [])
      ∧ createTransactionTraced rejectingEnv (some postingsRequest)
        = .ok (.error 400 .ErrValidation, [])
      ∧ createTransactionTraced rejectingEnv (some scriptRequest)
        = .ok (.ok 1,
            [{ Script :=
                { Plain := "send [USD 1] (source = @world destination = @alice)"
                  Vars := [] }
               Timestamp := 0
               Reference := "r1"
               Metadata := [] }]) := by
  refine ⟨by decide, by decide, by decide, by decide⟩

/-! ### Reading the log table -/

/-- The rows in the order of the query are the stored rows, each once. -/
theorem orderByIdDesc_perm (rows : List LogRow) : (orderByIdDesc rows).Perm rows :=
  List.perm_insertionSort _ rows

/-- The rows in the order of the query have decreasing ids. -/
theorem orderByIdDesc_sorted (rows : List LogRow) :
    (orderByIdDesc rows).Pairwise (fun a b => b.id ≤ a.id) := by
  haveI : IsTotal LogRow (fun a b => b.id ≤ a.id) := ⟨fun a b => Nat.le_total b.id a.id⟩
  haveI : IsTrans LogRow (fun a b => b.id ≤ a.id) :=
    ⟨fun a b c h1 h2 => Nat.le_trans h2 h1⟩
  exact List.sorted_insertionSort _ rows

/-- Under distinct ids, the rows in the order of the query have strictly decreasing
ids. -/
theorem orderByIdDesc_strict (rows : List LogRow) (h : (rows.map (fun r => r.id)).Nodup) :
    (orderByIdDesc rows).Pairwise (fun a b => b.id < a.id) := by
  have hnd : ((orderByIdDesc rows).map (fun r => r.id)).Nodup :=
    ((orderByIdDesc_perm rows).map _).nodup_iff.2 h
  have hne : (orderByIdDesc rows).Pairwise (fun a b => a.id ≠ b.id) := by
    simpa [List.Nodup, List.pairwise_map] using hnd
  exact ((orderByIdDesc_sorted rows).and hne).imp
    (fun ⟨h1, h2⟩ => lt_of_le_of_ne h1 (fun e => h2 e.symm))

/-- The first row of the query is a stored row that no stored row exceeds; there is
none only when the table is empty. -/
theorem orderByIdDesc_head (rows : List LogRow) :
    (rows = [] → (orderByIdDesc rows).head? = none)
      ∧ (∀ row, (orderByIdDesc rows).head? = some row →
          row ∈ rows ∧ ∀ r ∈ rows, r.id ≤ row.id)
      ∧ (rows ≠ [] → ∃ row, (orderByIdDesc rows).head? = some row) := by
  have hperm := orderByIdDesc_perm rows
  have hsorted := orderByIdDesc_sorted rows
  refine ⟨fun h => by rw [h]; rfl, ?_, ?_⟩
  · intro row hrow
    cases hl : orderByIdDesc rows with
    | nil => simp [hl] at hrow
    | cons first rest =>
      rw [hl] at hrow hperm hsorted
      simp only [List.head?_cons, Option.some.injEq] at hrow
      subst hrow
      refine ⟨hperm.subset (List.mem_cons_self _ _), ?_⟩
      intro r hr
      rcases List.mem_cons.1 (hperm.symm.subset hr) with h | h
      · rw [h]
      · exact (List.pairwise_cons.1 hsorted).1 r h
  · intro hne
    cases hl : orderByIdDesc rows with
    | nil =>
      rw [hl] at hperm
      exact absurd (List.Perm.nil_eq hperm) (fun e => hne e.symm)
    | cons first rest => exact ⟨first, rfl⟩

/-- A stored row whose id exceeds the id of every other stored row is the first row of
the query. -/
theorem orderByIdDesc_head_of_max (rows : List LogRow) (x : LogRow) (hx : x ∈ rows)
    (hmax : ∀ r ∈ rows, r = x ∨ r.id < x.id) :
    (orderByIdDesc rows).head? = some x := by
  obtain ⟨row, hrow⟩ := (orderByIdDesc_head rows).2.2 (List.ne_nil_of_mem hx)
  obtain ⟨hmem, hle⟩ := (orderByIdDesc_head rows).2.1 row hrow
  rcases hmax row hmem with h | h
  · rw [hrow, h]
  · exact absurd (hle x hx) (Nat.not_le.2 h)

/-- A successful loop of `logs` returns one log per row, in the order of the rows, each
carrying the id, type and hash of its row and the hydration of its data. -/
theorem logsLoop_ok {δ : Type} (parseDate : Time → Except String Time)
    (HydrateLog : String → String → Except String δ) :
    ∀ (rows : List LogRow) (ret : List (Log δ)),
      logsLoop parseDate HydrateLog rows = .ok ret →
      List.Forall₂ (fun row l => l.ID = row.id ∧ l.LogType = row.type ∧ l.Hash = row.hash
        ∧ parseDate row.date = .ok l.Date ∧ HydrateLog row.type row.data = .ok l.Data)
        rows ret
  | [], ret, h => by
    simp only [logsLoop, Except.ok.injEq] at h
    subst h
    exact List.Forall₂.nil
  | row :: rest, ret, h => by
    unfold logsLoop scanLog at h
    cases hp : parseDate row.date with
    | error e => simp [hp] at h
    | ok t =>
      cases hh : HydrateLog row.type row.data with
      | error e => simp [hp, hh] at h
      | ok data =>
        cases hr : logsLoop parseDate HydrateLog rest with
        | error e => simp [hp, hh, hr] at h
        | ok ret1 =>
          simp only [hp, hh, hr, Except.ok.injEq] at h
          subst h
          exact List.Forall₂.cons ⟨rfl, rfl, rfl, hp, hh⟩
            (logsLoop_ok parseDate HydrateLog rest ret1 hr)

/-- The loop of `logs` returns when every row parses and hydrates. -/
theorem logsLoop_total {δ : Type} (parseDate : Time → Except String Time)
    (HydrateLog : String → String → Except String δ) :
    ∀ (rows : List LogRow),
      (∀ row ∈ rows, (∃ t, parseDate row.date = .ok t)
        ∧ ∃ data, HydrateLog row.type row.data = .ok data) →
      ∃ ret, logsLoop parseDate HydrateLog rows = .ok ret
  | [], _ => ⟨[], rfl⟩
  | row :: rest, h => by
    obtain ⟨⟨t, ht⟩, ⟨data, hd⟩⟩ := h row (List.mem_cons_self _ _)
    obtain ⟨ret, hret⟩ := logsLoop_total parseDate HydrateLog rest
      (fun r hr => h r (List.mem_cons_of_mem _ hr))
    refine ⟨(⟨row.id, row.type, row.hash, t, data⟩ : Log δ) :: ret, ?_⟩
    simp [logsLoop, scanLog, ht, hd, hret]

/-- The logs that a successful loop returns carry the ids of the rows, in order. -/
theorem forall₂_ids {δ : Type} {R : LogRow → Log δ → Prop} :
    ∀ (rows : List LogRow) (ret : List (Log δ)),
      List.Forall₂ R rows ret → (∀ row l, R row l → l.ID = row.id) →
      ret.map (fun l => l.ID) = rows.map (fun r => r.id)
  | _, _, .nil, _ => rfl
  | _, _, .cons h rest, hid => by
    simp [hid _ _ h, forall₂_ids _ _ rest hid]

/-- A row that scans does so whatever is done to the error of `HydrateLog`, with the
same log. -/
theorem scanLog_ok_iff {δ : Type} (parseDate : Time → Except String Time)
    (HydrateLog : String → String → Except String δ) (wrap : String → String)
    (row : LogRow) (l : Log δ) :
    scanLog parseDate HydrateLog wrap row = .ok l
      ↔ ∃ t data, parseDate row.date = .ok t ∧ HydrateLog row.type row.data = .ok data
          ∧ l = { ID := row.id, LogType := row.type, Hash := row.hash, Date := t,
                  Data := data } := by
  unfold scanLog
  cases hp : parseDate row.date with
  | error e => simp
  | ok t =>
    cases hh : HydrateLog row.type row.data with
    | error e => simp
    | ok data =>
      simp only [Except.ok.injEq]
      constructor
      · intro h
        exact ⟨t, data, rfl, rfl, h.symm⟩
      · rintro ⟨t2, d2, ht, hd, hl⟩
        cases ht
        cases hd
        exact hl.symm

/-- The rows built for a call whose last log is `last`: the rows of the logs before it,
then the row of `last`. -/
theorem logRows_append_last {γ : Type} (marshal : γ → Option String) (last : Log γ) :
    ∀ (init : List (Log γ)) (rows : List LogRow),
      logRows marshal (init ++ [last]) = some rows →
      ∃ rowsInit data, marshal last.Data = some data ∧ rows = rowsInit ++ [last.row data]
        ∧ rowsInit.map (fun r => r.id) = init.map (fun l => l.ID)
  | [], rows, h => by
    simp only [List.nil_append, logRows, logRow] at h
    cases hm : marshal last.Data with
    | none => simp [hm] at h
    | some data =>
      simp only [hm, Option.some.injEq] at h
      exact ⟨[], data, rfl, by rw [← h]; rfl, rfl⟩
  | l :: init, rows, h => by
    simp only [List.cons_append] at h
    unfold logRows logRow at h
    cases hm : marshal l.Data with
    | none => simp [hm] at h
    | some data0 =>
      simp only [hm] at h
      cases hr : logRows marshal (init ++ [last]) with
      | none => simp [hr] at h
      | some rows1 =>
        simp only [hr, Option.some.injEq] at h
        obtain ⟨rowsInit, data, hd, hrows, hids⟩ :=
          logRows_append_last marshal last init rows1 hr
        refine ⟨l.row data0 :: rowsInit, data, hd, ?_, ?_⟩
        · rw [← h, hrows]
          rfl
        · simp [hids, Log.row]

/-- C25: for every log table with distinct ids, `Store.Logs` returns, when every row
parses and hydrates, and what it returns is then one log per stored row, each stored
row exactly once, with the id, type and hash of its row and the hydration of its data,
in strictly decreasing order of id. -/
theorem Logs_decreasing {δ : Type} (parseDate : Time → Except String Time)
    (HydrateLog : String → String → Except String δ) (s : LogStore)
    (hids : (s.log.map (fun r => r.id)).Nodup) :
    ((∀ row ∈ s.log, (∃ t, parseDate row.date = .ok t)
          ∧ ∃ data, HydrateLog row.type row.data = .ok data) →
        ∃ ret, Logs parseDate HydrateLog s = .ok ret)
      ∧ (∀ ret, Logs parseDate HydrateLog s = .ok ret →
          (ret.map (fun l => l.ID)).Perm (s.log.map (fun r => r.id))
            ∧ ret.Pairwise (fun a b => b.ID < a.ID)
            ∧ ∃ rows, rows.Perm s.log
              ∧ List.Forall₂ (fun row l => l.ID = row.id ∧ l.LogType = row.type
                  ∧ l.Hash = row.hash ∧ parseDate row.date = .ok l.Date
                  ∧ HydrateLog row.type row.data = .ok l.Data) rows ret) := by
  constructor
  · intro hall
    exact logsLoop_total parseDate HydrateLog (orderByIdDesc s.log)
      (fun row hrow => hall row ((orderByIdDesc_perm s.log).subset hrow))
  · intro ret hret
    have hf := logsLoop_ok parseDate HydrateLog (orderByIdDesc s.log) ret hret
    have hmap : ret.map (fun l => l.ID) = (orderByIdDesc s.log).map (fun r => r.id) :=
      forall₂_ids _ _ hf (fun _ _ h => h.1)
    refine ⟨?_, ?_, orderByIdDesc s.log, orderByIdDesc_perm s.log, hf⟩
    · rw [hmap]
      exact (orderByIdDesc_perm s.log).map _
    · have hs : ((orderByIdDesc s.log).map (fun r => r.id)).Pairwise (fun a b => b < a) :=
        List.pairwise_map.2 (orderByIdDesc_strict s.log hids)
      rw [← hmap] at hs
      exact List.pairwise_map.1 hs

/-- C25, at the table `threeLogStore` holding the entries 0, 1 and 2: the three logs
come back with id 2 first. -/
theorem Logs_decreasing_witness :
    (threeLogStore.log.map (fun r => r.id)).Nodup
      ∧ Logs (fun t => .ok t) (fun _ data => .ok data) threeLogStore
        = .ok [logEntry 2 "h2", logEntry 1 "h1", logEntry 0 "h0"]
      ∧ [logEntry 2 "h2", logEntry 1 "h1", logEntry 0 "h0"].Pairwise
          (fun a b => b.ID < a.ID) :=
  ⟨by decide, rfl,
    ((Logs_decreasing (fun t => .ok t) (fun _ data => .ok data) threeLogStore
      (by decide)).2 _ rfl).2.1⟩

/-- C26: `Store.LastLog` returns nil and no error on an empty log table; on a non-empty
one it returns, when the row parses and hydrates, and what it returns is then the log
of a stored row whose id no stored id exceeds, with the type and hash of that row and
the hydration of its data; it is the first element of what `Store.Logs` returns; and
after a successful `AppendLog` whose last entry has an id above every id stored before
the call and above the ids of the entries before it in the call, it returns that last
entry, with the same id, type and hash and the hydration of its marshalled data. -/
theorem LastLog_greatest {δ : Type} (parseDate : Time → Except String Time)
    (HydrateLog : String → String → Except String δ) (s : LogStore) :
    (s.log = [] → LastLog parseDate HydrateLog s = .ok none)
      ∧ (s.log ≠ [] →
          ((∀ row ∈ s.log, (∃ t, parseDate row.date = .ok t)
              ∧ ∃ data, HydrateLog row.type row.data = .ok data) →
            ∃ last, LastLog parseDate HydrateLog s = .ok (some last))
          ∧ ∀ l, LastLog parseDate HydrateLog s = .ok l →
            ∃ last, l = some last
              ∧ (∃ row ∈ s.log, row.id = last.ID ∧ row.type = last.LogType
                  ∧ row.hash = last.Hash ∧ HydrateLog row.type row.data = .ok last.Data)
              ∧ ∀ row ∈ s.log, row.id ≤ last.ID)
      ∧ (∀ ret, Logs parseDate HydrateLog s = .ok ret →
          LastLog parseDate HydrateLog s = .ok ret.head?)
      ∧ (∀ (γ : Type) (marshal : γ → Option String) (s0 : LogStore) (init : List (Log γ))
          (last : Log γ) (data : String) (t : Time) (d : δ),
          AppendLog marshal s0 (init ++ [last]) = .ok s →
          (∀ row ∈ s0.log, row.id < last.ID) → (∀ l ∈ init, l.ID < last.ID) →
          marshal last.Data = some data → parseDate last.Date = .ok t →
          HydrateLog last.LogType data = .ok d →
          LastLog parseDate HydrateLog s
            = .ok (some { ID := last.ID, LogType := last.LogType, Hash := last.Hash,
                          Date := t, Data := d })) := by
  refine ⟨?_, ?_, ?_, ?_⟩
  · intro h
    simp [LastLog, lastLog, (orderByIdDesc_head s.log).1 h]
  · intro hne
    obtain ⟨row, hrow⟩ := (orderByIdDesc_head s.log).2.2 hne
    obtain ⟨hmem, hmax⟩ := (orderByIdDesc_head s.log).2.1 row hrow
    constructor
    · intro hall
      obtain ⟨⟨t, ht⟩, ⟨data, hd⟩⟩ := hall row hmem
      refine ⟨⟨row.id, row.type, row.hash, t, data⟩, ?_⟩
      simp [LastLog, lastLog, hrow, scanLog, ht, hd]
    · intro l hl
      unfold LastLog lastLog at hl
      simp only [hrow] at hl
      cases hs : scanLog parseDate HydrateLog (fun err => err) row with
      | error e => simp [hs] at hl
      | ok last =>
        simp only [hs, Except.ok.injEq] at hl
        obtain ⟨t, data, ht, hd, hlast⟩ := (scanLog_ok_iff _ _ _ _ _).1 hs
        refine ⟨last, hl.symm, ⟨row, hmem, ?_⟩, ?_⟩
        · subst hlast
          exact ⟨rfl, rfl, rfl, hd⟩
        · subst hlast
          exact hmax
  · intro ret hret
    unfold Logs logs at hret
    unfold LastLog lastLog
    cases hl : orderByIdDesc s.log with
    | nil =>
      rw [hl] at hret
      simp only [logsLoop, Except.ok.injEq] at hret
      subst hret
      rfl
    | cons row rest =>
      rw [hl] at hret
      unfold logsLoop at hret
      cases hs : scanLog parseDate HydrateLog (fun err => "hydrating log: " ++ err) row with
      | error e => simp [hs] at hret
      | ok l =>
        cases hr : logsLoop parseDate HydrateLog rest with
        | error e => simp [hs, hr] at hret
        | ok ret1 =>
          simp only [hs, hr, Except.ok.injEq] at hret
          subst hret
          have hs2 : scanLog parseDate HydrateLog (fun err => err) row = .ok l :=
            (scanLog_ok_iff _ _ _ _ _).2 ((scanLog_ok_iff _ _ _ _ _).1 hs)
          simp [hs2]
  · intro γ marshal s0 init last data t d happ hstored hinit hm ht hd
    obtain ⟨rows, hrows, hlog, _, _⟩ := AppendLog_ok marshal s0 s (init ++ [last]) happ
    obtain ⟨rowsInit, data2, hm2, hsplit, hidsInit⟩ :=
      logRows_append_last marshal last init rows hrows
    have hdata : data2 = data := Option.some.inj (hm2.symm.trans hm)
    subst hdata
    have hhead : (orderByIdDesc s.log).head? = some (last.row data2) := by
      apply orderByIdDesc_head_of_max
      · rw [hlog, hsplit]
        simp
      · intro r hr
        rw [hlog, hsplit] at hr
        rcases List.mem_append.1 hr with h | h
        · exact Or.inr (hstored r h)
        · rcases List.mem_append.1 h with h2 | h2
          · right
            have hid : r.id ∈ rowsInit.map (fun r => r.id) := List.mem_map_of_mem _ h2
            rw [hidsInit] at hid
            obtain ⟨l, hl, hlid⟩ := List.mem_map.1 hid
            rw [← hlid]
            exact hinit l hl
          · left
            simpa using h2
    unfold LastLog lastLog
    simp only [hhead]
    have hs : scanLog parseDate HydrateLog (fun err => err) (last.row data2)
        = .ok { ID := last.ID, LogType := last.LogType, Hash := last.Hash,
                Date := t, Data := d } :=
      (scanLog_ok_iff _ _ _ _ _).2 ⟨t, d, ht, hd, rfl⟩
    simp [hs]

/-- C26, at the empty table after the append of the entries 0, 1 and 2, which is the
table `threeLogStore`: `LastLog` returns the entry 2, the first element of `Logs`. -/
theorem LastLog_greatest_witness :
    AppendLog some emptyLogStore [logEntry 0 "h0", logEntry 1 "h1", logEntry 2 "h2"]
        = .ok threeLogStore
      ∧ LastLog (fun t => .ok t) (fun _ data => .ok data) threeLogStore
        = .ok (some (logEntry 2 "h2"))
      ∧ LastLog (fun t => .ok t) (fun _ data => (.ok data : Except String String))
          emptyLogStore
        = .ok none :=
  ⟨rfl,
    (LastLog_greatest (fun t => .ok t) (fun _ data => .ok data) threeLogStore).2.2.2
      String some emptyLogStore [logEntry 0 "h0", logEntry 1 "h1"] (logEntry 2 "h2") "{}" 7
      "{}" rfl (by simp [emptyLogStore]) (by decide) rfl rfl rfl,
    rfl⟩

end Ledger
